import Mathlib

/-!
Shallow embedding of the Knuth-Bendix completion engine of
`src/knuth-bendix-new.cpp` (class `libsemigroups::KnuthBendix`), together
with proofs about it.

Modelling conventions:
* internal words (`internal_string_type`) are lists of naturals; the
  release-mode codec maps the external letter with index `a` to the
  internal symbol `a + 1` (`uint_to_internal_char`), so internal symbols
  of an alphabet of size `k` lie in `[1, k]`;
* rule objects live in an arena (`KB.arena`); a slot index plays the role
  of the C++ `Rule*` pointer, so object identity, reuse of inactive rules
  and actual deallocation (`delete`) are all observable.  A deallocated
  slot holds `none`;
* the containers `_active_rules`, `_stack`, `_inactive_rules` and
  `_set_rules` hold slot indices;
* `std::list` iterators (`_next_rule_it1/2`) are modelled as
  `Option Nat` positions into the active list, `none` being the `end()`
  sentinel; the iterator adjustments of `add_rule` / `remove_rule` are
  translated index-wise;
* the `Runner` facilities (`running()` / `stopped()`), which are not part
  of the given sources, are modelled from the spec (section 5): a clock
  that ticks once per major loop iteration and a stop threshold
  (`stopAt`); `stopped()` is monotone within a run, like a time bound or
  a stop request;
* every loop of the source that can run an unbounded number of
  iterations takes explicit fuel; running out of fuel returns the state
  reached so far.  The rewriting loop's fuel is a concrete bound
  (`rwFuel`) which is proved sufficient whenever the engine's invariants
  hold, so on such states the model computes exactly what the C++ loop
  computes;
* a ghost field `log` records, for instrumentation only, the word pairs
  handed to `push_stack` that are actually placed on the stack.  No
  modelled operation reads it.
-/

/-- Internal words: sequences of internal symbols. -/
abbrev Word := List Nat

/-- Boolean test that `a` is a prefix of `b` (decidable, executable). -/
def isPref : Word → Word → Bool
  | [], _ => true
  | _ :: _, [] => false
  | a :: as, b :: bs => a == b && isPref as bs

/-- Boolean test that `a` is a suffix of `b`. -/
def isSuff (a b : Word) : Bool := isPref a.reverse b.reverse

/-- Boolean test that `a` occurs in `b` as a contiguous factor; this is the
`std::string::find(x) != npos` test used by `clear_stack`. -/
def isSubstr (a b : Word) : Bool := b.tails.any (fun t => isPref a t)

/-- Lexicographic comparison of words by their symbols. -/
def lexLt : Word → Word → Bool
  | _, [] => false
  | [], _ :: _ => true
  | a :: as, b :: bs => a < b || (a == b && lexLt as bs)

/-- Modelled from the spec: `shortlex_compare(x, y)` (from the library's
`order.hpp`, not among the given sources) decides whether `x` is strictly
smaller than `y` in shortlex order: shorter first, and lexicographic among
words of equal length. -/
def shortlex_compare (a b : Word) : Bool :=
  a.length < b.length || (a.length == b.length && lexLt a b)

/-- Length of the longest common prefix of two words; this models
`detail::maximum_common_prefix` (a helper outside the given sources) by the
length of the matched part. -/
def commonPrefLen : Word → Word → Nat
  | a :: as, b :: bs => if a = b then commonPrefLen as bs + 1 else 0
  | _, _ => 0

/-- Value of a word read as a most-significant-digit-first numeral in base
`b`.  Used only to compute sufficient fuel for the rewriting loop. -/
def val (b : Nat) : Word → Nat
  | [] => 0
  | c :: w => c * b ^ w.length + val b w

/-- All symbols of `w` are internal symbols of an alphabet of size `k`,
i.e. lie in `[1, k]`. -/
def wordOk (k : Nat) (w : Word) : Bool := w.all (fun c => 1 ≤ c && c ≤ k)

/-- The scan of `RuleLookup::operator<` after reversal: compare two
(reversed) words position by position while both have more than one symbol
left and the symbols agree, then compare the symbols where the scan
stopped.  This is the comparator of `_set_rules`. -/
def lookupGo : Word → Word → Bool
  | a :: as, b :: bs =>
    if as.isEmpty || bs.isEmpty then a < b
    else if a == b then lookupGo as bs else a < b
  | _, _ => false

/-- `RuleLookup::operator<`: reverse-lexicographic comparison scanning from
the ends of the words, under which a word and any of its suffixes are
incomparable ("equivalent"). -/
def ruleLookupLt (a b : Word) : Bool := lookupGo a.reverse b.reverse

/-- Equivalence induced by the `std::set` comparator: neither key is
strictly below the other.  For nonempty words this holds exactly when one
is a suffix of the other. -/
def lookupEquiv (a b : Word) : Bool := !ruleLookupLt a b && !ruleLookupLt b a

/-- A rewriting rule: the pair `(_lhs, _rhs)` together with the signed
creation-order identity `_id` (negative while inactive, positive while
active). -/
structure Rule where
  lhs : Word
  rhs : Word
  id : Int
deriving DecidableEq

/-- `Rule::active()`: the sign of the identity encodes the activation
state (modelled from the header; the `.cpp` flips the sign in
`activate` / `deactivate`). -/
def Rule.active (r : Rule) : Bool := 0 < r.id

/-- `Rule::deactivate()`: flip the identity's sign if the rule is active. -/
def Rule.deactivate (r : Rule) : Rule :=
  if r.active then { r with id := -1 * r.id } else r

/-- `Rule::activate()`: flip the identity's sign if the rule is inactive. -/
def Rule.activate (r : Rule) : Rule :=
  if !r.active then { r with id := -1 * r.id } else r

/-- The three overlap-measure policies (`options::overlap`). -/
inductive OverlapPolicy
  | ABC
  | AB_BC
  | MAX_AB_BC
deriving DecidableEq

/-- The overlap measures `ABC`, `AB_BC` and `MAX_AB_BC`; the third
argument `p` is the distance `it - AB->lhs()->cbegin()`, i.e. `|A|`. -/
def policyMeasure : OverlapPolicy → Rule → Rule → Nat → Nat
  | .ABC, _, v, p => p + v.lhs.length
  | .AB_BC, u, v, _ => u.lhs.length + v.lhs.length
  | .MAX_AB_BC, u, v, _ => max u.lhs.length v.lhs.length

/-- Result of the rewriting loop: the rewritten word, whether the loop ran
to completion (it always does when the engine invariants hold, see the
fuel-sufficiency theorems) and how many rule applications happened. -/
structure RwResult where
  result : Word
  completed : Bool
  applies : Nat
deriving DecidableEq

/-- The inner loop of `internal_rewrite` that tops the scanned prefix `v`
back up to `_min_length_lhs_rule - 1` symbols, moving symbols over from
the pending suffix `w`. -/
def refill (m : Nat) : Word → Word → Word × Word
  | v, [] => (v, [])
  | v, c :: w => if v.length < m - 1 then refill m (v ++ [c]) w else (v, c :: w)

/-- The `_set_rules.find(lookup(v_begin, v_end))` step: return a stored
rule whose key is equivalent (under the `RuleLookup` comparator) to the
probe window `v`.  Since the active key set is suffix-free whenever the
engine invariants hold, at most one stored key is equivalent to any probe,
so taking the first matching entry of the list agrees with `std::set`. -/
def findRule (keys : List Rule) (v : Word) : Option Rule :=
  keys.find? (fun r => lookupEquiv v r.lhs)

/-- Main loop of `internal_rewrite` (REWRITE_FROM_LEFT): `v` is the
reduced prefix `[v_begin, v_end)`, `w` the pending suffix
`[w_begin, w_end)`.  Each iteration moves one symbol from `w` to `v`,
probes the rule index with the whole of `v`, and if the found rule's
reducible side fits inside `v` replaces that suffix of `v` by the rule's
replacement side, prepending the replacement to `w`; then `v` is refilled
up to `m - 1` symbols. -/
def rwLoop (keys : List Rule) (m : Nat) : Nat → Word → Word → Nat → RwResult
  | 0, v, w, n => ⟨v ++ w, w.isEmpty, n⟩
  | fuel + 1, v, w, n =>
    match w with
    | [] => ⟨v, true, n⟩
    | c :: w1 =>
      let v1 := v ++ [c]
      match findRule keys v1 with
      | some r =>
        if r.lhs.length ≤ v1.length then
          let p2 := refill m (v1.take (v1.length - r.lhs.length)) (r.rhs ++ w1)
          rwLoop keys m fuel p2.1 p2.2 (n + 1)
        else
          let p2 := refill m v1 w1
          rwLoop keys m fuel p2.1 p2.2 n
      | none =>
        let p2 := refill m v1 w1
        rwLoop keys m fuel p2.1 p2.2 n

/-- Fuel for `rwLoop` on input `u` over an alphabet of size `k`; proved
sufficient whenever every applicable rule strictly decreases shortlex
order (the engine invariant). -/
def rwFuel (k : Nat) (u : Word) : Nat :=
  val (k + 1) u * (u.length + 1) + u.length + 1

/-- `internal_rewrite` on explicit data: early return for words shorter
than the minimum reducible-side length `m`, otherwise the two-cursor loop
starting with the first `m - 1` symbols already scanned. -/
def internalRewriteFull (k m : Nat) (keys : List Rule) (u : Word) : RwResult :=
  if u.length < m then ⟨u, true, 0⟩
  else rwLoop keys m (rwFuel k u) (u.take (m - 1)) (u.drop (m - 1)) 0

/-- The sentinel `std::numeric_limits<size_t>::max()` used to initialise
`_min_length_lhs_rule`. -/
def sizeMax : Nat := 2 ^ 64 - 1

/-- The whole engine state (the data members of `KnuthBendix` that the
given sources touch). -/
structure KB where
  arena : List (Option Rule)
  active : List Nat
  stack : List Nat
  inactive : List Nat
  setRules : List Nat
  totalRules : Nat
  minLhs : Nat
  confl : Bool
  conflKnown : Bool
  nextRule1 : Option Nat
  nextRule2 : Option Nat
  alpha : Nat
  maxRules : Option Nat
  maxOverlap : Option Nat
  checkConflInterval : Option Nat
  policy : OverlapPolicy
  running : Bool
  clock : Nat
  stopAt : Option Nat
  log : List (Word × Word)
deriving DecidableEq

/-- Dereference a rule slot (the model of following a `Rule*`). -/
def KB.getRule (s : KB) (i : Nat) : Rule :=
  (s.arena.getD i none).getD ⟨[], [], 0⟩

/-- Overwrite the rule object in a slot (mutation through a `Rule*`). -/
def KB.setRule (s : KB) (i : Nat) (r : Rule) : KB :=
  { s with arena := s.arena.set i (some r) }

/-- Whether a slot still holds an allocated rule object. -/
def KB.isLive (s : KB) (i : Nat) : Bool := (s.arena.getD i none).isSome

/-- Modelled from the spec: `stopped()` of the `Runner` base; the stop
condition (manual request or time bound) fires from instant `stopAt`
onward and is monotone during a run. -/
def KB.stopped (s : KB) : Bool :=
  match s.stopAt with
  | none => false
  | some t => t ≤ s.clock

/-- Modelled from the spec: one unit of time passes per major loop
iteration (the polling granularity of section 5). -/
def KB.tick (s : KB) : KB := { s with clock := s.clock + 1 }

/-- The current contents of `_set_rules` as rule objects. -/
def KB.rwKeys (s : KB) : List Rule := s.setRules.map s.getRule

/-- The current active rules as rule objects. -/
def activeRules (s : KB) : List Rule := s.active.map s.getRule

/-- `internal_rewrite` as a member: rewrite `u` with the current rule
index and minimum reducible-side length. -/
def KB.internal_rewrite (s : KB) (u : Word) : Word :=
  (internalRewriteFull s.alpha s.minLhs s.rwKeys u).result

/-- `Rule::rewrite()`: rewrite both sides with the owning engine and swap
them if the reducible side became shortlex-smaller than the replacement. -/
def KB.ruleRewrite (s : KB) (r : Rule) : Rule :=
  let l := s.internal_rewrite r.lhs
  let h := s.internal_rewrite r.rhs
  if shortlex_compare l h then ⟨h, l, r.id⟩ else ⟨l, h, r.id⟩

/-- `new_rule()`: bump `_total_rules` and either reuse the front rule of
the inactive pool (clearing it and giving it the fresh negative identity)
or allocate a fresh slot.  Returns the state and the slot. -/
def KB.newRule (s : KB) : KB × Nat :=
  let t := s.totalRules + 1
  match s.inactive with
  | i :: rest =>
    ({ s with inactive := rest, totalRules := t,
              arena := s.arena.set i (some ⟨[], [], -(t : Int)⟩) }, i)
  | [] =>
    ({ s with totalRules := t,
              arena := s.arena ++ [some ⟨[], [], -(t : Int)⟩] }, s.arena.length)

/-- `new_rule(lhs, rhs)`: allocate and orient so that the shortlex-larger
word becomes the reducible side (`shortlex_compare(rhs, lhs)` keeps the
given orientation, otherwise the sides are swapped). -/
def KB.newRuleOriented (s : KB) (l r : Word) : KB × Nat :=
  let p := s.newRule
  if shortlex_compare r l then
    (p.1.setRule p.2 ⟨l, r, (p.1.getRule p.2).id⟩, p.2)
  else
    (p.1.setRule p.2 ⟨r, l, (p.1.getRule p.2).id⟩, p.2)

/-- The copying / iterator-range versions of `new_rule`, which do not
reorder the two sides. -/
def KB.newRuleRaw (s : KB) (l r : Word) : KB × Nat :=
  let p := s.newRule
  (p.1.setRule p.2 ⟨l, r, (p.1.getRule p.2).id⟩, p.2)

/-- `add_rule(Rule*)`: emplace the rule's key into `_set_rules` (a
`std::set` insert, which does nothing if an equivalent key is present),
activate the rule, append it to the active list, pull back the two rule
iterators if they were at `end()`, invalidate the cached confluence flag
and update the minimum reducible-side length. -/
def KB.add_rule (s : KB) (i : Nat) : KB :=
  let r := s.getRule i
  let s1 :=
    if s.setRules.any (fun j => lookupEquiv (s.getRule j).lhs r.lhs) then s
    else { s with setRules := i :: s.setRules }
  let s2 := s1.setRule i r.activate
  let s3 := { s2 with active := s2.active ++ [i] }
  { s3 with
    nextRule1 := if s3.nextRule1 = none then some (s3.active.length - 1)
                 else s3.nextRule1,
    nextRule2 := if s3.nextRule2 = none then some (s3.active.length - 1)
                 else s3.nextRule2,
    conflKnown := false,
    minLhs := if r.lhs.length < s3.minLhs then r.lhs.length else s3.minLhs }

/-- `remove_rule(it)` for the iterator at position `idx` of the active
list: deactivate the rule, erase it from the active list (adjusting the
two stored iterators exactly as the four branches of the source do, node
identity being position identity here), erase its key from `_set_rules`,
and return the iterator following the erased one. -/
def KB.remove_rule (s : KB) (idx : Nat) : KB × Option Nat :=
  let i := s.active.getD idx 0
  let s1 := s.setRule i (s.getRule i).deactivate
  let a1 := s1.active.eraseIdx idx
  let retIt : Option Nat := if idx < a1.length then some idx else none
  let adj : Option Nat → Option Nat := fun it =>
    match it with
    | none => none
    | some j => if j = idx then retIt else if idx < j then some (j - 1) else some j
  let s2 := { s1 with active := a1, nextRule1 := adj s1.nextRule1,
                      nextRule2 := adj s1.nextRule2 }
  let lh := (s2.getRule i).lhs
  ({ s2 with setRules := s2.setRules.eraseP (fun j => lookupEquiv (s2.getRule j).lhs lh) },
   retIt)

/-- The for-loop inside `clear_stack` over the active list: every active
rule whose reducible side contains `lh` as a factor is removed and put
back on the stack; otherwise, if its replacement side contains `lh`, that
side is rewritten in place.  `idx` is the iterator; the fuel is the number
of remaining iterations (at most the length of the active list). -/
def removalLoop : Nat → KB → Word → Nat → KB
  | 0, s, _, _ => s
  | fuel + 1, s, lh, idx =>
    if idx < s.active.length then
      let i := s.active.getD idx 0
      let r2 := s.getRule i
      if isSubstr lh r2.lhs then
        let p := s.remove_rule idx
        removalLoop fuel { p.1 with stack := i :: p.1.stack } lh idx
      else
        let s1 :=
          if isSubstr lh r2.rhs then s.setRule i ⟨r2.lhs, s.internal_rewrite r2.rhs, r2.id⟩
          else s
        removalLoop fuel s1 lh (idx + 1)
    else s

/-- `clear_stack` (TEST_2): while the stack is nonempty and no stop has
fired, pop a rule, rewrite and reorient it; if it became trivial put it in
the inactive pool, otherwise remove the active rules it makes redundant
(pushing them back on the stack) and activate it. -/
def clearStack : Nat → KB → KB
  | 0, s => s
  | fuel + 1, s =>
    match s.stack with
    | [] => s
    | i :: rest =>
      if s.stopped then s
      else
        let s0 := s.tick
        let s1 := { s0 with stack := rest }
        let r1 := s1.ruleRewrite (s1.getRule i)
        let s2 := s1.setRule i r1
        if r1.lhs ≠ r1.rhs then
          let s3 := removalLoop s2.active.length s2 r1.lhs 0
          clearStack fuel (s3.add_rule i)
        else
          clearStack fuel { s2 with inactive := s2.inactive ++ [i] }

/-- `push_stack`: if the rule is non-trivial place it on the stack and
drain the stack, otherwise put it straight into the inactive pool.  The
ghost log records the word pair of every rule actually placed on the
stack. -/
def KB.push_stack (fuel : Nat) (s : KB) (i : Nat) : KB :=
  let r := s.getRule i
  if r.lhs ≠ r.rhs then
    clearStack fuel { s with stack := i :: s.stack, log := s.log ++ [(r.lhs, r.rhs)] }
  else
    { s with inactive := s.inactive ++ [i] }

/-- Loop body count of `overlap`: at entry `cnt + 1` the position examined
is `it = limit + cnt + 1` (the loop runs `it` from `|u.lhs| - 1` down
while `it > limit`).  The loop re-reads both rules each iteration and
gives up as soon as either signed identity differs from the value captured
at scan start, a stop fires, or the overlap measure exceeds the bound. -/
def overlapGo (uI vI : Nat) (uId vId : Int) (limit fuel : Nat) : Nat → KB → KB
  | 0, s => s
  | cnt + 1, s =>
    let p := limit + cnt + 1
    let u := s.getRule uI
    let v := s.getRule vI
    if u.id == uId && v.id == vId && !s.stopped &&
        (match s.maxOverlap with
         | none => true
         | some mo => policyMeasure s.policy u v p ≤ mo) then
      let s0 := s.tick
      let s1 :=
        if isPref (u.lhs.drop p) v.lhs then
          let q := s0.newRuleRaw (u.lhs.take p ++ v.rhs)
                                 (u.rhs ++ v.lhs.drop (u.lhs.length - p))
          q.1.push_stack fuel q.2
        else s0
      overlapGo uI vI uId vId limit fuel cnt s1
    else s

/-- `overlap(u, v)` (OVERLAP_2): capture both identities and the limit
iterator, then scan the proper overlap positions from the shortest
nonempty suffix of `u`'s reducible side downward; at each position where
that suffix `B` is a prefix of `v`'s reducible side, build the candidate
`A·v.rhs -> u.rhs·C` (unoriented) and push it. -/
def KB.overlap (fuel : Nat) (s : KB) (uI vI : Nat) : KB :=
  let u := s.getRule uI
  let v := s.getRule vI
  let limit := u.lhs.length - min u.lhs.length v.lhs.length
  overlapGo uI vI u.id v.id limit fuel (u.lhs.length - 1 - limit) s

/-- Innermost loop of the confluence check: positions `it` of
`rule1.lhs` from the last symbol down to the first (inclusive); at entry
`c + 1` the position is `p = c`.  On a critical pair whose two derived
words do not rewrite to the same word, set `_confluent` to false and
signal the early return. -/
def conflInner (r1 r2 : Rule) : Nat → KB → KB × Bool
  | 0, s => (s, false)
  | c + 1, s =>
    if s.running && s.stopped then (s, false)
    else
      let s0 := s.tick
      let b := r1.lhs.drop c
      let m := commonPrefLen b r2.lhs
      if m = b.length ∨ m = r2.lhs.length then
        let word1 := r1.lhs.take c ++ r2.rhs ++ b.drop m
        let word2 := r1.rhs ++ r2.lhs.drop m
        if word1 ≠ word2 then
          if s0.internal_rewrite word1 ≠ s0.internal_rewrite word2 then
            ({ s0 with confl := false }, true)
          else conflInner r1 r2 c s0
        else conflInner r1 r2 c s0
      else conflInner r1 r2 c s0

/-- Middle loop of the confluence check: `rule2` runs over the active
rules in reverse insertion order. -/
def conflMid (r1 : Rule) : List Nat → KB → KB × Bool
  | [], s => (s, false)
  | j :: rest, s =>
    if s.running && s.stopped then (s, false)
    else
      let p := conflInner r1 (s.getRule j) r1.lhs.length s
      if p.2 then (p.1, true) else conflMid r1 rest p.1

/-- Outer loop of the confluence check: `rule1` runs over the active rules
in insertion order. -/
def conflOuter : List Nat → KB → KB × Bool
  | [], s => (s, false)
  | i :: rest, s =>
    if s.running && s.stopped then (s, false)
    else
      let p := conflMid (s.getRule i) s.active.reverse s
      if p.2 then (p.1, true) else conflOuter rest p.1

/-- `confluent()`: false at once on a nonempty stack; otherwise, if the
cached answer is unknown and no stop has fired mid-run, optimistically
cache `true`, scan all overlaps of all ordered pairs of active rules, and
return early on the first mismatch; if the scan ended while a mid-run stop
was active, downgrade the cache to unknown.  Returns the value of
`_confluent` together with the state. -/
def KB.confluent (s : KB) : Bool × KB :=
  if s.stack ≠ [] then (false, s)
  else if !s.conflKnown && (!s.running || !s.stopped) then
    let s1 := { s with confl := true, conflKnown := true }
    let p := conflOuter s1.active s1
    if p.2 then (p.1.confl, p.1)
    else
      let s3 := if p.1.running && p.1.stopped then { p.1 with conflKnown := false }
                else p.1
      (s3.confl, s3)
  else (s.confl, s)

/-- `confluent_known()`. -/
def KB.confluent_known (s : KB) : Bool := s.conflKnown

/-- `finished_impl()`: `confluent_known() && confluent()` with the
short-circuit of `&&`. -/
def KB.finishedImpl (s : KB) : Bool × KB :=
  if s.conflKnown then s.confluent else (false, s)

/-- `number_of_active_rules()`. -/
def KB.number_of_active_rules (s : KB) : Nat := s.active.length

/-- Advance an active-list iterator by one (`++it`), reaching the `end()`
sentinel after the last element. -/
def KB.iterNext (s : KB) (it : Option Nat) : Option Nat :=
  match it with
  | some k => if k + 1 < s.active.length then some (k + 1) else none
  | none => none

/-- `begin()` of the active list (`end()` when the list is empty). -/
def KB.iterBegin (s : KB) : Option Nat :=
  if s.active.isEmpty then none else some 0

/-- Whether an iterator equals `begin()` of the active list. -/
def KB.iterIsBegin (s : KB) (it : Option Nat) : Bool :=
  match it with
  | some k => k = 0
  | none => s.active.isEmpty

/-- First while-loop of `run_impl`: push a copy of every active rule onto
the stack (so that all rules get reduced against each other), advancing
`_next_rule_it1`, until the iterator reaches the end or a stop fires. -/
def runCopyLoop (fuel : Nat) : Nat → KB → KB
  | 0, s => s
  | f + 1, s =>
    match s.nextRule1 with
    | none => s
    | some idx =>
      if s.stopped then s
      else
        let s0 := s.tick
        let i := s0.active.getD idx 0
        let r := s0.getRule i
        let q := s0.newRuleRaw r.lhs r.rhs
        let s2 := q.1.push_stack fuel q.2
        runCopyLoop fuel f { s2 with nextRule1 := s2.iterNext s2.nextRule1 }

/-- Inner while-loop of `run_impl`: walk `_next_rule_it2` backwards toward
`begin()` while `rule1` stays active, generating the overlaps of
`(rule1, rule2)` and, when both are still active, `(rule2, rule1)`;
returns the state and the updated overlap counter `nr`. -/
def runInnerLoop (fuel rule1Slot : Nat) : Nat → Nat → KB → KB × Nat
  | 0, nr, s => (s, nr)
  | f + 1, nr, s =>
    if s.iterIsBegin s.nextRule2 || !(s.getRule rule1Slot).active then (s, nr)
    else
      let idx2 :=
        match s.nextRule2 with
        | some k => k - 1
        | none => s.active.length - 1
      let s0 := { s with nextRule2 := some idx2 }
      let j := s0.active.getD idx2 0
      let s1 := s0.overlap fuel rule1Slot j
      if (s1.getRule rule1Slot).active && (s1.getRule j).active then
        runInnerLoop fuel rule1Slot f (nr + 2) (s1.overlap fuel j rule1Slot)
      else
        runInnerLoop fuel rule1Slot f (nr + 1) s1

/-- Main while-loop of `run_impl`: while `_next_rule_it1` has not reached
the end, the active-rule count is below `_max_rules` and no stop has
fired: take the next outer rule, self-overlap it, run the inner loop, then
possibly re-check confluence (breaking out when it holds) and, when the
outer iterator has reached the end, drain the stack. -/
def runMainLoop (fuel : Nat) : Nat → Nat → KB → KB
  | 0, _, s => s
  | f + 1, nr, s =>
    match s.nextRule1 with
    | none => s
    | some idx =>
      if (match s.maxRules with
          | none => false
          | some m => m ≤ s.active.length) || s.stopped then s
      else
        let s0 := s.tick
        let i := s0.active.getD idx 0
        let s1 := { s0 with nextRule2 := some idx, nextRule1 := s0.iterNext (some idx) }
        let s2 := s1.overlap fuel i i
        let q := runInnerLoop fuel i fuel nr s2
        let cont : KB × Nat × Bool :=
          if (match q.1.checkConflInterval with
              | none => false
              | some ci => ci < q.2) then
            let c := q.1.confluent
            if c.1 then (c.2, 0, true) else (c.2, 0, false)
          else (q.1, q.2, false)
        if cont.2.2 then cont.1
        else
          let s4 := cont.1
          let s5 := if s4.nextRule1 = none then clearStack fuel s4 else s4
          runMainLoop fuel f cont.2.1 s5

/-- Set every slot of `slots` to `none` (the `delete` loop over the
inactive pool at the end of a successful unbounded run). -/
def deleteSlots (ar : List (Option Rule)) (slots : List Nat) : List (Option Rule) :=
  slots.foldl (fun a i => a.set i none) ar

/-- Tail of `run_impl` after the first early return: the too-many-rules
early return, the copy loop, the main loop and the final cache-and-delete
step of a completed unbounded, uninterrupted run. -/
def runTail (fuel : Nat) (sc : KB) : KB :=
  if (match sc.maxRules with
      | none => false
      | some m => m ≤ sc.active.length) then { sc with running := false }
  else
    let sA := { sc with nextRule1 := sc.iterBegin }
    let sB := runCopyLoop fuel fuel sA
    let sC := { sB with nextRule1 := sB.iterBegin }
    let sD := runMainLoop fuel fuel 0 sC
    let sE :=
      if sD.maxOverlap = none && sD.maxRules = none && !sD.stopped then
        { sD with conflKnown := true, confl := true,
                  arena := deleteSlots sD.arena sD.inactive, inactive := [] }
      else sD
    { sE with running := false }

/-- `run_impl`: early return when the system is already confluent with an
empty stack and no stop (the condition
`_stack.empty() && confluent() && !stopped()` with `&&` short-circuit),
or when there are already too many rules; otherwise reduce all rules
against each other (copy loop), run the main overlap loop, and on a
completed unbounded, uninterrupted run cache confluence and delete the
whole inactive pool.  The `Runner` flag `running` is set for the duration
(modelled from the spec). -/
def KB.run_impl (fuel : Nat) (s0 : KB) : KB :=
  let s := { s0 with running := true }
  if s.stack = [] then
    let c := s.confluent
    if c.1 && !c.2.stopped then { c.2 with running := false }
    else runTail fuel c.2
  else runTail fuel s

/-- `run()`: the public entry simply drives `run_impl` (the `Runner`
scaffolding around it is not part of the given sources). -/
def KB.run (fuel : Nat) (s : KB) : KB := s.run_impl fuel

/-- `add_rule_impl(p, q)`: no-op on equal words, otherwise convert both to
internal form (+1 per symbol in release mode), allocate an oriented rule
and push it. -/
def KB.add_rule_impl (fuel : Nat) (s : KB) (p q : Word) : KB :=
  if p = q then s
  else
    let r := s.newRuleOriented (p.map (· + 1)) (q.map (· + 1))
    r.1.push_stack fuel r.2

/-- `rewrite(w)` on an external word: convert to internal form, rewrite,
convert back. -/
def KB.rewriteExt (s : KB) (w : Word) : Word :=
  (s.internal_rewrite (w.map (· + 1))).map (· - 1)

/-- Modelled from the spec: `Presentation::validate_word` (the
presentation collaborator is outside the given sources) accepts exactly
the words over the configured alphabet. -/
def validWord (k : Nat) (w : Word) : Bool := w.all (· < k)

/-- `equal_to(u, v)`: validate both words, return true immediately on
syntactic equality, then on equality of the rewritten forms under the
currently active rules; only if both checks fail run completion and
compare the fully reduced forms.  A validation failure is the
`InvalidSymbol` exception. -/
def KB.equal_to (fuel : Nat) (s : KB) (u v : Word) : Except Unit (Bool × KB) :=
  if !validWord s.alpha u then .error ()
  else if !validWord s.alpha v then .error ()
  else if u = v then .ok (true, s)
  else
    let uu := s.rewriteExt u
    let vv := s.rewriteExt v
    if uu = vv then .ok (true, s)
    else
      let s1 := s.run fuel
      .ok (s1.internal_rewrite (uu.map (· + 1)) = s1.internal_rewrite (vv.map (· + 1)), s1)

/-- `init()`: deactivate every active rule and move it to the inactive
pool, drain the stack into the inactive pool, and reset the settings,
flags, counters and minimum length.  The source does NOT clear
`_set_rules` here — the model keeps that behaviour (see the index-size
results).  The presentation is cleared, so the alphabet size becomes 0. -/
def KB.init (s : KB) : KB :=
  let dar := s.active.foldl
    (fun ar i => ar.set i (some (((ar.getD i none).getD ⟨[], [], 0⟩).deactivate)))
    s.arena
  { s with
    arena := dar,
    active := [],
    stack := [],
    inactive := s.inactive ++ s.active ++ s.stack,
    confl := false,
    conflKnown := false,
    minLhs := sizeMax,
    totalRules := 0,
    nextRule1 := none,
    nextRule2 := none,
    alpha := 0,
    maxRules := none,
    maxOverlap := none,
    checkConflInterval := some 4096,
    policy := .ABC,
    running := false,
    clock := 0,
    stopAt := none }

/-- A freshly constructed engine over an alphabet of size `k`
(`KnuthBendix()` runs `init()` on empty containers; the presentation with
its alphabet is then supplied by the external collaborator). -/
def KB.mk0 (k : Nat) : KB :=
  ⟨[], [], [], [], [], 0, sizeMax, false, false, none, none, k,
   none, none, some 4096, .ABC, false, 0, none, []⟩

/-- Reachable engine states: a fresh engine, staging validated relations
(`add_rule`, whose public boundary validates both words), running
completion, querying confluence or equality, requesting a stop / time
bound, and adjusting the settings.  (`init()` is modelled but kept out of
reachability: it fails to clear `_set_rules`, which corrupts the rule
index — see the index-size results.) -/
inductive Reachable : KB → Prop
  | mk0 : ∀ k, Reachable (KB.mk0 k)
  | addRule : ∀ {s : KB} (fuel : Nat) (p q : Word), Reachable s →
      validWord s.alpha p = true → validWord s.alpha q = true →
      Reachable (s.add_rule_impl fuel p q)
  | run : ∀ {s : KB} (fuel : Nat), Reachable s → Reachable (s.run_impl fuel)
  | conflQ : ∀ {s : KB}, Reachable s → Reachable s.confluent.2
  | finishedQ : ∀ {s : KB}, Reachable s → Reachable s.finishedImpl.2
  | equalToQ : ∀ {s : KB} (fuel : Nat) (u v : Word) (b : Bool) (s1 : KB),
      Reachable s → s.equal_to fuel u v = .ok (b, s1) → Reachable s1
  | stop : ∀ {s : KB} (t : Option Nat), Reachable s →
      Reachable { s with stopAt := t }
  | setMaxRules : ∀ {s : KB} (m : Option Nat), Reachable s →
      Reachable { s with maxRules := m }
  | setMaxOverlap : ∀ {s : KB} (m : Option Nat), Reachable s →
      Reachable { s with maxOverlap := m }
  | setInterval : ∀ {s : KB} (m : Option Nat), Reachable s →
      Reachable { s with checkConflInterval := m }
  | setPolicy : ∀ {s : KB} (p : OverlapPolicy), Reachable s →
      Reachable { s with policy := p }

/-- Characterisation def: the candidate pairs that the spec (amended to
proper overlap positions) predicts `overlap(u, v)` will push, in scan
order: positions `p` with `limit < p < |u.lhs|` taken decreasingly, for
as long as the overlap measure stays within the bound; at each position
where the suffix `u.lhs.drop p` is a prefix of `v.lhs`, the pair
`(A ++ v.rhs, u.rhs ++ C)` exactly when the two words differ. -/
def specCandGo (pol : OverlapPolicy) (mo : Option Nat) (u v : Rule)
    (limit : Nat) : Nat → List (Word × Word)
  | 0 => []
  | cnt + 1 =>
    if (match mo with
        | none => true
        | some b => policyMeasure pol u v (limit + cnt + 1) ≤ b) then
      (if isPref (u.lhs.drop (limit + cnt + 1)) v.lhs then
        (if u.lhs.take (limit + cnt + 1) ++ v.rhs ≠
            u.rhs ++ v.lhs.drop (u.lhs.length - (limit + cnt + 1)) then
          [(u.lhs.take (limit + cnt + 1) ++ v.rhs,
            u.rhs ++ v.lhs.drop (u.lhs.length - (limit + cnt + 1)))]
        else [])
      else []) ++ specCandGo pol mo u v limit cnt
    else []

/-- The full predicted candidate list of one `overlap(u, v)` scan. -/
def specCandidates (pol : OverlapPolicy) (mo : Option Nat) (u v : Rule) :
    List (Word × Word) :=
  specCandGo pol mo u v (u.lhs.length - min u.lhs.length v.lhs.length)
    (u.lhs.length - 1 - (u.lhs.length - min u.lhs.length v.lhs.length))

/-- Hypotheses under which the rewriting engine is exact: a positive
minimum length; every indexed rule oriented (replacement strictly below
reducible side in shortlex), no shorter than the minimum, over the
alphabet; keys pairwise inequivalent (the `std::set` holds at most one key
per equivalence class); and the index in sync with the active list. -/
abbrev rwHyp (s : KB) : Prop :=
  1 ≤ s.minLhs ∧
  (∀ r ∈ s.rwKeys, shortlex_compare r.rhs r.lhs = true ∧
      s.minLhs ≤ r.lhs.length ∧ wordOk s.alpha r.lhs = true ∧
      wordOk s.alpha r.rhs = true) ∧
  s.rwKeys.Pairwise (fun r r2 => lookupEquiv r.lhs r2.lhs = false) ∧
  s.setRules.Perm s.active

/-- The global engine invariant: container slots valid, live and mutually
disjoint; index in sync with the active list; active rules activated,
oriented, no shorter than the cached minimum and with factor-free
reducible sides; stack rules deactivated and nontrivial; inactive rules
deactivated; every allocated rule over the alphabet; a positive cached
minimum; iterators in range. -/
abbrev goodState (s : KB) : Prop :=
  (∀ i ∈ s.active ++ s.stack ++ s.inactive, i < s.arena.length ∧ s.isLive i = true) ∧
  (s.active ++ s.stack ++ s.inactive).Nodup ∧
  s.setRules.Perm s.active ∧
  (∀ i ∈ s.active, 0 < (s.getRule i).id ∧
      shortlex_compare (s.getRule i).rhs (s.getRule i).lhs = true ∧
      s.minLhs ≤ (s.getRule i).lhs.length) ∧
  (∀ i ∈ s.active, ∀ j ∈ s.active, i ≠ j →
      isSubstr (s.getRule i).lhs (s.getRule j).lhs = false) ∧
  (∀ i ∈ s.stack, (s.getRule i).id < 0 ∧ (s.getRule i).lhs ≠ (s.getRule i).rhs) ∧
  (∀ i ∈ s.inactive, (s.getRule i).id < 0) ∧
  (∀ o ∈ s.arena, ∀ r : Rule, o = some r →
      wordOk s.alpha r.lhs = true ∧ wordOk s.alpha r.rhs = true) ∧
  1 ≤ s.minLhs ∧
  (∀ k : Nat, s.nextRule1 = some k → k < s.active.length) ∧
  (∀ k : Nat, s.nextRule2 = some k → k < s.active.length)

/-- Concrete engine: relations `ab = b` and `ba = a` over `{a, b}`. -/
def kbTwo : KB := ((KB.mk0 2).add_rule_impl 30 [0, 1] [1]).add_rule_impl 30 [1, 0] [0]

/-- The same engine after also staging the redundant relation `ab = b`,
which parks a rule object in the inactive pool. -/
def kbRedundant : KB := kbTwo.add_rule_impl 30 [0, 1] [1]

/-- The state reached inside `run_impl 30` on `kbRedundant` just before
the final cache-and-delete step (the value of `sD` there). -/
def kbRunMid : KB :=
  runMainLoop 30 30 0
    (let sB := runCopyLoop 30 30
        (let c := ({ kbRedundant with running := true } : KB).confluent
         { c.2 with nextRule1 := c.2.iterBegin });
     { sB with nextRule1 := sB.iterBegin })

/-- Concrete engine for the rule-bound counterexample: relations
`ab = a` and `cb = c` over `{a, b, c}` (already confluent, two active
rules) with `max_rules` set to 1. -/
def kbBound : KB :=
  { ((KB.mk0 3).add_rule_impl 30 [0, 1] [0]).add_rule_impl 30 [2, 1] [2] with
    maxRules := some 1 }

/-- Concrete engine for the interrupted-confluence-scan witness: one
active rule `aa -> a`, a run in progress, and a stop that fires after the
first polled scan step. -/
def kbStopScan : KB :=
  { KB.mk0 1 with
    arena := [some ⟨[1, 1], [1], 1⟩]
    active := [0]
    setRules := [0]
    minLhs := 2
    running := true
    stopAt := some 1 }

/-- Concrete active pair for the overlap counterexample: rules
`ab -> b` and `abc -> c`; the reducible side of the first is a nonempty
suffix of itself and a prefix of the second's. -/
def kbOverCex : KB :=
  { KB.mk0 3 with
    arena := [some ⟨[1, 2], [2], 1⟩, some ⟨[1, 2, 3], [3], 2⟩]
    active := [0, 1]
    setRules := [0, 1]
    minLhs := 2 }

/-- Concrete engine with rules `ab -> b`, `ba -> a` used by the rewriting
witnesses. -/
def kbRw : KB :=
  { KB.mk0 2 with
    arena := [some ⟨[1, 2], [2], 1⟩, some ⟨[2, 1], [1], 2⟩]
    active := [0, 1]
    setRules := [0, 1]
    minLhs := 2 }

/-- Trace for the index-size results: stage `aa = a` and `bb = b`,
re-initialise, restore the alphabet, and stage `aa = a` again.  The
re-initialisation left two stale keys in `_set_rules`. -/
def kbReinit : KB :=
  { (((KB.mk0 2).add_rule_impl 30 [0, 0] [0]).add_rule_impl 30 [1, 1] [1]).init with
    alpha := 2 }.add_rule_impl 30 [0, 0] [0]

/-- No key's reducible side occurs in `v` as a factor. -/
abbrev noSub (keys : List Rule) (v : Word) : Prop :=
  ∀ r ∈ keys, isSubstr r.lhs v = false

/-- Reflexive shortlex comparison. -/
abbrev slexLe (a b : Word) : Prop := a = b ∨ shortlex_compare a b = true

/-- Well-formed key set for the rewriting engine: every key oriented, no
shorter than `m`, over the alphabet of size `k`, and keys pairwise
inequivalent under the index comparator. -/
abbrev keysOk (k m : Nat) (keys : List Rule) : Prop :=
  (∀ r ∈ keys, shortlex_compare r.rhs r.lhs = true ∧ m ≤ r.lhs.length ∧
      wordOk k r.lhs = true ∧ wordOk k r.rhs = true) ∧
  keys.Pairwise (fun a b => lookupEquiv a.lhs b.lhs = false)

/-- State evolution that deallocates nothing: the target state keeps the
`max_rules` setting and every live arena slot of the source alive. -/
abbrev keepsLive (s t : KB) : Prop :=
  t.maxRules = s.maxRules ∧ (∀ i, s.isLive i = true → t.isLive i = true)

/-- Slot orientation. -/
abbrev oriented (s : KB) (i : Nat) : Prop :=
  shortlex_compare (s.getRule i).rhs (s.getRule i).lhs = true

/-- Pool invariant for C1. -/
abbrev inv1 (s : KB) : Prop :=
  (s.active ++ s.stack ++ s.inactive).Nodup ∧
  (∀ i ∈ s.active ++ s.stack ++ s.inactive, i < s.arena.length) ∧
  (∀ i ∈ s.setRules, i ∈ s.active) ∧
  s.setRules.Pairwise
    (fun a b => lookupEquiv (s.getRule a).lhs (s.getRule b).lhs = false) ∧
  (∀ i ∈ s.active, oriented s i)

/-- Freshly allocated slot. -/
abbrev freshSlot (t : KB) (i : Nat) : Prop :=
  i < t.arena.length ∧ i ∉ t.active ∧ i ∉ t.stack ∧ i ∉ t.inactive

theorem isPref_iff (a b : Word) : isPref a b = true ↔ ∃ t, b = a ++ t := by
  induction a generalizing b with
  | nil => simp [isPref]
  | cons x xs ih =>
    cases b with
    | nil => simp [isPref]
    | cons y ys =>
      simp only [isPref, Bool.and_eq_true, beq_iff_eq]
      constructor
      · rintro ⟨rfl, h⟩
        obtain ⟨t, rfl⟩ := (ih ys).1 h
        exact ⟨t, rfl⟩
      · rintro ⟨t, ht⟩
        rw [List.cons_append] at ht
        injection ht with h1 h2
        exact ⟨h1.symm, (ih ys).2 ⟨t, h2⟩⟩

theorem isSuff_iff (a b : Word) : isSuff a b = true ↔ ∃ h, b = h ++ a := by
  unfold isSuff
  rw [isPref_iff]
  constructor
  · rintro ⟨t, ht⟩
    refine ⟨t.reverse, ?_⟩
    rw [← b.reverse_reverse, ht]
    simp
  · rintro ⟨h, rfl⟩
    exact ⟨h.reverse, by simp⟩

theorem isSubstr_iff (a b : Word) : isSubstr a b = true ↔ ∃ x y, b = x ++ a ++ y := by
  unfold isSubstr
  simp only [List.any_eq_true]
  constructor
  · rintro ⟨t, ht, hp⟩
    rw [List.mem_tails] at ht
    obtain ⟨x, hx⟩ := ht
    obtain ⟨y, rfl⟩ := (isPref_iff _ _).1 hp
    exact ⟨x, y, by rw [← hx, List.append_assoc]⟩
  · rintro ⟨x, y, rfl⟩
    refine ⟨a ++ y, ?_, (isPref_iff _ _).2 ⟨y, rfl⟩⟩
    rw [List.mem_tails]
    exact ⟨x, by rw [List.append_assoc]⟩

theorem isPref_refl (a : Word) : isPref a a = true :=
  (isPref_iff a a).2 ⟨[], by simp⟩

theorem isSuff_refl (a : Word) : isSuff a a = true :=
  (isSuff_iff a a).2 ⟨[], by simp⟩

theorem isSuff_isSubstr {a b : Word} (h : isSuff a b = true) : isSubstr a b = true := by
  obtain ⟨x, rfl⟩ := (isSuff_iff a b).1 h
  exact (isSubstr_iff _ _).2 ⟨x, [], by simp⟩

theorem isPref_length {a b : Word} (h : isPref a b = true) : a.length ≤ b.length := by
  obtain ⟨t, rfl⟩ := (isPref_iff a b).1 h
  simp

theorem isSuff_length {a b : Word} (h : isSuff a b = true) : a.length ≤ b.length := by
  obtain ⟨t, rfl⟩ := (isSuff_iff a b).1 h
  simp

theorem isSubstr_length {a b : Word} (h : isSubstr a b = true) : a.length ≤ b.length := by
  obtain ⟨x, y, rfl⟩ := (isSubstr_iff a b).1 h
  simp
  omega

theorem isSubstr_of_pref {x v2 v : Word} (hp : isPref v2 v = true)
    (h : isSubstr x v2 = true) : isSubstr x v = true := by
  obtain ⟨t, rfl⟩ := (isPref_iff v2 v).1 hp
  obtain ⟨h1, h2, rfl⟩ := (isSubstr_iff x v2).1 h
  exact (isSubstr_iff _ _).2 ⟨h1, h2 ++ t, by simp⟩

theorem isSubstr_snoc {x v : Word} {c : Nat} (h : isSubstr x (v ++ [c]) = true) :
    isSubstr x v = true ∨ isSuff x (v ++ [c]) = true := by
  obtain ⟨h1, h2, he⟩ := (isSubstr_iff x (v ++ [c])).1 h
  rcases List.eq_nil_or_concat h2 with rfl | ⟨t2, d, rfl⟩
  · right
    exact (isSuff_iff _ _).2 ⟨h1, by rw [he]; simp⟩
  · left
    have he2 : v ++ [c] = (h1 ++ x ++ t2) ++ [d] := by rw [he]; simp
    have hrev := congrArg List.reverse he2
    simp only [List.reverse_append, List.reverse_cons, List.reverse_nil,
      List.nil_append, List.cons_append] at hrev
    injection hrev with hcd hvrev
    have hv : v = h1 ++ x ++ t2 := by
      have := congrArg List.reverse hvrev
      simpa using this
    exact (isSubstr_iff _ _).2 ⟨h1, t2, hv⟩

theorem isPref_of_pref_pref {a b c : Word} (ha : isPref a c = true)
    (hb : isPref b c = true) (hl : a.length ≤ b.length) : isPref a b = true := by
  induction a generalizing b c with
  | nil => simp [isPref]
  | cons x xs ih =>
    cases b with
    | nil => simp at hl
    | cons y ys =>
      cases c with
      | nil => simp [isPref] at ha
      | cons z zs =>
        simp only [isPref, Bool.and_eq_true, beq_iff_eq] at ha hb ⊢
        obtain ⟨rfl, ha2⟩ := ha
        obtain ⟨rfl, hb2⟩ := hb
        exact ⟨rfl, ih ha2 hb2 (by simpa using hl)⟩

theorem isSuff_of_suff_suff {a b c : Word} (ha : isSuff a c = true)
    (hb : isSuff b c = true) (hl : a.length ≤ b.length) : isSuff a b = true := by
  unfold isSuff at *
  exact isPref_of_pref_pref ha hb (by simpa using hl)

theorem isSuff_trans {a b c : Word} (h1 : isSuff a b = true)
    (h2 : isSuff b c = true) : isSuff a c = true := by
  obtain ⟨x, rfl⟩ := (isSuff_iff a b).1 h1
  obtain ⟨y, rfl⟩ := (isSuff_iff _ c).1 h2
  exact (isSuff_iff _ _).2 ⟨y ++ x, by simp⟩



theorem lookupGo_not_both {a b : Word} (ha : a ≠ []) (hb : b ≠ []) :
    (lookupGo a b = false ∧ lookupGo b a = false) ↔
      (isPref a b = true ∨ isPref b a = true) := by
  induction a generalizing b with
  | nil => exact absurd rfl ha
  | cons x xs ih =>
    cases b with
    | nil => exact absurd rfl hb
    | cons y ys =>
      cases xs with
      | nil =>
        cases ys with
        | nil =>
          simp [lookupGo, isPref]
          omega
        | cons z zs =>
          simp [lookupGo, isPref]
          omega
      | cons x2 xs2 =>
        cases ys with
        | nil =>
          simp [lookupGo, isPref]
          omega
        | cons z zs =>
          by_cases hxy : x = y
          · subst hxy
            have e1 : lookupGo (x :: x2 :: xs2) (x :: z :: zs)
                = lookupGo (x2 :: xs2) (z :: zs) := by simp [lookupGo]
            have e2 : lookupGo (x :: z :: zs) (x :: x2 :: xs2)
                = lookupGo (z :: zs) (x2 :: xs2) := by simp [lookupGo]
            rw [e1, e2, ih (by simp) (by simp)]
            simp [isPref]
          · have e1 : lookupGo (x :: x2 :: xs2) (y :: z :: zs) = decide (x < y) := by
              simp [lookupGo, hxy]
            have e2 : lookupGo (y :: z :: zs) (x :: x2 :: xs2) = decide (y < x) := by
              simp [lookupGo, Ne.symm hxy]
            rw [e1, e2]
            simp only [decide_eq_false_iff_not, isPref, Bool.and_eq_true, beq_iff_eq]
            constructor
            · rintro ⟨ha1, ha2⟩
              omega
            · rintro (⟨h3, -⟩ | ⟨h3, -⟩)
              · exact absurd h3 hxy
              · exact absurd h3.symm hxy

theorem lookupEquiv_iff {a b : Word} (ha : a ≠ []) (hb : b ≠ []) :
    lookupEquiv a b = true ↔ (isSuff a b = true ∨ isSuff b a = true) := by
  unfold lookupEquiv ruleLookupLt
  simp only [Bool.and_eq_true, Bool.not_eq_true']
  rw [lookupGo_not_both (by simpa using ha) (by simpa using hb)]
  unfold isSuff
  exact Iff.rfl

theorem lookupGo_self (a : Word) : lookupGo a a = false := by
  induction a with
  | nil => rfl
  | cons x xs ih =>
    cases xs with
    | nil => simp [lookupGo]
    | cons y ys => simpa [lookupGo] using ih

theorem lookupEquiv_refl (a : Word) : lookupEquiv a a = true := by
  unfold lookupEquiv ruleLookupLt
  simp [lookupGo_self]

theorem lookupEquiv_symm (a b : Word) : lookupEquiv a b = lookupEquiv b a := by
  unfold lookupEquiv
  exact Bool.and_comm _ _

theorem lexLt_irrefl (a : Word) : lexLt a a = false := by
  induction a with
  | nil => rfl
  | cons x xs ih => simp [lexLt, ih]

theorem shortlex_irrefl (a : Word) : shortlex_compare a a = false := by
  simp [shortlex_compare, lexLt_irrefl]

theorem lexLt_eq_of_not_both {a b : Word} (hl : a.length = b.length)
    (h1 : lexLt a b = false) (h2 : lexLt b a = false) : a = b := by
  induction a generalizing b with
  | nil =>
    cases b with
    | nil => rfl
    | cons y ys => simp at hl
  | cons x xs ih =>
    cases b with
    | nil => simp at hl
    | cons y ys =>
      simp only [lexLt, Bool.or_eq_false_iff, Bool.and_eq_false_iff,
        decide_eq_false_iff_not, beq_eq_false_iff_ne] at h1 h2
      obtain ⟨hn1, hr1⟩ := h1
      obtain ⟨hn2, hr2⟩ := h2
      have hxy : x = y := by omega
      subst hxy
      rcases hr1 with hc | hr1
      · exact absurd rfl hc
      · rcases hr2 with hc | hr2
        · exact absurd rfl hc
        · have : xs = ys := ih (by simpa using hl) hr1 hr2
          rw [this]

theorem shortlex_eq_of_not_both {a b : Word} (h1 : shortlex_compare a b = false)
    (h2 : shortlex_compare b a = false) : a = b := by
  simp only [shortlex_compare, Bool.or_eq_false_iff, Bool.and_eq_false_iff,
    decide_eq_false_iff_not, beq_eq_false_iff_ne] at h1 h2
  obtain ⟨hn1, hr1⟩ := h1
  obtain ⟨hn2, hr2⟩ := h2
  have hl : a.length = b.length := by omega
  rcases hr1 with hc | hr1
  · exact absurd hl hc
  · rcases hr2 with hc | hr2
    · exact absurd hl.symm hc
    · exact lexLt_eq_of_not_both hl hr1 hr2

theorem shortlex_length_le {a b : Word} (h : shortlex_compare a b = true) :
    a.length ≤ b.length := by
  simp only [shortlex_compare, Bool.or_eq_true, Bool.and_eq_true,
    decide_eq_true_eq, beq_iff_eq] at h
  rcases h with h | ⟨h, -⟩ <;> omega

theorem lexLt_trans {a b c : Word} (h1 : lexLt a b = true) (h2 : lexLt b c = true) :
    lexLt a c = true := by
  induction a generalizing b c with
  | nil =>
    cases c with
    | nil =>
      cases b with
      | nil => exact h1
      | cons y ys => simp [lexLt] at h2
    | cons z zs => simp [lexLt]
  | cons x xs ih =>
    cases b with
    | nil => simp [lexLt] at h1
    | cons y ys =>
      cases c with
      | nil => simp [lexLt] at h2
      | cons z zs =>
        simp only [lexLt, Bool.or_eq_true, Bool.and_eq_true, decide_eq_true_eq,
          beq_iff_eq] at h1 h2 ⊢
        rcases h1 with h1 | ⟨rfl, h1⟩
        · rcases h2 with h2 | ⟨rfl, h2⟩
          · left; omega
          · left; exact h1
        · rcases h2 with h2 | ⟨rfl, h2⟩
          · left; exact h2
          · right; exact ⟨rfl, ih h1 h2⟩

theorem shortlex_trans {a b c : Word} (h1 : shortlex_compare a b = true)
    (h2 : shortlex_compare b c = true) : shortlex_compare a c = true := by
  simp only [shortlex_compare, Bool.or_eq_true, Bool.and_eq_true,
    decide_eq_true_eq, beq_iff_eq] at h1 h2 ⊢
  rcases h1 with h1 | ⟨hl1, h1⟩
  · rcases h2 with h2 | ⟨hl2, h2⟩
    · left; omega
    · left; omega
  · rcases h2 with h2 | ⟨hl2, h2⟩
    · left; omega
    · right; exact ⟨by omega, lexLt_trans h1 h2⟩

theorem lexLt_append_left (x : Word) {a b : Word} (h : lexLt a b = true) :
    lexLt (x ++ a) (x ++ b) = true := by
  induction x with
  | nil => simpa using h
  | cons c cs ih => simp [lexLt, ih]

theorem lexLt_append_right {a b : Word} (y : Word) (hl : a.length = b.length)
    (h : lexLt a b = true) : lexLt (a ++ y) (b ++ y) = true := by
  induction a generalizing b with
  | nil =>
    cases b with
    | nil => simp [lexLt_irrefl] at h
    | cons z zs => simp at hl
  | cons x xs ih =>
    cases b with
    | nil => simp at hl
    | cons z zs =>
      simp only [lexLt, Bool.or_eq_true, Bool.and_eq_true, decide_eq_true_eq,
        beq_iff_eq, List.cons_append] at h ⊢
      rcases h with h | ⟨rfl, h⟩
      · left; exact h
      · right; exact ⟨rfl, ih (by simpa using hl) h⟩

theorem shortlex_repl (x y : Word) {r l : Word}
    (h : shortlex_compare r l = true) :
    shortlex_compare (x ++ r ++ y) (x ++ l ++ y) = true := by
  simp only [shortlex_compare, Bool.or_eq_true, Bool.and_eq_true,
    decide_eq_true_eq, beq_iff_eq, List.length_append] at h ⊢
  rcases h with h | ⟨hl, h⟩
  · left; omega
  · right
    refine ⟨by omega, ?_⟩
    rw [List.append_assoc, List.append_assoc]
    exact lexLt_append_left x (lexLt_append_right y hl h)

theorem shortlex_nil_false (a : Word) : shortlex_compare a [] = false := by
  cases a <;> simp [shortlex_compare, lexLt]

theorem shortlex_lhs_ne_nil {r l : Word} (h : shortlex_compare r l = true) :
    l ≠ [] := by
  intro hl
  subst hl
  rw [shortlex_nil_false] at h
  exact absurd h (by simp)

theorem wordOk_iff {k : Nat} {w : Word} :
    wordOk k w = true ↔ ∀ c ∈ w, 1 ≤ c ∧ c ≤ k := by
  simp [wordOk, List.all_eq_true]

theorem wordOk_append {k : Nat} {x y : Word} :
    wordOk k (x ++ y) = true ↔ wordOk k x = true ∧ wordOk k y = true := by
  simp only [wordOk_iff]
  constructor
  · intro h
    exact ⟨fun c hc => h c (by simp [hc]), fun c hc => h c (by simp [hc])⟩
  · rintro ⟨h1, h2⟩ c hc
    rcases List.mem_append.1 hc with hc | hc
    · exact h1 c hc
    · exact h2 c hc

theorem wordOk_take {k : Nat} {w : Word} (h : wordOk k w = true) (n : Nat) :
    wordOk k (w.take n) = true := by
  rw [wordOk_iff] at h ⊢
  exact fun c hc => h c (List.mem_of_mem_take hc)

theorem wordOk_drop {k : Nat} {w : Word} (h : wordOk k w = true) (n : Nat) :
    wordOk k (w.drop n) = true := by
  rw [wordOk_iff] at h ⊢
  exact fun c hc => h c (List.mem_of_mem_drop hc)

theorem val_append (b : Nat) (x y : Word) :
    val b (x ++ y) = val b x * b ^ y.length + val b y := by
  induction x with
  | nil => simp [val]
  | cons c cs ih =>
    simp only [List.cons_append, val, List.append_eq, List.length_append,
      pow_add, ih]
    ring

theorem val_lt_pow {k : Nat} {w : Word} (h : ∀ c ∈ w, c ≤ k) :
    val (k + 1) w < (k + 1) ^ w.length := by
  induction w with
  | nil => simp [val]
  | cons c cs ih =>
    have hc : c ≤ k := h c (by simp)
    have hcs : val (k + 1) cs < (k + 1) ^ cs.length :=
      ih (fun d hd => h d (by simp [hd]))
    simp only [val, List.length_cons, pow_succ]
    calc c * (k + 1) ^ cs.length + val (k + 1) cs
        < c * (k + 1) ^ cs.length + (k + 1) ^ cs.length := by omega
      _ = (c + 1) * (k + 1) ^ cs.length := by ring
      _ ≤ (k + 1) * (k + 1) ^ cs.length := by
          exact Nat.mul_le_mul_right _ (by omega)
      _ = (k + 1) ^ cs.length * (k + 1) := by ring

theorem pow_le_val {k : Nat} {w : Word} (hne : w ≠ []) (h : ∀ c ∈ w, 1 ≤ c) :
    (k + 1) ^ (w.length - 1) ≤ val (k + 1) w := by
  cases w with
  | nil => exact absurd rfl hne
  | cons c cs =>
    have hc : 1 ≤ c := h c (by simp)
    simp only [val, List.length_cons, Nat.add_sub_cancel]
    calc (k + 1) ^ cs.length = 1 * (k + 1) ^ cs.length := by ring
      _ ≤ c * (k + 1) ^ cs.length := Nat.mul_le_mul_right _ hc
      _ ≤ c * (k + 1) ^ cs.length + val (k + 1) cs := by omega

theorem val_mono {k : Nat} {x y : Word} (hx : wordOk k x = true)
    (hy : wordOk k y = true) (h : shortlex_compare x y = true) :
    val (k + 1) x < val (k + 1) y := by
  rw [wordOk_iff] at hx hy
  simp only [shortlex_compare, Bool.or_eq_true, Bool.and_eq_true,
    decide_eq_true_eq, beq_iff_eq] at h
  rcases h with h | ⟨hl, h⟩
  · have h1 : val (k + 1) x < (k + 1) ^ x.length :=
      val_lt_pow (fun c hc => (hx c hc).2)
    have hyne : y ≠ [] := by
      intro hy0
      subst hy0
      simp at h
    have h2 : (k + 1) ^ (y.length - 1) ≤ val (k + 1) y :=
      pow_le_val hyne (fun c hc => (hy c hc).1)
    have h3 : (k + 1) ^ x.length ≤ (k + 1) ^ (y.length - 1) :=
      Nat.pow_le_pow_right (by omega) (by omega)
    omega
  · induction x generalizing y with
    | nil =>
      cases y with
      | nil => simp [lexLt] at h
      | cons z zs => simp at hl
    | cons c cs ih =>
      cases y with
      | nil => simp [lexLt] at h
      | cons d ds =>
        have hlen : cs.length = ds.length := by simpa using hl
        simp only [lexLt, Bool.or_eq_true, Bool.and_eq_true, decide_eq_true_eq,
          beq_iff_eq] at h
        rcases h with h | ⟨rfl, h⟩
        · have h1 : val (k + 1) cs < (k + 1) ^ cs.length :=
            val_lt_pow (fun e he => (hx e (by simp [he])).2)
          simp only [val, hlen]
          have hmul : (c + 1) * (k + 1) ^ ds.length ≤ d * (k + 1) ^ ds.length :=
            Nat.mul_le_mul_right _ (by omega)
          have : c * (k + 1) ^ ds.length + (k + 1) ^ ds.length
              = (c + 1) * (k + 1) ^ ds.length := by ring
          rw [hlen] at h1
          omega
        · have hrec : val (k + 1) cs < val (k + 1) ds :=
            ih (fun e he => hx e (by simp [he]))
               (fun e he => hy e (by simp [he])) hlen h
          simp only [val, hlen]
          omega

theorem refill_concat (m : Nat) (v w : Word) :
    (refill m v w).1 ++ (refill m v w).2 = v ++ w := by
  induction w generalizing v with
  | nil => simp [refill]
  | cons c w1 ih =>
    simp only [refill]
    by_cases h : v.length < m - 1
    · rw [if_pos h, ih]
      simp
    · rw [if_neg h]

theorem refill_len_le (m : Nat) (v w : Word) :
    (refill m v w).2.length ≤ w.length := by
  induction w generalizing v with
  | nil => simp [refill]
  | cons c w1 ih =>
    simp only [refill]
    by_cases h : v.length < m - 1
    · rw [if_pos h]
      exact le_trans (ih _) (by simp)
    · rw [if_neg h]

theorem refill_pref (m : Nat) (v w : Word) :
    isPref v (refill m v w).1 = true := by
  induction w generalizing v with
  | nil => simp [refill, isPref_refl]
  | cons c w1 ih =>
    simp only [refill]
    by_cases h : v.length < m - 1
    · rw [if_pos h]
      have h1 := ih (v ++ [c])
      obtain ⟨t, ht⟩ := (isPref_iff _ _).1 h1
      exact (isPref_iff _ _).2 ⟨[c] ++ t, by rw [ht]; simp⟩
    · rw [if_neg h]
      exact isPref_refl v

theorem noSub_of_short {keys : List Rule} {m : Nat}
    (hmin : ∀ r ∈ keys, m ≤ r.lhs.length) {v : Word} (hv : v.length < m) :
    noSub keys v := by
  intro r hr
  by_contra hc
  have h1 : isSubstr r.lhs v = true := by
    cases h2 : isSubstr r.lhs v
    · exact absurd h2 hc
    · rfl
  have := isSubstr_length h1
  have := hmin r hr
  omega

theorem refill_noSub {keys : List Rule} {m : Nat}
    (hmin : ∀ r ∈ keys, m ≤ r.lhs.length) {v : Word} (w : Word)
    (hv : noSub keys v) : noSub keys (refill m v w).1 := by
  induction w generalizing v with
  | nil => simpa [refill] using hv
  | cons c w1 ih =>
    simp only [refill]
    by_cases h : v.length < m - 1
    · rw [if_pos h]
      refine ih ?_
      refine noSub_of_short hmin ?_
      simp only [List.length_append, List.length_cons, List.length_nil]
      omega
    · rw [if_neg h]
      exact hv

theorem findRule_none_no_suffix {keys : List Rule} {v : Word}
    (hNe : ∀ r ∈ keys, r.lhs ≠ []) (hv : v ≠ [])
    (h : findRule keys v = none) : ∀ r ∈ keys, isSuff r.lhs v = false := by
  intro r hr
  have h1 := List.find?_eq_none.1 h r hr
  cases h2 : isSuff r.lhs v
  · rfl
  · exfalso
    have h3 : lookupEquiv v r.lhs = true :=
      (lookupEquiv_iff hv (hNe r hr)).2 (Or.inr h2)
    simp [h3] at h1

theorem keys_eq_of_equiv {keys : List Rule} {r r2 : Rule}
    (hPw : keys.Pairwise (fun a b => lookupEquiv a.lhs b.lhs = false))
    (hr : r ∈ keys) (hr2 : r2 ∈ keys)
    (he : lookupEquiv r.lhs r2.lhs = true) : r = r2 := by
  induction keys with
  | nil => simp at hr
  | cons k ks ih =>
    rw [List.pairwise_cons] at hPw
    obtain ⟨hk, hPw2⟩ := hPw
    rcases List.mem_cons.1 hr with hre | hrt
    · rcases List.mem_cons.1 hr2 with hre2 | hrt2
      · rw [hre, hre2]
      · subst hre
        exact absurd he (by simp [hk r2 hrt2])
    · rcases List.mem_cons.1 hr2 with hre2 | hrt2
      · subst hre2
        rw [lookupEquiv_symm] at he
        exact absurd he (by simp [hk r hrt])
      · exact ih hPw2 hrt hrt2

theorem isSuff_eq_of_length {a b : Word} (h : isSuff a b = true)
    (hl : b.length ≤ a.length) : a = b := by
  obtain ⟨x, rfl⟩ := (isSuff_iff a b).1 h
  have : x = [] := by
    have := List.length_append x a
    cases x with
    | nil => rfl
    | cons c cs => simp at hl ⊢; omega
  subst this
  simp

theorem findRule_suffix_found {keys : List Rule} {v : Word} {r0 : Rule}
    (hNe : ∀ r ∈ keys, r.lhs ≠ [])
    (hPw : keys.Pairwise (fun a b => lookupEquiv a.lhs b.lhs = false))
    (hv : v ≠ []) (hr0 : r0 ∈ keys) (hsuf : isSuff r0.lhs v = true) :
    ∃ r, findRule keys v = some r ∧ isSuff r.lhs v = true ∧
      r.lhs.length ≤ v.length := by
  cases hf : findRule keys v with
  | none =>
    have := findRule_none_no_suffix hNe hv hf r0 hr0
    rw [hsuf] at this
    exact absurd this (by simp)
  | some r =>
    have hmem : r ∈ keys := List.mem_of_find?_eq_some hf
    have heq : lookupEquiv v r.lhs = true := by
      have := List.find?_some hf
      simpa using this
    rcases (lookupEquiv_iff hv (hNe r hmem)).1 heq with hcase | hcase
    · -- v is a suffix of r.lhs; then r0.lhs is a suffix of r.lhs, forcing r = r0
      have h1 : isSuff r0.lhs r.lhs = true := isSuff_trans hsuf hcase
      have h2 : lookupEquiv r0.lhs r.lhs = true :=
        (lookupEquiv_iff (hNe r0 hr0) (hNe r hmem)).2 (Or.inl h1)
      have h3 : r0 = r := keys_eq_of_equiv hPw hr0 hmem h2
      subst h3
      exact ⟨r0, rfl, hsuf, isSuff_length hsuf⟩
    · exact ⟨r, rfl, hcase, isSuff_length hcase⟩

theorem findRule_some_suffix {keys : List Rule} {v : Word} {r : Rule}
    (hNe : ∀ r2 ∈ keys, r2.lhs ≠ []) (hv : v ≠ [])
    (hf : findRule keys v = some r) (hlen : r.lhs.length ≤ v.length) :
    isSuff r.lhs v = true := by
  have hmem : r ∈ keys := List.mem_of_find?_eq_some hf
  have heq : lookupEquiv v r.lhs = true := by
    have := List.find?_some hf
    simpa using this
  rcases (lookupEquiv_iff hv (hNe r hmem)).1 heq with hcase | hcase
  · have : v = r.lhs := isSuff_eq_of_length hcase hlen
    rw [this]
    exact isSuff_refl _
  · exact hcase

theorem findRule_big_no_suffix {keys : List Rule} {v : Word} {r : Rule}
    (hNe : ∀ r2 ∈ keys, r2.lhs ≠ [])
    (hPw : keys.Pairwise (fun a b => lookupEquiv a.lhs b.lhs = false))
    (hv : v ≠ []) (hf : findRule keys v = some r)
    (hlen : v.length < r.lhs.length) :
    ∀ r0 ∈ keys, isSuff r0.lhs v = false := by
  intro r0 hr0
  cases hs : isSuff r0.lhs v
  · rfl
  · exfalso
    obtain ⟨r2, hf2, hsuf2, hlen2⟩ := findRule_suffix_found hNe hPw hv hr0 hs
    rw [hf] at hf2
    injection hf2 with hf2
    subst hf2
    omega

theorem slexLe_refl (a : Word) : slexLe a a := Or.inl rfl

theorem slexLe_trans {a b c : Word} (h1 : slexLe a b) (h2 : slexLe b c) :
    slexLe a c := by
  rcases h1 with rfl | h1
  · exact h2
  · rcases h2 with rfl | h2
    · exact Or.inr h1
    · exact Or.inr (shortlex_trans h1 h2)

theorem slexLe_of_lt_of_le {a b c : Word} (h1 : shortlex_compare a b = true)
    (h2 : slexLe b c) : shortlex_compare a c = true := by
  rcases h2 with rfl | h2
  · exact h1
  · exact shortlex_trans h1 h2

theorem rwStep_apply_decomp {keys : List Rule} {v : Word} {c : Nat} {r : Rule}
    (hNe : ∀ r2 ∈ keys, r2.lhs ≠ [])
    (hf : findRule keys (v ++ [c]) = some r)
    (hlen : r.lhs.length ≤ (v ++ [c]).length) :
    ∃ x, v ++ [c] = x ++ r.lhs ∧
      (v ++ [c]).take ((v ++ [c]).length - r.lhs.length) = x ∧
      x.length ≤ v.length := by
  have hv : (v ++ [c]) ≠ [] := by simp
  have hsuf := findRule_some_suffix hNe hv hf hlen
  obtain ⟨x, hx⟩ := (isSuff_iff _ _).1 hsuf
  refine ⟨x, hx, ?_, ?_⟩
  · rw [hx]
    have h1 : (x ++ r.lhs).length - r.lhs.length = x.length := by simp
    rw [h1]
    exact List.take_left ..
  · have hmem : r ∈ keys := List.mem_of_find?_eq_some hf
    have h2 : r.lhs ≠ [] := hNe r hmem
    have h3 : 1 ≤ r.lhs.length := by
      cases hl : r.lhs with
      | nil => exact absurd hl h2
      | cons d ds => simp
    have h4 := congrArg List.length hx
    simp only [List.length_append, List.length_cons, List.length_nil] at h4
    omega

theorem rwLoop_le {keys : List Rule} (m : Nat)
    (hNe : ∀ r ∈ keys, r.lhs ≠ [])
    (hk : ∀ r ∈ keys, shortlex_compare r.rhs r.lhs = true) :
    ∀ fuel v w n, slexLe (rwLoop keys m fuel v w n).result (v ++ w) := by
  intro fuel
  induction fuel with
  | zero => intro v w n; exact Or.inl rfl
  | succ f ih =>
    intro v w n
    cases w with
    | nil =>
      simp only [rwLoop]
      exact Or.inl (by simp)
    | cons c w1 =>
      cases hfind : findRule keys (v ++ [c]) with
      | none =>
        have he : rwLoop keys m (f+1) v (c :: w1) n
            = rwLoop keys m f (refill m (v ++ [c]) w1).1 (refill m (v ++ [c]) w1).2 n := by
          simp only [rwLoop, hfind]
        rw [he]
        have h1 := ih (refill m (v ++ [c]) w1).1 (refill m (v ++ [c]) w1).2 n
        rw [refill_concat] at h1
        simpa using h1
      | some r =>
        by_cases hlen : r.lhs.length ≤ (v ++ [c]).length
        · have he : rwLoop keys m (f+1) v (c :: w1) n
              = rwLoop keys m f
                  (refill m ((v ++ [c]).take ((v ++ [c]).length - r.lhs.length)) (r.rhs ++ w1)).1
                  (refill m ((v ++ [c]).take ((v ++ [c]).length - r.lhs.length)) (r.rhs ++ w1)).2
                  (n+1) := by
            simp only [rwLoop, hfind, if_pos hlen]
          rw [he]
          obtain ⟨x, hx, hxt, hxl⟩ := rwStep_apply_decomp hNe hfind hlen
          rw [hxt]
          have h1 := ih (refill m x (r.rhs ++ w1)).1 (refill m x (r.rhs ++ w1)).2 (n+1)
          rw [refill_concat] at h1
          have hmem : r ∈ keys := List.mem_of_find?_eq_some hfind
          have hlt : shortlex_compare (x ++ (r.rhs ++ w1)) (v ++ c :: w1) = true := by
            have h2 : v ++ c :: w1 = (v ++ [c]) ++ w1 := by simp
            rw [h2, hx, List.append_assoc]
            have h3 := shortlex_repl x w1 (hk r hmem)
            rw [List.append_assoc, List.append_assoc] at h3
            exact h3
          exact slexLe_trans h1 (Or.inr hlt)
        · have he : rwLoop keys m (f+1) v (c :: w1) n
              = rwLoop keys m f (refill m (v ++ [c]) w1).1 (refill m (v ++ [c]) w1).2 n := by
            simp only [rwLoop, hfind, if_neg hlen]
          rw [he]
          have h1 := ih (refill m (v ++ [c]) w1).1 (refill m (v ++ [c]) w1).2 n
          rw [refill_concat] at h1
          simpa using h1

theorem rwLoop_wordOk {keys : List Rule} (m : Nat) {k : Nat}
    (hNe : ∀ r ∈ keys, r.lhs ≠ [])
    (hk2 : ∀ r ∈ keys, wordOk k r.rhs = true) :
    ∀ fuel v w n, wordOk k (v ++ w) = true →
      wordOk k (rwLoop keys m fuel v w n).result = true := by
  intro fuel
  induction fuel with
  | zero => intro v w n h; exact h
  | succ f ih =>
    intro v w n h
    cases w with
    | nil =>
      simp only [rwLoop]
      simpa using h
    | cons c w1 =>
      have hsplit : wordOk k (v ++ [c]) = true ∧ wordOk k w1 = true := by
        have h2 : wordOk k (v ++ [c] ++ w1) = true := by
          simpa [List.append_assoc] using h
        exact (wordOk_append.1 h2)
      cases hfind : findRule keys (v ++ [c]) with
      | none =>
        have he : rwLoop keys m (f+1) v (c :: w1) n
            = rwLoop keys m f (refill m (v ++ [c]) w1).1 (refill m (v ++ [c]) w1).2 n := by
          simp only [rwLoop, hfind]
        rw [he]
        refine ih _ _ n ?_
        rw [refill_concat]
        rw [show v ++ [c] ++ w1 = v ++ c :: w1 by simp] at *
        exact h
      | some r =>
        by_cases hlen : r.lhs.length ≤ (v ++ [c]).length
        · have he : rwLoop keys m (f+1) v (c :: w1) n
              = rwLoop keys m f
                  (refill m ((v ++ [c]).take ((v ++ [c]).length - r.lhs.length)) (r.rhs ++ w1)).1
                  (refill m ((v ++ [c]).take ((v ++ [c]).length - r.lhs.length)) (r.rhs ++ w1)).2
                  (n+1) := by
            simp only [rwLoop, hfind, if_pos hlen]
          rw [he]
          obtain ⟨x, hx, hxt, hxl⟩ := rwStep_apply_decomp hNe hfind hlen
          rw [hxt]
          refine ih _ _ (n+1) ?_
          rw [refill_concat]
          have hmem : r ∈ keys := List.mem_of_find?_eq_some hfind
          have hwx : wordOk k x = true := by
            have := hsplit.1
            rw [hx] at this
            exact (wordOk_append.1 this).1
          rw [wordOk_append]
          refine ⟨hwx, ?_⟩
          rw [wordOk_append]
          exact ⟨hk2 r hmem, hsplit.2⟩
        · have he : rwLoop keys m (f+1) v (c :: w1) n
              = rwLoop keys m f (refill m (v ++ [c]) w1).1 (refill m (v ++ [c]) w1).2 n := by
            simp only [rwLoop, hfind, if_neg hlen]
          rw [he]
          refine ih _ _ n ?_
          rw [refill_concat]
          rw [show v ++ [c] ++ w1 = v ++ c :: w1 by simp] at *
          exact h

theorem rwLoop_complete {keys : List Rule} (m : Nat) {k : Nat}
    (hNe : ∀ r ∈ keys, r.lhs ≠ [])
    (hk : ∀ r ∈ keys, shortlex_compare r.rhs r.lhs = true)
    (hk2 : ∀ r ∈ keys, wordOk k r.rhs = true) :
    ∀ fuel v w n, wordOk k (v ++ w) = true →
      val (k + 1) (v ++ w) * (v.length + w.length + 1) + w.length + 1 ≤ fuel →
      (rwLoop keys m fuel v w n).completed = true ∧
        (rwLoop keys m fuel v w n).applies ≤ n + val (k + 1) (v ++ w) := by
  intro fuel
  induction fuel with
  | zero =>
    intro v w n h hf
    omega
  | succ f ih =>
    intro v w n h hf
    cases w with
    | nil =>
      refine ⟨by simp [rwLoop], ?_⟩
      simp only [rwLoop]
      omega
    | cons c w1 =>
      have hsplit : wordOk k (v ++ [c]) = true ∧ wordOk k w1 = true := by
        have h2 : wordOk k (v ++ [c] ++ w1) = true := by
          simpa [List.append_assoc] using h
        exact (wordOk_append.1 h2)
      cases hfind : findRule keys (v ++ [c]) with
      | none =>
        have he : rwLoop keys m (f+1) v (c :: w1) n
            = rwLoop keys m f (refill m (v ++ [c]) w1).1 (refill m (v ++ [c]) w1).2 n := by
          simp only [rwLoop, hfind]
        rw [he]
        have hcc : (refill m (v ++ [c]) w1).1 ++ (refill m (v ++ [c]) w1).2
            = v ++ c :: w1 := by
          rw [refill_concat]
          simp
        have hlen2 : (refill m (v ++ [c]) w1).1.length + (refill m (v ++ [c]) w1).2.length
            = v.length + (w1.length + 1) := by
          have := congrArg List.length hcc
          simpa using this
        have hw3 : (refill m (v ++ [c]) w1).2.length ≤ w1.length := refill_len_le _ _ _
        have hres := ih (refill m (v ++ [c]) w1).1 (refill m (v ++ [c]) w1).2 n
          (by rw [hcc]; exact h)
          (by rw [hcc]; simp only [hlen2]; simp only [List.length_cons] at hf; omega)
        rw [hcc] at hres
        simp only [List.length_cons] at *
        exact hres
      | some r =>
        by_cases hlen : r.lhs.length ≤ (v ++ [c]).length
        · have he : rwLoop keys m (f+1) v (c :: w1) n
              = rwLoop keys m f
                  (refill m ((v ++ [c]).take ((v ++ [c]).length - r.lhs.length)) (r.rhs ++ w1)).1
                  (refill m ((v ++ [c]).take ((v ++ [c]).length - r.lhs.length)) (r.rhs ++ w1)).2
                  (n+1) := by
            simp only [rwLoop, hfind, if_pos hlen]
          rw [he]
          obtain ⟨x, hx, hxt, hxl⟩ := rwStep_apply_decomp hNe hfind hlen
          rw [hxt]
          have hmem : r ∈ keys := List.mem_of_find?_eq_some hfind
          have hwx : wordOk k x = true := by
            have := hsplit.1
            rw [hx] at this
            exact (wordOk_append.1 this).1
          have hwNew : wordOk k (x ++ (r.rhs ++ w1)) = true := by
            rw [wordOk_append]
            exact ⟨hwx, by rw [wordOk_append]; exact ⟨hk2 r hmem, hsplit.2⟩⟩
          have hcc : (refill m x (r.rhs ++ w1)).1 ++ (refill m x (r.rhs ++ w1)).2
              = x ++ (r.rhs ++ w1) := refill_concat _ _ _
          have hlt : shortlex_compare (x ++ (r.rhs ++ w1)) (v ++ c :: w1) = true := by
            have h2 : v ++ c :: w1 = (v ++ [c]) ++ w1 := by simp
            rw [h2, hx, List.append_assoc]
            have h3 := shortlex_repl x w1 (hk r hmem)
            rw [List.append_assoc, List.append_assoc] at h3
            exact h3
          have hval : val (k + 1) (x ++ (r.rhs ++ w1)) < val (k + 1) (v ++ c :: w1) :=
            val_mono hwNew h hlt
          have hL : x.length + (r.rhs.length + w1.length) ≤ v.length + (w1.length + 1) := by
            have h4 : r.rhs.length ≤ r.lhs.length := shortlex_length_le (hk r hmem)
            have h5 := congrArg List.length hx
            simp only [List.length_append, List.length_cons, List.length_nil] at h5
            omega
          have hlen2 : (refill m x (r.rhs ++ w1)).1.length + (refill m x (r.rhs ++ w1)).2.length
              = x.length + (r.rhs.length + w1.length) := by
            have := congrArg List.length hcc
            simpa using this
          have hw3 : (refill m x (r.rhs ++ w1)).2.length
              ≤ r.rhs.length + w1.length := by
            have := refill_len_le m x (r.rhs ++ w1)
            simpa using this
          -- fuel arithmetic
          have hfuel2 : val (k + 1) ((refill m x (r.rhs ++ w1)).1 ++ (refill m x (r.rhs ++ w1)).2)
                * ((refill m x (r.rhs ++ w1)).1.length + (refill m x (r.rhs ++ w1)).2.length + 1)
                + (refill m x (r.rhs ++ w1)).2.length + 1 ≤ f := by
            rw [hcc]
            have e1 : val (k + 1) (x ++ (r.rhs ++ w1))
                  * ((refill m x (r.rhs ++ w1)).1.length + (refill m x (r.rhs ++ w1)).2.length + 1)
                ≤ val (k + 1) (x ++ (r.rhs ++ w1)) * (v.length + (w1.length + 1) + 1) :=
              Nat.mul_le_mul_left _ (by omega)
            have e2 : (val (k + 1) (x ++ (r.rhs ++ w1)) + 1) * (v.length + (w1.length + 1) + 1)
                ≤ val (k + 1) (v ++ c :: w1) * (v.length + (w1.length + 1) + 1) :=
              Nat.mul_le_mul_right _ (by omega)
            have e3 : (val (k + 1) (x ++ (r.rhs ++ w1)) + 1) * (v.length + (w1.length + 1) + 1)
                = val (k + 1) (x ++ (r.rhs ++ w1)) * (v.length + (w1.length + 1) + 1)
                  + (v.length + (w1.length + 1) + 1) := by ring
            simp only [List.length_cons] at hf
            have e4 : (refill m x (r.rhs ++ w1)).2.length + 1 ≤ v.length + (w1.length + 1) + 1 := by
              omega
            linarith
          have hres := ih (refill m x (r.rhs ++ w1)).1 (refill m x (r.rhs ++ w1)).2 (n+1)
            (by rw [hcc]; exact hwNew) hfuel2
          rw [hcc] at hres
          exact ⟨hres.1, by omega⟩
        · have he : rwLoop keys m (f+1) v (c :: w1) n
              = rwLoop keys m f (refill m (v ++ [c]) w1).1 (refill m (v ++ [c]) w1).2 n := by
            simp only [rwLoop, hfind, if_neg hlen]
          rw [he]
          have hcc : (refill m (v ++ [c]) w1).1 ++ (refill m (v ++ [c]) w1).2
              = v ++ c :: w1 := by
            rw [refill_concat]
            simp
          have hlen2 : (refill m (v ++ [c]) w1).1.length + (refill m (v ++ [c]) w1).2.length
              = v.length + (w1.length + 1) := by
            have := congrArg List.length hcc
            simpa using this
          have hw3 : (refill m (v ++ [c]) w1).2.length ≤ w1.length := refill_len_le _ _ _
          have hres := ih (refill m (v ++ [c]) w1).1 (refill m (v ++ [c]) w1).2 n
            (by rw [hcc]; exact h)
            (by rw [hcc]; simp only [hlen2]; simp only [List.length_cons] at hf; omega)
          rw [hcc] at hres
          simp only [List.length_cons] at *
          exact hres

theorem rwLoop_irred {keys : List Rule} (m : Nat)
    (hNe : ∀ r ∈ keys, r.lhs ≠ [])
    (hPw : keys.Pairwise (fun a b => lookupEquiv a.lhs b.lhs = false))
    (hmin : ∀ r ∈ keys, m ≤ r.lhs.length) :
    ∀ fuel v w n, noSub keys v →
      (rwLoop keys m fuel v w n).completed = true →
      noSub keys (rwLoop keys m fuel v w n).result := by
  intro fuel
  induction fuel with
  | zero =>
    intro v w n hns hc
    simp only [rwLoop] at hc ⊢
    have hw : w = [] := by
      cases w with
      | nil => rfl
      | cons c w1 => simp at hc
    subst hw
    simpa using hns
  | succ f ih =>
    intro v w n hns hc
    cases w with
    | nil =>
      simp only [rwLoop] at hc ⊢
      exact hns
    | cons c w1 =>
      cases hfind : findRule keys (v ++ [c]) with
      | none =>
        have he : rwLoop keys m (f+1) v (c :: w1) n
            = rwLoop keys m f (refill m (v ++ [c]) w1).1 (refill m (v ++ [c]) w1).2 n := by
          simp only [rwLoop, hfind]
        rw [he] at hc ⊢
        refine ih _ _ n ?_ hc
        refine refill_noSub hmin _ ?_
        intro r hr
        cases hsub : isSubstr r.lhs (v ++ [c])
        · rfl
        · exfalso
          rcases isSubstr_snoc hsub with hin | hsuf
          · have := hns r hr
            rw [hin] at this
            exact absurd this (by simp)
          · have := findRule_none_no_suffix hNe (by simp) hfind r hr
            rw [hsuf] at this
            exact absurd this (by simp)
      | some r =>
        by_cases hlen : r.lhs.length ≤ (v ++ [c]).length
        · have he : rwLoop keys m (f+1) v (c :: w1) n
              = rwLoop keys m f
                  (refill m ((v ++ [c]).take ((v ++ [c]).length - r.lhs.length)) (r.rhs ++ w1)).1
                  (refill m ((v ++ [c]).take ((v ++ [c]).length - r.lhs.length)) (r.rhs ++ w1)).2
                  (n+1) := by
            simp only [rwLoop, hfind, if_pos hlen]
          rw [he] at hc ⊢
          obtain ⟨x, hx, hxt, hxl⟩ := rwStep_apply_decomp hNe hfind hlen
          rw [hxt] at hc ⊢
          refine ih _ _ (n+1) ?_ hc
          refine refill_noSub hmin _ ?_
          have hxpref : isPref x v = true :=
            isPref_of_pref_pref ((isPref_iff _ _).2 ⟨r.lhs, hx⟩)
              ((isPref_iff _ _).2 ⟨[c], rfl⟩) hxl
          intro r2 hr2
          cases hsub : isSubstr r2.lhs x
          · rfl
          · exfalso
            have := hns r2 hr2
            rw [isSubstr_of_pref hxpref hsub] at this
            exact absurd this (by simp)
        · have he : rwLoop keys m (f+1) v (c :: w1) n
              = rwLoop keys m f (refill m (v ++ [c]) w1).1 (refill m (v ++ [c]) w1).2 n := by
            simp only [rwLoop, hfind, if_neg hlen]
          rw [he] at hc ⊢
          refine ih _ _ n ?_ hc
          refine refill_noSub hmin _ ?_
          intro r2 hr2
          cases hsub : isSubstr r2.lhs (v ++ [c])
          · rfl
          · exfalso
            rcases isSubstr_snoc hsub with hin | hsuf
            · have := hns r2 hr2
              rw [hin] at this
              exact absurd this (by simp)
            · have := findRule_big_no_suffix hNe hPw (by simp) hfind
                (by omega) r2 hr2
              rw [hsuf] at this
              exact absurd this (by simp)

theorem rwLoop_stable {keys : List Rule} (m : Nat)
    (hNe : ∀ r ∈ keys, r.lhs ≠ []) :
    ∀ fuel v w n, noSub keys (v ++ w) → w.length + 1 ≤ fuel →
      (rwLoop keys m fuel v w n).result = v ++ w ∧
        (rwLoop keys m fuel v w n).completed = true ∧
        (rwLoop keys m fuel v w n).applies = n := by
  intro fuel
  induction fuel with
  | zero =>
    intro v w n hns hf
    omega
  | succ f ih =>
    intro v w n hns hf
    cases w with
    | nil =>
      simp only [rwLoop]
      exact ⟨by simp, by trivial, by trivial⟩
    | cons c w1 =>
      have hnoApply : ∀ r ∈ keys, r.lhs.length ≤ (v ++ [c]).length →
          isSuff r.lhs (v ++ [c]) = true → False := by
        intro r hr hlen hsuf
        have h1 : isSubstr r.lhs (v ++ c :: w1) = true := by
          refine @isSubstr_of_pref r.lhs (v ++ [c]) (v ++ c :: w1) ?_
            (isSuff_isSubstr hsuf)
          exact (isPref_iff _ _).2 ⟨w1, by simp⟩
        have := hns r hr
        rw [h1] at this
        exact absurd this (by simp)
      cases hfind : findRule keys (v ++ [c]) with
      | none =>
        have he : rwLoop keys m (f+1) v (c :: w1) n
            = rwLoop keys m f (refill m (v ++ [c]) w1).1 (refill m (v ++ [c]) w1).2 n := by
          simp only [rwLoop, hfind]
        rw [he]
        have hcc : (refill m (v ++ [c]) w1).1 ++ (refill m (v ++ [c]) w1).2
            = v ++ c :: w1 := by
          rw [refill_concat]
          simp
        have hres := ih (refill m (v ++ [c]) w1).1 (refill m (v ++ [c]) w1).2 n
          (by rw [hcc]; exact hns)
          (by have := refill_len_le m (v ++ [c]) w1; simp only [List.length_cons] at hf; omega)
        rw [hcc] at hres
        exact hres
      | some r =>
        by_cases hlen : r.lhs.length ≤ (v ++ [c]).length
        · exfalso
          have hmem : r ∈ keys := List.mem_of_find?_eq_some hfind
          exact hnoApply r hmem hlen
            (findRule_some_suffix hNe (by simp) hfind hlen)
        · have he : rwLoop keys m (f+1) v (c :: w1) n
              = rwLoop keys m f (refill m (v ++ [c]) w1).1 (refill m (v ++ [c]) w1).2 n := by
            simp only [rwLoop, hfind, if_neg hlen]
          rw [he]
          have hcc : (refill m (v ++ [c]) w1).1 ++ (refill m (v ++ [c]) w1).2
              = v ++ c :: w1 := by
            rw [refill_concat]
            simp
          have hres := ih (refill m (v ++ [c]) w1).1 (refill m (v ++ [c]) w1).2 n
            (by rw [hcc]; exact hns)
            (by have := refill_len_le m (v ++ [c]) w1; simp only [List.length_cons] at hf; omega)
          rw [hcc] at hres
          exact hres

theorem keysOk_ne {k m : Nat} {keys : List Rule} (h : keysOk k m keys) :
    ∀ r ∈ keys, r.lhs ≠ [] :=
  fun r hr => shortlex_lhs_ne_nil (h.1 r hr).1

theorem internalRewriteFull_complete {k m : Nat} {keys : List Rule} {u : Word}
    (hko : keysOk k m keys) (hu : wordOk k u = true) :
    (internalRewriteFull k m keys u).completed = true ∧
      (internalRewriteFull k m keys u).applies ≤ val (k + 1) u := by
  unfold internalRewriteFull
  by_cases hshort : u.length < m
  · rw [if_pos hshort]
    exact ⟨rfl, by simp⟩
  · rw [if_neg hshort]
    have hcc : u.take (m - 1) ++ u.drop (m - 1) = u := List.take_append_drop _ _
    have h1 := rwLoop_complete m (keysOk_ne hko) (fun r hr => (hko.1 r hr).1)
      (fun r hr => (hko.1 r hr).2.2.2) (rwFuel k u)
      (u.take (m - 1)) (u.drop (m - 1)) 0 (by rw [hcc]; exact hu) ?_
    · rw [hcc] at h1
      exact ⟨h1.1, by have := h1.2; omega⟩
    · rw [hcc]
      have h2 : (u.take (m - 1)).length + (u.drop (m - 1)).length = u.length := by
        simp only [List.length_take, List.length_drop]
        omega
      have h4 : (u.take (m - 1)).length + (u.drop (m - 1)).length + 1
          = u.length + 1 := by omega
      rw [h4]
      have h3 : (u.drop (m - 1)).length ≤ u.length := by simp
      unfold rwFuel
      linarith

theorem internalRewriteFull_le {k m : Nat} {keys : List Rule} {u : Word}
    (hko : keysOk k m keys) :
    slexLe (internalRewriteFull k m keys u).result u := by
  unfold internalRewriteFull
  by_cases hshort : u.length < m
  · rw [if_pos hshort]
    exact Or.inl rfl
  · rw [if_neg hshort]
    have h1 := rwLoop_le m (keysOk_ne hko) (fun r hr => (hko.1 r hr).1)
      (rwFuel k u) (u.take (m - 1)) (u.drop (m - 1)) 0
    rwa [List.take_append_drop] at h1

theorem internalRewriteFull_wordOk {k m : Nat} {keys : List Rule} {u : Word}
    (hko : keysOk k m keys) (hu : wordOk k u = true) :
    wordOk k (internalRewriteFull k m keys u).result = true := by
  unfold internalRewriteFull
  by_cases hshort : u.length < m
  · rw [if_pos hshort]
    exact hu
  · rw [if_neg hshort]
    refine rwLoop_wordOk m (keysOk_ne hko) (fun r hr => (hko.1 r hr).2.2.2) _ _ _ 0 ?_
    rwa [List.take_append_drop]

theorem internalRewriteFull_irred {k m : Nat} {keys : List Rule} {u : Word}
    (hko : keysOk k m keys) (hu : wordOk k u = true) (hm : 1 ≤ m) :
    noSub keys (internalRewriteFull k m keys u).result := by
  have hcompl := (internalRewriteFull_complete hko hu).1
  unfold internalRewriteFull at hcompl ⊢
  by_cases hshort : u.length < m
  · rw [if_pos hshort] at hcompl ⊢
    exact noSub_of_short (fun r hr => (hko.1 r hr).2.1) hshort
  · rw [if_neg hshort] at hcompl ⊢
    refine rwLoop_irred m (keysOk_ne hko) hko.2 (fun r hr => (hko.1 r hr).2.1)
      _ _ _ 0 ?_ hcompl
    refine noSub_of_short (fun r hr => (hko.1 r hr).2.1) ?_
    have := List.length_take_le (m - 1) u
    omega

theorem internalRewriteFull_stable {k m : Nat} {keys : List Rule} {u : Word}
    (hko : keysOk k m keys) (hns : noSub keys u) :
    (internalRewriteFull k m keys u).result = u := by
  unfold internalRewriteFull
  by_cases hshort : u.length < m
  · rw [if_pos hshort]
  · rw [if_neg hshort]
    have hcc : u.take (m - 1) ++ u.drop (m - 1) = u := List.take_append_drop _ _
    have h1 := rwLoop_stable m (keysOk_ne hko) (rwFuel k u)
      (u.take (m - 1)) (u.drop (m - 1)) 0 (by rw [hcc]; exact hns) ?_
    · rw [hcc] at h1
      exact h1.1
    · have h3 : (u.drop (m - 1)).length ≤ u.length := by simp
      unfold rwFuel
      omega

theorem internalRewriteFull_idem {k m : Nat} {keys : List Rule} {u : Word}
    (hko : keysOk k m keys) (hu : wordOk k u = true) (hm : 1 ≤ m) :
    (internalRewriteFull k m keys (internalRewriteFull k m keys u).result).result
      = (internalRewriteFull k m keys u).result :=
  internalRewriteFull_stable hko (internalRewriteFull_irred hko hu hm)

theorem rwHyp_keysOk {s : KB} (h : rwHyp s) : keysOk s.alpha s.minLhs s.rwKeys :=
  ⟨h.2.1, h.2.2.1⟩

theorem activeRules_mem_rwKeys {s : KB} (h : rwHyp s) {r : Rule}
    (hr : r ∈ activeRules s) : r ∈ s.rwKeys := by
  have hperm : s.rwKeys.Perm (activeRules s) := h.2.2.2.map s.getRule
  exact hperm.mem_iff.2 hr

/-- C2: on any engine state whose rule index satisfies the engine
invariants, `internal_rewrite` returns a word containing no active rule's
reducible side as a factor, its two-cursor loop runs to completion on
every word over the alphabet (no exception, total), and rewriting is
idempotent for the fixed rule set: rewriting the result again returns it
unchanged. -/
theorem C2_internal_rewrite_irreducible_total_idem :
    ∀ (s : KB) (w : Word), rwHyp s → wordOk s.alpha w = true →
      (∀ r ∈ activeRules s, isSubstr r.lhs (s.internal_rewrite w) = false) ∧
      (internalRewriteFull s.alpha s.minLhs s.rwKeys w).completed = true ∧
      s.internal_rewrite (s.internal_rewrite w) = s.internal_rewrite w := by
  intro s w hs hw
  have hko := rwHyp_keysOk hs
  have hirr := internalRewriteFull_irred hko hw hs.1
  refine ⟨?_, (internalRewriteFull_complete hko hw).1, ?_⟩
  · intro r hr
    exact hirr r (activeRules_mem_rwKeys hs hr)
  · exact internalRewriteFull_stable hko hirr

theorem C2_witness :
    kbRw.internal_rewrite (kbRw.internal_rewrite [1, 2, 1]) = kbRw.internal_rewrite [1, 2, 1] ∧
      isSubstr (kbRw.getRule 0).lhs (kbRw.internal_rewrite [1, 2, 1]) = false := by
  have h := C2_internal_rewrite_irreducible_total_idem kbRw [1, 2, 1]
    (by decide) (by decide)
  exact ⟨h.2.2, h.1 _ (by decide)⟩

/-- C7: on any engine state whose rule index satisfies the engine
invariants (in particular every active rule's replacement side strictly
below its reducible side in shortlex order), the rewriting loop of
`internal_rewrite` terminates on every word over the alphabet no shorter
than the cached minimum reducible-side length, performing at most
`val (alpha + 1) w` replacement steps. -/
theorem C7_internal_rewrite_terminating :
    ∀ (s : KB) (w : Word), rwHyp s → wordOk s.alpha w = true →
      s.minLhs ≤ w.length →
      (internalRewriteFull s.alpha s.minLhs s.rwKeys w).completed = true ∧
      (internalRewriteFull s.alpha s.minLhs s.rwKeys w).applies
        ≤ val (s.alpha + 1) w := by
  intro s w hs hw _
  exact internalRewriteFull_complete (rwHyp_keysOk hs) hw

theorem C7_witness :
    (internalRewriteFull kbRw.alpha kbRw.minLhs kbRw.rwKeys [1, 2, 1, 2]).completed = true ∧
      (internalRewriteFull kbRw.alpha kbRw.minLhs kbRw.rwKeys [1, 2, 1, 2]).applies
        ≤ val (kbRw.alpha + 1) [1, 2, 1, 2] :=
  C7_internal_rewrite_terminating kbRw [1, 2, 1, 2] (by decide) (by decide) (by decide)

theorem conflInner_shape (r1 r2 : Rule) : ∀ (c : Nat) (s : KB),
    ∃ b t, (conflInner r1 r2 c s).1 = { s with confl := b, clock := t } := by
  intro c
  induction c with
  | zero =>
    intro s
    exact ⟨s.confl, s.clock, by cases s; rfl⟩
  | succ c ih =>
    intro s
    simp only [conflInner]
    split
    · exact ⟨s.confl, s.clock, by cases s; rfl⟩
    · split
      · split
        · split
          · exact ⟨false, s.clock + 1, by cases s; rfl⟩
          · obtain ⟨b, t, ht⟩ := ih s.tick
            exact ⟨b, t, by rw [ht]; cases s; rfl⟩
        · obtain ⟨b, t, ht⟩ := ih s.tick
          exact ⟨b, t, by rw [ht]; cases s; rfl⟩
      · obtain ⟨b, t, ht⟩ := ih s.tick
        exact ⟨b, t, by rw [ht]; cases s; rfl⟩

theorem conflInner_found (r1 r2 : Rule) : ∀ (c : Nat) (s : KB),
    (conflInner r1 r2 c s).2 = true → (conflInner r1 r2 c s).1.confl = false := by
  intro c
  induction c with
  | zero => intro s h; simp [conflInner] at h
  | succ c ih =>
    intro s
    simp only [conflInner]
    split
    · intro h; simp at h
    · split
      · split
        · split
          · intro _; rfl
          · exact ih s.tick
        · exact ih s.tick
      · exact ih s.tick

theorem conflMid_shape (r1 : Rule) : ∀ (l : List Nat) (s : KB),
    ∃ b t, (conflMid r1 l s).1 = { s with confl := b, clock := t } := by
  intro l
  induction l with
  | nil =>
    intro s
    exact ⟨s.confl, s.clock, by cases s; rfl⟩
  | cons j rest ih =>
    intro s
    simp only [conflMid]
    split
    · exact ⟨s.confl, s.clock, by cases s; rfl⟩
    · obtain ⟨b1, t1, h1⟩ := conflInner_shape r1 (s.getRule j) r1.lhs.length s
      split
      · exact ⟨b1, t1, h1⟩
      · obtain ⟨b2, t2, h2⟩ := ih (conflInner r1 (s.getRule j) r1.lhs.length s).1
        refine ⟨b2, t2, ?_⟩
        rw [h2, h1]

theorem conflMid_found (r1 : Rule) : ∀ (l : List Nat) (s : KB),
    (conflMid r1 l s).2 = true → (conflMid r1 l s).1.confl = false := by
  intro l
  induction l with
  | nil => intro s h; simp [conflMid] at h
  | cons j rest ih =>
    intro s
    simp only [conflMid]
    split
    · intro h
      simp at h
    · split
      next hfound =>
        intro _
        exact conflInner_found r1 (s.getRule j) r1.lhs.length s hfound
      next =>
        intro h
        exact ih _ h

theorem conflOuter_shape : ∀ (l : List Nat) (s : KB),
    ∃ b t, (conflOuter l s).1 = { s with confl := b, clock := t } := by
  intro l
  induction l with
  | nil =>
    intro s
    exact ⟨s.confl, s.clock, by cases s; rfl⟩
  | cons i rest ih =>
    intro s
    simp only [conflOuter]
    split
    · exact ⟨s.confl, s.clock, by cases s; rfl⟩
    · obtain ⟨b1, t1, h1⟩ := conflMid_shape (s.getRule i) s.active.reverse s
      split
      · exact ⟨b1, t1, h1⟩
      · obtain ⟨b2, t2, h2⟩ := ih (conflMid (s.getRule i) s.active.reverse s).1
        refine ⟨b2, t2, ?_⟩
        rw [h2, h1]

theorem conflOuter_found : ∀ (l : List Nat) (s : KB),
    (conflOuter l s).2 = true → (conflOuter l s).1.confl = false := by
  intro l
  induction l with
  | nil => intro s h; simp [conflOuter] at h
  | cons i rest ih =>
    intro s
    simp only [conflOuter]
    split
    · intro h
      simp at h
    · split
      next hfound =>
        intro _
        exact conflMid_found (s.getRule i) s.active.reverse s hfound
      next =>
        intro h
        exact ih _ h

theorem confluent_shape (s : KB) :
    ∃ b1 b2 t, s.confluent.2 = { s with confl := b1, conflKnown := b2, clock := t } := by
  simp only [KB.confluent]
  split
  · exact ⟨s.confl, s.conflKnown, s.clock, by cases s; rfl⟩
  · split
    · obtain ⟨b, t, h1⟩ :=
        conflOuter_shape ({ s with confl := true, conflKnown := true } : KB).active
          { s with confl := true, conflKnown := true }
      split
      · exact ⟨b, true, t, by rw [h1]⟩
      · split
        · refine ⟨b, false, t, ?_⟩
          rw [h1]
        · exact ⟨b, true, t, by rw [h1]⟩
    · exact ⟨s.confl, s.conflKnown, s.clock, by cases s; rfl⟩

/-- C4: if `confluent()` is entered during a run (`running`) with an empty
stack and unknown cached state, and the call returns the optimistic value
`true` while the stop condition has fired by the end of the scan (an
interrupted scan), then the cached tri-state is left unknown —
`confluent_known()` is false — and the engine does not report the system
as confluent: `finished_impl()` is false. -/
theorem C4_interrupted_confluence_scan_unknown :
    ∀ s : KB, s.running = true → s.stack = [] → s.conflKnown = false →
      s.confluent.1 = true → s.confluent.2.stopped = true →
      s.confluent.2.conflKnown = false ∧ (s.confluent.2.finishedImpl).1 = false := by
  intro s hrun hstack hkn hc hstop
  suffices h : s.confluent.2.conflKnown = false by
    refine ⟨h, ?_⟩
    simp [KB.finishedImpl, h]
  have hcond1 : ¬(s.stack ≠ []) := by simp [hstack]
  cases hstop0 : s.stopped with
  | true =>
    have hcond2 : (!s.conflKnown && (!s.running || !s.stopped)) = false := by
      simp [hrun, hstop0]
    simp only [KB.confluent, if_neg hcond1, hcond2, Bool.false_eq_true, if_false]
    exact hkn
  | false =>
    have hcond2 : (!s.conflKnown && (!s.running || !s.stopped)) = true := by
      simp [hkn, hstop0]
    simp only [KB.confluent, if_neg hcond1, hcond2, if_true] at hc hstop ⊢
    generalize hgen : conflOuter s.active
        ({ s with confl := true, conflKnown := true } : KB) = p at hc hstop ⊢
    obtain ⟨p1, p2⟩ := p
    simp only at hc hstop ⊢
    cases p2 with
      | true =>
        simp only [if_true] at hc hstop ⊢
        have hfd := conflOuter_found s.active
          ({ s with confl := true, conflKnown := true } : KB) (by rw [hgen])
        rw [hgen] at hfd
        simp only at hfd hc
        rw [hfd] at hc
        exact absurd hc (by simp)
      | false =>
        simp only [Bool.false_eq_true, if_false] at hc hstop ⊢
        obtain ⟨b, t, hsh⟩ := conflOuter_shape s.active
          ({ s with confl := true, conflKnown := true } : KB)
        rw [hgen] at hsh
        simp only at hsh
        have hprun : p1.running = true := by rw [hsh]; exact hrun
        cases hps : p1.stopped with
        | true =>
          have hfix : (p1.running && true) = true := by simp [hprun]
          rw [if_pos hfix]
        | false =>
          rw [hps] at hstop
          simp only [Bool.and_false, Bool.false_eq_true, if_false] at hstop
          rw [hps] at hstop
          exact absurd hstop (by simp)

theorem C4_witness :
    kbStopScan.confluent.2.conflKnown = false ∧
      (kbStopScan.confluent.2.finishedImpl).1 = false :=
  C4_interrupted_confluence_scan_unknown kbStopScan (by decide) (by decide)
    (by decide) (by decide) (by decide)

/-- C3 (amended): when `run_impl` is invoked with the active-rule count
already at or above a finite `max_rules` bound, it terminates at once
without changing the active collection, the rule arena or the stack (only
caches, the clock and the running flag move); the bound is a guard of the
overlap loop, not a cap on the final count, which can exceed the bound
(see the counterexample). -/
theorem C3_run_impl_bound_guard :
    ∀ (fuel : Nat) (s : KB) (mr : Nat), s.maxRules = some mr →
      mr ≤ s.active.length →
      (s.run_impl fuel).active = s.active ∧ (s.run_impl fuel).arena = s.arena ∧
        (s.run_impl fuel).stack = s.stack := by
  intro fuel s mr hmr hle
  have hTail : ∀ t : KB, t.maxRules = some mr → mr ≤ t.active.length →
      runTail fuel t = { t with running := false } := by
    intro t ht hlet
    unfold runTail
    rw [ht]
    split
    · rfl
    · next h =>
        exfalso
        simp at h
        omega
  simp only [KB.run_impl]
  by_cases hstack : s.stack = []
  · rw [if_pos hstack]
    obtain ⟨b1, b2, t, hsh⟩ := confluent_shape ({ s with running := true } : KB)
    split
    · rw [hsh]
      exact ⟨rfl, rfl, rfl⟩
    · rw [hTail ({ s with running := true } : KB).confluent.2 (by rw [hsh]; exact hmr)
        (by rw [hsh]; exact hle)]
      rw [hsh]
      exact ⟨rfl, rfl, rfl⟩
  · rw [if_neg hstack]
    rw [hTail ({ s with running := true } : KB) hmr hle]
    exact ⟨rfl, rfl, rfl⟩

theorem C3_witness :
    (kbBound.run_impl 5).active = kbBound.active ∧
      (kbBound.run_impl 5).arena = kbBound.arena ∧
      (kbBound.run_impl 5).stack = kbBound.stack :=
  C3_run_impl_bound_guard 5 kbBound 1 (by decide) (by decide)

theorem C3_counterexample :
    kbBound.maxRules = some 1 ∧
      (kbBound.run_impl 30).number_of_active_rules = 2 ∧
      ¬((kbBound.run_impl 30).number_of_active_rules ≤ 1) := by
  refine ⟨by decide, by decide, by decide⟩

/-- C8: the overlap scan's loop re-checks both captured signed identities
before every position; as soon as either rule's current identity differs
from the value captured at scan start, the loop performs no further
positions and returns the state unchanged (no error, and no critical pair
is derived from the changed rule: even the instrumentation log is left
untouched). -/
theorem C8_overlap_scan_stops_on_id_change :
    ∀ (uI vI : Nat) (uId vId : Int) (limit fuel cnt : Nat) (s : KB),
      ((s.getRule uI).id ≠ uId ∨ (s.getRule vI).id ≠ vId) →
      overlapGo uI vI uId vId limit fuel cnt s = s ∧
        (overlapGo uI vI uId vId limit fuel cnt s).log = s.log := by
  intro uI vI uId vId limit fuel cnt s h
  have he : overlapGo uI vI uId vId limit fuel cnt s = s := by
    cases cnt with
    | zero => rfl
    | succ c =>
      rcases h with h | h
      · have hb : ((s.getRule uI).id == uId) = false := by simpa using h
        simp [overlapGo, hb]
      · have hb : ((s.getRule vI).id == vId) = false := by simpa using h
        simp [overlapGo, hb]
  exact ⟨he, by rw [he]⟩

theorem C8_witness :
    overlapGo 0 1 5 2 0 5 1 kbRw = kbRw ∧
      (overlapGo 0 1 5 2 0 5 1 kbRw).log = kbRw.log :=
  C8_overlap_scan_stops_on_id_change 0 1 5 2 0 5 1 kbRw (Or.inl (by decide))

/-- C10: `equal_to` validates both words against the alphabet before any
rewriting (raising `InvalidSymbol` otherwise), returns true with the state
untouched (no completion run) when the words are equal or when their
rewritten forms under the currently active rules coincide, and runs
completion only when both checks fail, comparing the fully reduced
words. -/
theorem C10_equal_to_short_circuit :
    ∀ (fuel : Nat) (s : KB) (u v : Word),
      (validWord s.alpha u = false → s.equal_to fuel u v = .error ()) ∧
      (validWord s.alpha u = true → validWord s.alpha v = false →
        s.equal_to fuel u v = .error ()) ∧
      (validWord s.alpha u = true → validWord s.alpha v = true → u = v →
        s.equal_to fuel u v = .ok (true, s)) ∧
      (validWord s.alpha u = true → validWord s.alpha v = true →
        s.rewriteExt u = s.rewriteExt v → s.equal_to fuel u v = .ok (true, s)) ∧
      (validWord s.alpha u = true → validWord s.alpha v = true → u ≠ v →
        s.rewriteExt u ≠ s.rewriteExt v →
        s.equal_to fuel u v = .ok
          ((s.run fuel).internal_rewrite ((s.rewriteExt u).map (· + 1))
              = (s.run fuel).internal_rewrite ((s.rewriteExt v).map (· + 1)),
            s.run fuel)) := by
  intro fuel s u v
  refine ⟨?_, ?_, ?_, ?_, ?_⟩
  · intro hu
    simp [KB.equal_to, hu]
  · intro hu hv
    simp [KB.equal_to, hu, hv]
  · intro hu hv he
    subst he
    simp [KB.equal_to, hu, hv]
  · intro hu hv he
    by_cases huv : u = v
    · subst huv
      simp [KB.equal_to, hu, hv]
    · simp [KB.equal_to, hu, hv, huv, he]
  · intro hu hv huv he
    simp [KB.equal_to, hu, hv, huv, he]

theorem C10_witness :
    kbRw.equal_to 5 [0] [0] = .ok (true, kbRw) ∧
      kbRw.equal_to 5 [5] [0] = .error () := by
  have h1 := C10_equal_to_short_circuit 5 kbRw [0] [0]
  have h2 := C10_equal_to_short_circuit 5 kbRw [5] [0]
  exact ⟨h1.2.2.1 (by decide) (by decide) rfl, h2.1 (by decide)⟩

theorem getD_set_isSome {l : List (Option Rule)} {j : Nat} {r : Rule} {i : Nat}
    (h : (l.getD i none).isSome = true) :
    ((l.set j (some r)).getD i none).isSome = true := by
  simp only [List.getD_eq_getElem?_getD] at h ⊢
  rw [List.getElem?_set]
  split
  · next he =>
      split
      · simp
      · next hlt =>
          exfalso
          cases hx : l[i]? with
          | none => rw [hx] at h; simp at h
          | some o =>
            have hi := (List.getElem?_eq_some_iff.1 hx).1
            rw [he] at hlt
            exact hlt hi
  · exact h

theorem getD_append_isSome {l : List (Option Rule)} {x : Option Rule} {i : Nat}
    (h : (l.getD i none).isSome = true) :
    ((l ++ [x]).getD i none).isSome = true := by
  simp only [List.getD_eq_getElem?_getD] at h ⊢
  cases hx : l[i]? with
  | none => rw [hx] at h; simp at h
  | some o =>
    have hi : i < l.length := (List.getElem?_eq_some_iff.1 hx).1
    rw [List.getElem?_append_left hi, hx]
    simpa [hx] using h

theorem keepsLive_refl (s : KB) : keepsLive s s := ⟨rfl, fun _ h => h⟩

theorem keepsLive_trans {s t u : KB} (h1 : keepsLive s t) (h2 : keepsLive t u) :
    keepsLive s u :=
  ⟨h2.1.trans h1.1, fun i h => h2.2 i (h1.2 i h)⟩

theorem keepsLive_setRule (s : KB) (j : Nat) (r : Rule) :
    keepsLive s (s.setRule j r) := by
  refine ⟨rfl, fun i h => ?_⟩
  unfold KB.isLive at h ⊢
  unfold KB.setRule
  exact getD_set_isSome h

theorem keepsLive_of_fields {s t : KB} (ha : t.arena = s.arena)
    (hm : t.maxRules = s.maxRules) : keepsLive s t := by
  refine ⟨hm, fun i h => ?_⟩
  unfold KB.isLive at h ⊢
  rw [ha]
  exact h

theorem keepsLive_congr {s t : KB} (u : KB) (h : keepsLive s u)
    (ha : t.arena = u.arena) (hm : t.maxRules = u.maxRules) :
    keepsLive s t := by
  refine ⟨hm.trans h.1, fun i hi => ?_⟩
  have h2 := h.2 i hi
  unfold KB.isLive at h2 ⊢
  rw [ha]
  exact h2

theorem keepsLive_iters {s t : KB} (h : keepsLive s t) (a b : Option Nat) :
    keepsLive s { t with nextRule1 := a, nextRule2 := b } :=
  ⟨h.1, h.2⟩

theorem keepsLive_newRule (s : KB) : keepsLive s s.newRule.1 := by
  unfold KB.newRule
  cases s.inactive with
  | nil =>
    refine ⟨rfl, fun i h => ?_⟩
    unfold KB.isLive at h ⊢
    exact getD_append_isSome h
  | cons j rest =>
    refine ⟨rfl, fun i h => ?_⟩
    unfold KB.isLive at h ⊢
    exact getD_set_isSome h

theorem keepsLive_newRuleRaw (s : KB) (l r : Word) :
    keepsLive s (s.newRuleRaw l r).1 := by
  unfold KB.newRuleRaw
  exact keepsLive_trans (keepsLive_newRule s) (keepsLive_setRule _ _ _)

theorem keepsLive_newRuleOriented (s : KB) (l r : Word) :
    keepsLive s (s.newRuleOriented l r).1 := by
  unfold KB.newRuleOriented
  split
  · exact keepsLive_trans (keepsLive_newRule s) (keepsLive_setRule _ _ _)
  · exact keepsLive_trans (keepsLive_newRule s) (keepsLive_setRule _ _ _)

theorem keepsLive_add_rule (s : KB) (i : Nat) : keepsLive s (s.add_rule i) := by
  simp only [KB.add_rule]
  split
  · refine keepsLive_congr (s.setRule i (s.getRule i).activate) ?_ rfl rfl
    exact keepsLive_setRule _ _ _
  · refine keepsLive_congr
      (KB.setRule ({ s with setRules := i :: s.setRules } : KB) i
        (s.getRule i).activate) ?_ rfl rfl
    refine keepsLive_trans ?_ (keepsLive_setRule _ _ _)
    exact keepsLive_of_fields rfl rfl

theorem keepsLive_remove_rule (s : KB) (idx : Nat) :
    keepsLive s (s.remove_rule idx).1 := by
  simp only [KB.remove_rule]
  refine keepsLive_congr
    (s.setRule (s.active.getD idx 0)
      ((s.getRule (s.active.getD idx 0)).deactivate)) ?_ rfl rfl
  exact keepsLive_setRule _ _ _

theorem keepsLive_removalLoop : ∀ (fuel : Nat) (s : KB) (lh : Word) (idx : Nat),
    keepsLive s (removalLoop fuel s lh idx) := by
  intro fuel
  induction fuel with
  | zero => intro s lh idx; exact keepsLive_refl s
  | succ f ih =>
    intro s lh idx
    simp only [removalLoop]
    split
    · split
      · exact keepsLive_trans
          (keepsLive_trans (keepsLive_remove_rule s idx) (keepsLive_refl _))
          (ih _ _ _)
      · split
        · exact keepsLive_trans (keepsLive_setRule _ _ _) (ih _ _ _)
        · exact keepsLive_trans (keepsLive_refl _) (ih _ _ _)
    · exact keepsLive_refl s

theorem keepsLive_clearStack : ∀ (fuel : Nat) (s : KB),
    keepsLive s (clearStack fuel s) := by
  intro fuel
  induction fuel with
  | zero => intro s; exact keepsLive_refl s
  | succ f ih =>
    intro s
    simp only [clearStack]
    split
    · exact keepsLive_refl s
    · split
      · exact keepsLive_refl s
      · split
        · refine keepsLive_trans ?_ (ih _)
          refine keepsLive_trans ?_ (keepsLive_add_rule _ _)
          refine keepsLive_trans ?_ (keepsLive_removalLoop _ _ _ _)
          exact keepsLive_setRule _ _ _
        · refine keepsLive_trans ?_ (ih _)
          exact keepsLive_trans (keepsLive_setRule _ _ _) (keepsLive_refl _)

theorem keepsLive_push_stack (fuel : Nat) (s : KB) (i : Nat) :
    keepsLive s (s.push_stack fuel i) := by
  simp only [KB.push_stack]
  split
  · refine keepsLive_trans ?_ (keepsLive_clearStack fuel _)
    exact keepsLive_of_fields rfl rfl
  · exact keepsLive_of_fields rfl rfl

theorem keepsLive_overlapGo (uI vI : Nat) (uId vId : Int) (limit fuel : Nat) :
    ∀ (cnt : Nat) (s : KB), keepsLive s (overlapGo uI vI uId vId limit fuel cnt s) := by
  intro cnt
  induction cnt with
  | zero => intro s; exact keepsLive_refl s
  | succ c ih =>
    intro s
    simp only [overlapGo]
    split
    · split
      · refine keepsLive_trans ?_ (ih _)
        refine keepsLive_trans ?_ (keepsLive_push_stack _ _ _)
        refine keepsLive_trans ?_ (keepsLive_newRuleRaw _ _ _)
        exact keepsLive_of_fields rfl rfl
      · refine keepsLive_trans ?_ (ih _)
        exact keepsLive_of_fields rfl rfl
    · exact keepsLive_refl s

theorem keepsLive_overlap (fuel : Nat) (s : KB) (uI vI : Nat) :
    keepsLive s (s.overlap fuel uI vI) := by
  simp only [KB.overlap]
  exact keepsLive_overlapGo _ _ _ _ _ _ _ _

theorem keepsLive_confluent (s : KB) : keepsLive s s.confluent.2 := by
  obtain ⟨b1, b2, t, h⟩ := confluent_shape s
  rw [h]
  exact ⟨rfl, fun i hi => hi⟩

theorem keepsLive_runCopyLoop (fuel : Nat) : ∀ (f : Nat) (s : KB),
    keepsLive s (runCopyLoop fuel f s) := by
  intro f
  induction f with
  | zero => intro s; exact keepsLive_refl s
  | succ f2 ih =>
    intro s
    simp only [runCopyLoop]
    split
    · exact keepsLive_refl s
    · split
      · exact keepsLive_refl s
      · refine keepsLive_trans ?_ (ih _)
        refine keepsLive_iters ?_ _ _
        refine keepsLive_trans ?_ (keepsLive_push_stack _ _ _)
        refine keepsLive_trans ?_ (keepsLive_newRuleRaw _ _ _)
        exact keepsLive_of_fields rfl rfl

theorem keepsLive_runInnerLoop (fuel rule1Slot : Nat) : ∀ (f nr : Nat) (s : KB),
    keepsLive s (runInnerLoop fuel rule1Slot f nr s).1 := by
  intro f
  induction f with
  | zero => intro nr s; exact keepsLive_refl s
  | succ f2 ih =>
    intro nr s
    simp only [runInnerLoop]
    split
    · exact keepsLive_refl s
    · split
      · refine keepsLive_trans ?_ (ih _ _)
        refine keepsLive_trans ?_ (keepsLive_overlap _ _ _ _)
        refine keepsLive_trans ?_ (keepsLive_overlap _ _ _ _)
        exact keepsLive_iters (keepsLive_refl s) _ _
      · refine keepsLive_trans ?_ (ih _ _)
        refine keepsLive_trans ?_ (keepsLive_overlap _ _ _ _)
        exact keepsLive_iters (keepsLive_refl s) _ _



set_option maxHeartbeats 2000000 in
theorem keepsLive_runMainLoop (fuel : Nat) : ∀ (f nr : Nat) (s : KB),
    keepsLive s (runMainLoop fuel f nr s) := by
  intro f
  induction f with
  | zero => intro nr s; exact keepsLive_refl s
  | succ f2 ih =>
    intro nr s
    simp only [runMainLoop]
    split
    · exact keepsLive_refl s
    · split
      · exact keepsLive_refl s
      · repeat' split
        all_goals
          repeat
            first
              | exact keepsLive_refl _
              | exact keepsLive_of_fields rfl rfl
              | refine keepsLive_trans ?_ (ih _ _)
              | refine keepsLive_trans ?_ (keepsLive_clearStack _ _)
              | refine keepsLive_trans ?_ (keepsLive_confluent _)
              | refine keepsLive_trans ?_ (keepsLive_runInnerLoop _ _ _ _ _)
              | refine keepsLive_trans ?_ (keepsLive_overlap _ _ _ _)
              | refine keepsLive_iters ?_ _ _

theorem keepsLive_add_rule_impl (fuel : Nat) (s : KB) (p q : Word) :
    keepsLive s (s.add_rule_impl fuel p q) := by
  simp only [KB.add_rule_impl]
  split
  · exact keepsLive_refl s
  · refine keepsLive_trans ?_ (keepsLive_push_stack _ _ _)
    exact keepsLive_newRuleOriented _ _ _

theorem keepsLive_runTail_core {s sD : KB} (hD : keepsLive s sD) (m : Nat)
    (hm : s.maxRules = some m) :
    keepsLive s
      { (if sD.maxOverlap = none && sD.maxRules = none && !sD.stopped then
          { sD with conflKnown := true, confl := true,
                    arena := deleteSlots sD.arena sD.inactive, inactive := [] }
        else sD) with running := false } := by
  split
  · next hcond =>
      exfalso
      simp only [Bool.and_eq_true, decide_eq_true_eq] at hcond
      have h2 := hD.1
      rw [hm] at h2
      rw [hcond.1.2] at h2
      simp at h2
  · exact ⟨hD.1, hD.2⟩

theorem keepsLive_runTail (fuel : Nat) (s : KB) (m : Nat)
    (hm : s.maxRules = some m) : keepsLive s (runTail fuel s) := by
  simp only [runTail]
  split
  · exact keepsLive_of_fields rfl rfl
  · have hD : keepsLive s (runMainLoop fuel fuel 0
        ({ runCopyLoop fuel fuel ({ s with nextRule1 := s.iterBegin } : KB) with
           nextRule1 :=
             (runCopyLoop fuel fuel
               ({ s with nextRule1 := s.iterBegin } : KB)).iterBegin } : KB)) := by
      refine keepsLive_trans ?_ (keepsLive_runMainLoop _ _ _ _)
      refine keepsLive_iters ?_ _ _
      refine keepsLive_trans ?_ (keepsLive_runCopyLoop _ _ _)
      exact keepsLive_iters (keepsLive_refl s) _ _
    exact keepsLive_runTail_core hD m hm

theorem keepsLive_run_impl (fuel : Nat) (s0 : KB) (m : Nat)
    (hm : s0.maxRules = some m) : keepsLive s0 (s0.run_impl fuel) := by
  simp only [KB.run_impl]
  split
  · split
    · refine keepsLive_trans ?_
        (keepsLive_confluent ({ s0 with running := true } : KB))
      exact keepsLive_of_fields rfl rfl
    · have h1 : keepsLive s0 (({ s0 with running := true } : KB).confluent.2) :=
        keepsLive_trans
          (keepsLive_of_fields rfl rfl :
            keepsLive s0 ({ s0 with running := true } : KB))
          (keepsLive_confluent _)
      refine keepsLive_trans h1 (keepsLive_runTail _ _ m ?_)
      rw [h1.1]
      exact hm
  · refine keepsLive_trans
      (keepsLive_of_fields rfl rfl :
        keepsLive s0 ({ s0 with running := true } : KB))
      (keepsLive_runTail _ _ m ?_)
    exact hm

theorem foldl_deact_isSome (l : List Nat) : ∀ (ar : List (Option Rule)) (i : Nat),
    (ar.getD i none).isSome = true →
    ((l.foldl
        (fun a j => a.set j (some (((a.getD j none).getD ⟨[], [], 0⟩).deactivate)))
        ar).getD i none).isSome = true := by
  induction l with
  | nil => intro ar i h; simpa using h
  | cons x xs ih =>
      intro ar i h
      simp only [List.foldl_cons]
      exact ih _ _ (getD_set_isSome h)

theorem init_isLive (s : KB) (i : Nat) (h : s.isLive i = true) :
    s.init.isLive i = true := by
  unfold KB.isLive at h ⊢
  simp only [KB.init]
  exact foldl_deact_isSome _ _ _ h

/-- C5 (corrected): rule objects are retained by rule insertion, and by a
completion run configured with a `max_rules` bound, and `init` itself
destroys no rule object (it only moves rules to the inactive pool); but —
contrary to the claim — a successful unbounded, uninterrupted `run_impl`
does deallocate the whole inactive pool (see the counterexample). -/
theorem C5_rule_objects_retained :
    (∀ (fuel : Nat) (s : KB) (p q : Word) (i : Nat),
        s.isLive i = true → (s.add_rule_impl fuel p q).isLive i = true) ∧
    (∀ (fuel : Nat) (s : KB) (m : Nat), s.maxRules = some m →
        ∀ i, s.isLive i = true → (s.run_impl fuel).isLive i = true) ∧
    (∀ (s : KB) (i : Nat), s.isLive i = true → s.init.isLive i = true) :=
  ⟨fun fuel s p q i h => (keepsLive_add_rule_impl fuel s p q).2 i h,
   fun fuel s m hm i h => (keepsLive_run_impl fuel s m hm).2 i h,
   fun s i h => init_isLive s i h⟩

/-- Witness for C5: the bounded engine `kbBound` (`max_rules = 1`) has a
live rule object in slot 0, and it is still live after `run_impl`. -/
theorem C5_witness : kbBound.isLive 0 = true ∧
    (kbBound.run_impl 30).isLive 0 = true :=
  ⟨by decide, C5_rule_objects_retained.2.1 30 kbBound 1 (by rfl) 0 (by decide)⟩

/-- Counterexample to C5 as stated: completing `kbRedundant` allocates a
rule object in slot 4; it is live in the state `kbRunMid` reached just
before the final step of `run_impl`, yet dead after `run_impl` returns —
so a plain successful run, which is neither `init` nor destruction of the
engine, destroyed it. -/
theorem C5_counterexample : kbRunMid.isLive 4 = true ∧
    (kbRedundant.run_impl 30).isLive 4 = false := by decide

/-- C9 (code bug): `init` does not clear `_set_rules`, so re-initialising
an engine that had active rules and then staging a single relation leaves
two index keys but one active rule, violating the claimed (and asserted)
size invariant `_set_rules.size() == _active_rules.size()` after
`add_rule`. -/
theorem C9_index_size_invariant_fails :
    kbReinit.setRules.length = 2 ∧ kbReinit.active.length = 1 ∧
    ¬ kbReinit.setRules.length = kbReinit.active.length := by decide

theorem shortlex_asymm {a b : Word} (h : shortlex_compare a b = true) :
    shortlex_compare b a = false := by
  by_contra hc
  have h2 : shortlex_compare b a = true := by
    cases hx : shortlex_compare b a
    · exact absurd hx hc
    · rfl
  have := shortlex_trans h h2
  rw [shortlex_irrefl] at this
  exact absurd this (by simp)

theorem shortlex_of_ne_of_nlt {a b : Word} (hne : a ≠ b)
    (h : shortlex_compare a b = false) : shortlex_compare b a = true := by
  cases hx : shortlex_compare b a
  · exact absurd (shortlex_eq_of_not_both h hx) hne
  · rfl

theorem slexLe_lt {a b c : Word} (h1 : slexLe a b)
    (h2 : shortlex_compare b c = true) : shortlex_compare a c = true := by
  rcases h1 with rfl | h1
  · exact h2
  · exact shortlex_trans h1 h2

theorem getRule_set_ne (s : KB) (i j : Nat) (r : Rule) (h : j ≠ i) :
    (s.setRule i r).getRule j = s.getRule j := by
  unfold KB.getRule KB.setRule
  simp only [List.getD_eq_getElem?_getD]
  rw [List.getElem?_set]
  have : ¬ i = j := fun hh => h hh.symm
  simp [this]

theorem getRule_set_self (s : KB) (i : Nat) (r : Rule)
    (h : i < s.arena.length) : (s.setRule i r).getRule i = r := by
  unfold KB.getRule KB.setRule
  simp [List.getD_eq_getElem?_getD, List.getElem?_set_self, h]

theorem getRule_append_lt (s : KB) (x : Option Rule) (j : Nat)
    (h : j < s.arena.length) :
    ({ s with arena := s.arena ++ [x] } : KB).getRule j = s.getRule j := by
  unfold KB.getRule
  simp only [List.getD_eq_getElem?_getD]
  rw [List.getElem?_append, if_pos h]

theorem internalRewriteFull_le_of_oriented {k m : Nat} {keys : List Rule}
    {u : Word} (hk : ∀ r ∈ keys, shortlex_compare r.rhs r.lhs = true) :
    slexLe (internalRewriteFull k m keys u).result u := by
  unfold internalRewriteFull
  by_cases hshort : u.length < m
  · rw [if_pos hshort]
    exact Or.inl rfl
  · rw [if_neg hshort]
    have h1 := rwLoop_le m (fun r hr => shortlex_lhs_ne_nil (hk r hr)) hk
      (rwFuel k u) (u.take (m - 1)) (u.drop (m - 1)) 0
    rwa [List.take_append_drop] at h1

theorem ruleRewrite_nlt (s : KB) (r : Rule) :
    shortlex_compare (s.ruleRewrite r).lhs (s.ruleRewrite r).rhs = false := by
  simp only [KB.ruleRewrite]
  split
  · next h => exact shortlex_asymm h
  · next h => exact Bool.eq_false_iff.mpr (fun hc => h hc)

theorem nodup3 {a b c : List Nat} (h : (a ++ b ++ c).Nodup) :
    a.Nodup ∧ b.Nodup ∧ c.Nodup ∧
    (∀ x ∈ a, x ∉ b ∧ x ∉ c) ∧ (∀ x ∈ b, x ∉ c) := by
  simp only [List.nodup_append, List.disjoint_left, List.mem_append] at h
  obtain ⟨⟨ha, hb, hab⟩, hc, hac⟩ := h
  refine ⟨ha, hb, hc, fun x hx => ⟨hab hx, fun hxc => hac (Or.inl hx) hxc⟩,
    fun x hx hxc => hac (Or.inr hx) hxc⟩

theorem getRule_append_ne (s : KB) (x : Option Rule) (j : Nat)
    (h : j ≠ s.arena.length) :
    ({ s with arena := s.arena ++ [x] } : KB).getRule j = s.getRule j := by
  rcases Nat.lt_or_ge j s.arena.length with hlt | hge
  · exact getRule_append_lt s x j hlt
  · have hgt : s.arena.length < j + 1 := by omega
    unfold KB.getRule
    simp only [List.getD_eq_getElem?_getD]
    rw [List.getElem?_append, if_neg (by omega)]
    rw [List.getElem?_eq_none (show ([x] : List (Option Rule)).length ≤ j - s.arena.length by simp; omega),
        List.getElem?_eq_none (by omega)]

theorem inv1_newRule {s : KB} (h : inv1 s) :
    inv1 (s.newRule).1 ∧ freshSlot (s.newRule).1 (s.newRule).2 ∧
    (∀ j, j ≠ (s.newRule).2 → (s.newRule).1.getRule j = s.getRule j) ∧
    (s.newRule).1.active = s.active ∧ (s.newRule).1.stack = s.stack ∧
    (s.newRule).1.setRules = s.setRules := by
  obtain ⟨hN, hB, hS, hP, hA⟩ := h
  simp only [KB.newRule]
  split
  · next i rest heq =>
    have hiI : i ∈ s.inactive := by rw [heq]; exact List.mem_cons_self _ _
    obtain ⟨hnA, hnB, hnC, hd1, hd2⟩ := nodup3 hN
    have hiA : i ∉ s.active := fun hx => (hd1 i hx).2 hiI
    have hiS : i ∉ s.stack := fun hx => hd2 i hx hiI
    have hiR : i ∉ rest := by
      rw [heq] at hnC
      exact (List.nodup_cons.mp hnC).1
    have hgr : ∀ j, j ≠ i →
        (({ s with
              inactive := rest
              totalRules := s.totalRules + 1
              arena := s.arena.set i
                (some ⟨[], [], -((s.totalRules + 1 : Nat) : Int)⟩) } : KB)).getRule j
          = s.getRule j := fun j hj => getRule_set_ne s i j _ hj
    have hlen : i < s.arena.length := hB i (by simp [hiI])
    refine ⟨⟨?_, ?_, ?_, ?_, ?_⟩, ⟨?_, ?_, ?_, ?_⟩, ?_, rfl, rfl, rfl⟩
    · have hsub : List.Sublist (s.active ++ s.stack ++ rest)
          (s.active ++ s.stack ++ s.inactive) := by
        rw [heq]
        exact (List.Sublist.refl _).append (List.sublist_cons_self _ _)
      exact hsub.nodup hN
    · intro j hj
      simp only [List.length_set]
      refine hB j ?_
      simp only [List.mem_append] at hj ⊢
      rcases hj with (hj | hj) | hj
      · exact Or.inl (Or.inl hj)
      · exact Or.inl (Or.inr hj)
      · refine Or.inr ?_
        rw [heq]
        exact List.mem_cons_of_mem _ hj
    · exact hS
    · refine hP.imp_of_mem ?_
      intro a b ha hb hr
      have hai : a ≠ i := fun he => hiA (he ▸ hS _ ha)
      have hbi : b ≠ i := fun he => hiA (he ▸ hS _ hb)
      rw [hgr a hai, hgr b hbi]
      exact hr
    · intro a ha
      have hai : a ≠ i := fun he => hiA (he ▸ ha)
      unfold oriented
      rw [hgr a hai]
      exact hA a ha
    · simpa using hlen
    · exact hiA
    · exact hiS
    · exact hiR
    · intro j hj
      exact hgr j hj
  · next heq =>
    have hbnd : ∀ j ∈ s.active ++ s.stack ++ s.inactive, j ≠ s.arena.length :=
      fun j hj => Nat.ne_of_lt (hB j hj)
    have hgr : ∀ j, j ≠ s.arena.length →
        (({ s with
              totalRules := s.totalRules + 1
              arena := s.arena ++
                [some ⟨[], [], -((s.totalRules + 1 : Nat) : Int)⟩] } : KB)).getRule j
          = s.getRule j := fun j hj => getRule_append_ne s _ j hj
    refine ⟨⟨hN, ?_, hS, ?_, ?_⟩, ⟨?_, ?_, ?_, ?_⟩, ?_, rfl, rfl, rfl⟩
    · intro j hj
      simp only [List.length_append, List.length_cons, List.length_nil]
      have := hB j hj
      omega
    · refine hP.imp_of_mem ?_
      intro a b ha hb hr
      have hai : a ≠ s.arena.length := hbnd a (by simp [hS _ ha])
      have hbi : b ≠ s.arena.length := hbnd b (by simp [hS _ hb])
      rw [hgr a hai, hgr b hbi]
      exact hr
    · intro a ha
      have hai : a ≠ s.arena.length := hbnd a (by simp [ha])
      unfold oriented
      rw [hgr a hai]
      exact hA a ha
    · simp
    · exact fun hx => absurd rfl (hbnd _ (by simp [hx]))
    · exact fun hx => absurd rfl (hbnd _ (by simp [hx]))
    · rw [heq]; exact List.not_mem_nil _
    · intro j hj
      exact hgr j hj

theorem inv1_setRule_fresh {t : KB} {i : Nat} (h : inv1 t) (hf : freshSlot t i)
    (r : Rule) :
    inv1 (t.setRule i r) ∧ freshSlot (t.setRule i r) i ∧
    (t.setRule i r).active = t.active ∧ (t.setRule i r).stack = t.stack ∧
    (t.setRule i r).setRules = t.setRules ∧
    (∀ j, j ≠ i → (t.setRule i r).getRule j = t.getRule j) := by
  obtain ⟨hN, hB, hS, hP, hA⟩ := h
  obtain ⟨hb, ha, hs, hi⟩ := hf
  refine ⟨⟨hN, ?_, hS, ?_, ?_⟩, ⟨?_, ha, hs, hi⟩, rfl, rfl, rfl,
    fun j hj => getRule_set_ne t i j r hj⟩
  · intro j hj
    simp only [KB.setRule, List.length_set]
    exact hB j hj
  · refine hP.imp_of_mem ?_
    intro a b hma hmb hr
    rw [getRule_set_ne t i a r (fun he => ha (he ▸ hS _ hma)),
        getRule_set_ne t i b r (fun he => ha (he ▸ hS _ hmb))]
    exact hr
  · intro a hma
    unfold oriented
    rw [getRule_set_ne t i a r (fun he => ha (he ▸ hma))]
    exact hA a hma
  · simp only [KB.setRule, List.length_set]
    exact hb

theorem inv1_newRuleRaw {s : KB} (h : inv1 s) (l r : Word) :
    inv1 (s.newRuleRaw l r).1 ∧ freshSlot (s.newRuleRaw l r).1 (s.newRuleRaw l r).2 ∧
    (s.newRuleRaw l r).1.active = s.active ∧ (s.newRuleRaw l r).1.stack = s.stack ∧
    (s.newRuleRaw l r).1.setRules = s.setRules := by
  obtain ⟨hi1, hf1, hg1, hac, hst, hsr⟩ := inv1_newRule h
  simp only [KB.newRuleRaw]
  obtain ⟨hi2, hf2, hac2, hst2, hsr2, hg2⟩ :=
    inv1_setRule_fresh hi1 hf1 ⟨l, r, ((s.newRule).1.getRule (s.newRule).2).id⟩
  exact ⟨hi2, hf2, by rw [hac2, hac], by rw [hst2, hst], by rw [hsr2, hsr]⟩

theorem inv1_newRuleOriented {s : KB} (h : inv1 s) (l r : Word) :
    inv1 (s.newRuleOriented l r).1 ∧
    freshSlot (s.newRuleOriented l r).1 (s.newRuleOriented l r).2 ∧
    (s.newRuleOriented l r).1.active = s.active ∧
    (s.newRuleOriented l r).1.stack = s.stack ∧
    (s.newRuleOriented l r).1.setRules = s.setRules := by
  obtain ⟨hi1, hf1, hg1, hac, hst, hsr⟩ := inv1_newRule h
  simp only [KB.newRuleOriented]
  split
  · obtain ⟨hi2, hf2, hac2, hst2, hsr2, hg2⟩ :=
      inv1_setRule_fresh hi1 hf1 ⟨l, r, ((s.newRule).1.getRule (s.newRule).2).id⟩
    exact ⟨hi2, hf2, by rw [hac2, hac], by rw [hst2, hst], by rw [hsr2, hsr]⟩
  · obtain ⟨hi2, hf2, hac2, hst2, hsr2, hg2⟩ :=
      inv1_setRule_fresh hi1 hf1 ⟨r, l, ((s.newRule).1.getRule (s.newRule).2).id⟩
    exact ⟨hi2, hf2, by rw [hac2, hac], by rw [hst2, hst], by rw [hsr2, hsr]⟩

theorem activate_lhs (r : Rule) : r.activate.lhs = r.lhs := by
  unfold Rule.activate; split <;> rfl

theorem activate_rhs (r : Rule) : r.activate.rhs = r.rhs := by
  unfold Rule.activate; split <;> rfl

theorem deactivate_lhs (r : Rule) : r.deactivate.lhs = r.lhs := by
  unfold Rule.deactivate; split <;> rfl

theorem deactivate_rhs (r : Rule) : r.deactivate.rhs = r.rhs := by
  unfold Rule.deactivate; split <;> rfl

theorem inv1_add_rule_ins {s : KB} {i : Nat} (h : inv1 s)
    (hb : i < s.arena.length) (hna : i ∉ s.active) (hns : i ∉ s.stack)
    (hni : i ∉ s.inactive) (hor : oriented s i)
    (hguard : ∀ j ∈ s.setRules,
      lookupEquiv (s.getRule j).lhs (s.getRule i).lhs = false) :
    inv1 ({ s.setRule i (s.getRule i).activate with
            active := s.active ++ [i]
            setRules := i :: s.setRules } : KB) := by
  obtain ⟨hN, hB, hS, hP, hA⟩ := h
  have hnsr : i ∉ s.setRules := fun hx => hna (hS _ hx)
  have hgr : ∀ j, j ≠ i →
      (s.setRule i (s.getRule i).activate).getRule j = s.getRule j :=
    fun j hj => getRule_set_ne s i j _ hj
  have hgi : (s.setRule i (s.getRule i).activate).getRule i =
      (s.getRule i).activate := getRule_set_self s i _ hb
  refine ⟨?_, ?_, ?_, ?_, ?_⟩
  · show ((s.active ++ [i]) ++ s.stack ++ s.inactive).Nodup
    have he : (s.active ++ [i]) ++ s.stack ++ s.inactive
        = s.active ++ i :: (s.stack ++ s.inactive) := by simp
    rw [he, List.nodup_middle, List.nodup_cons]
    constructor
    · simp only [List.mem_append]
      intro hx
      rcases hx with hx | hx | hx
      · exact hna hx
      · exact hns hx
      · exact hni hx
    · simpa [List.append_assoc] using hN
  · show ∀ j ∈ (s.active ++ [i]) ++ s.stack ++ s.inactive,
      j < (s.setRule i (s.getRule i).activate).arena.length
    simp only [KB.setRule, List.length_set]
    intro j hj
    simp only [List.mem_append, List.mem_singleton] at hj
    rcases hj with ((hj | rfl) | hj) | hj
    · exact hB j (by simp [hj])
    · exact hb
    · exact hB j (by simp [hj])
    · exact hB j (by simp [hj])
  · show ∀ j ∈ i :: s.setRules, j ∈ s.active ++ [i]
    intro j hj
    rcases List.mem_cons.mp hj with rfl | hj
    · simp
    · simp [hS _ hj]
  · show List.Pairwise (fun a b =>
      lookupEquiv ((s.setRule i (s.getRule i).activate).getRule a).lhs
        ((s.setRule i (s.getRule i).activate).getRule b).lhs = false)
      (i :: s.setRules)
    rw [List.pairwise_cons]
    constructor
    · intro b hb2
      have hbne : b ≠ i := fun he => hnsr (he ▸ hb2)
      rw [hgi, hgr b hbne, activate_lhs, lookupEquiv_symm]
      exact hguard b hb2
    · refine hP.imp_of_mem ?_
      intro a b hma hmb hr
      rw [hgr a (fun he => hnsr (he ▸ hma)), hgr b (fun he => hnsr (he ▸ hmb))]
      exact hr
  · show ∀ a ∈ s.active ++ [i], oriented (s.setRule i (s.getRule i).activate) a
    intro a ha
    rcases List.mem_append.mp ha with ha | ha
    · unfold oriented
      rw [hgr a (fun he => hna (he ▸ ha))]
      exact hA a ha
    · rw [List.mem_singleton] at ha
      subst ha
      unfold oriented
      rw [hgi, activate_lhs, activate_rhs]
      exact hor

theorem inv1_add_rule_noins {s : KB} {i : Nat} (h : inv1 s)
    (hb : i < s.arena.length) (hna : i ∉ s.active) (hns : i ∉ s.stack)
    (hni : i ∉ s.inactive) (hor : oriented s i) :
    inv1 ({ s.setRule i (s.getRule i).activate with
            active := s.active ++ [i] } : KB) := by
  obtain ⟨hN, hB, hS, hP, hA⟩ := h
  have hnsr : i ∉ s.setRules := fun hx => hna (hS _ hx)
  have hgr : ∀ j, j ≠ i →
      (s.setRule i (s.getRule i).activate).getRule j = s.getRule j :=
    fun j hj => getRule_set_ne s i j _ hj
  have hgi : (s.setRule i (s.getRule i).activate).getRule i =
      (s.getRule i).activate := getRule_set_self s i _ hb
  refine ⟨?_, ?_, ?_, ?_, ?_⟩
  · show ((s.active ++ [i]) ++ s.stack ++ s.inactive).Nodup
    have he : (s.active ++ [i]) ++ s.stack ++ s.inactive
        = s.active ++ i :: (s.stack ++ s.inactive) := by simp
    rw [he, List.nodup_middle, List.nodup_cons]
    constructor
    · simp only [List.mem_append]
      intro hx
      rcases hx with hx | hx | hx
      · exact hna hx
      · exact hns hx
      · exact hni hx
    · simpa [List.append_assoc] using hN
  · show ∀ j ∈ (s.active ++ [i]) ++ s.stack ++ s.inactive,
      j < (s.setRule i (s.getRule i).activate).arena.length
    simp only [KB.setRule, List.length_set]
    intro j hj
    simp only [List.mem_append, List.mem_singleton] at hj
    rcases hj with ((hj | rfl) | hj) | hj
    · exact hB j (by simp [hj])
    · exact hb
    · exact hB j (by simp [hj])
    · exact hB j (by simp [hj])
  · show ∀ j ∈ s.setRules, j ∈ s.active ++ [i]
    intro j hj
    simp [hS _ hj]
  · show List.Pairwise (fun a b =>
      lookupEquiv ((s.setRule i (s.getRule i).activate).getRule a).lhs
        ((s.setRule i (s.getRule i).activate).getRule b).lhs = false)
      s.setRules
    refine hP.imp_of_mem ?_
    intro a b hma hmb hr
    rw [hgr a (fun he => hnsr (he ▸ hma)), hgr b (fun he => hnsr (he ▸ hmb))]
    exact hr
  · show ∀ a ∈ s.active ++ [i], oriented (s.setRule i (s.getRule i).activate) a
    intro a ha
    rcases List.mem_append.mp ha with ha | ha
    · unfold oriented
      rw [hgr a (fun he => hna (he ▸ ha))]
      exact hA a ha
    · rw [List.mem_singleton] at ha
      subst ha
      unfold oriented
      rw [hgi, activate_lhs, activate_rhs]
      exact hor

theorem inv1_add_rule {s : KB} {i : Nat} (h : inv1 s)
    (hb : i < s.arena.length) (hna : i ∉ s.active) (hns : i ∉ s.stack)
    (hni : i ∉ s.inactive) (hor : oriented s i) :
    inv1 (s.add_rule i) := by
  simp only [KB.add_rule]
  split
  · exact inv1_add_rule_noins h hb hna hns hni hor
  · next hguard =>
      refine inv1_add_rule_ins h hb hna hns hni hor ?_
      intro j hj
      rw [Bool.not_eq_true, List.any_eq_false] at hguard
      exact Bool.not_eq_true _ ▸ hguard j hj

theorem getD_not_mem_eraseIdx : ∀ (l : List Nat) (idx : Nat), l.Nodup →
    idx < l.length → l.getD idx 0 ∉ l.eraseIdx idx := by
  intro l
  induction l with
  | nil => intro idx _ hlt; simp at hlt
  | cons x xs ih =>
    intro idx hnd hlt
    cases idx with
    | zero =>
      simp only [List.eraseIdx, List.getD_cons_zero]
      exact (List.nodup_cons.mp hnd).1
    | succ n =>
      simp only [List.eraseIdx, List.getD_cons_succ]
      rw [List.mem_cons]
      rintro (he | hmem)
      · have hn : n < xs.length := by simpa using hlt
        have : xs.getD n 0 ∈ xs := by
          rw [List.getD_eq_getElem?_getD, List.getElem?_eq_getElem hn]
          exact List.getElem_mem _
        exact (List.nodup_cons.mp hnd).1 (he ▸ this)
      · exact ih n (List.nodup_cons.mp hnd).2 (by simpa using hlt) hmem

theorem mem_eraseIdx_of_ne : ∀ (l : List Nat) (idx : Nat) (k : Nat), k ∈ l →
    k ≠ l.getD idx 0 → k ∈ l.eraseIdx idx := by
  intro l
  induction l with
  | nil => intro idx k hk _; simp at hk
  | cons x xs ih =>
    intro idx k hk hne
    cases idx with
    | zero =>
      simp only [List.getD_cons_zero] at hne
      simp only [List.eraseIdx]
      rcases List.mem_cons.mp hk with rfl | hk
      · exact absurd rfl hne
      · exact hk
    | succ n =>
      simp only [List.getD_cons_succ] at hne
      simp only [List.eraseIdx]
      rcases List.mem_cons.mp hk with rfl | hk
      · exact List.mem_cons_self _ _
      · exact List.mem_cons_of_mem _ (ih n k hk hne)

theorem not_mem_eraseP_only {p : Nat → Bool} {i : Nat} (hp : p i = true) :
    ∀ {l : List Nat}, l.Nodup → (∀ a ∈ l, p a = true → a = i) →
    i ∉ l.eraseP p := by
  intro l
  induction l with
  | nil => intro _ _; simp
  | cons x xs ih =>
    intro hnd hOnly
    cases px : p x
    · rw [List.eraseP_cons_of_neg (by simp [px])]
      rw [List.mem_cons]
      rintro (rfl | hmem)
      · rw [hp] at px; exact absurd px (by simp)
      · exact ih (List.nodup_cons.mp hnd).2
          (fun a ha hpa => hOnly a (List.mem_cons_of_mem _ ha) hpa) hmem
    · rw [List.eraseP_cons_of_pos px]
      have hxi : x = i := hOnly x (List.mem_cons_self _ _) px
      subst hxi
      exact (List.nodup_cons.mp hnd).1

theorem pairwise_equiv_nodup {s : KB} (hP : List.Pairwise
    (fun a b => lookupEquiv (s.getRule a).lhs (s.getRule b).lhs = false)
    s.setRules) : s.setRules.Nodup := by
  refine hP.imp_of_mem ?_
  intro a b _ _ hr he
  subst he
  rw [lookupEquiv_refl] at hr
  exact absurd hr (by simp)

theorem pairwise_equiv_only {s : KB} (hP : List.Pairwise
    (fun a b => lookupEquiv (s.getRule a).lhs (s.getRule b).lhs = false)
    s.setRules) {i : Nat} (hi : i ∈ s.setRules) :
    ∀ a ∈ s.setRules, lookupEquiv (s.getRule a).lhs (s.getRule i).lhs = true →
      a = i := by
  intro a ha hpa
  by_contra hne
  have hforall := hP.forall (fun {x y} hxy => by
    rw [lookupEquiv_symm]; exact hxy)
  exact absurd hpa (by rw [hforall ha hi hne]; simp)

theorem inv1_remove_rule {s : KB} {idx : Nat} (h : inv1 s)
    (hidx : idx < s.active.length) :
    inv1 (s.remove_rule idx).1 ∧
    (s.remove_rule idx).1.active = s.active.eraseIdx idx ∧
    (s.remove_rule idx).1.stack = s.stack ∧
    (s.remove_rule idx).1.inactive = s.inactive ∧
    (s.remove_rule idx).1.arena.length = s.arena.length ∧
    s.active.getD idx 0 ∉ (s.remove_rule idx).1.active ∧
    s.active.getD idx 0 ∉ (s.remove_rule idx).1.setRules ∧
    s.active.getD idx 0 < s.arena.length ∧
    (∀ j, ((s.remove_rule idx).1.getRule j).lhs = (s.getRule j).lhs ∧
          ((s.remove_rule idx).1.getRule j).rhs = (s.getRule j).rhs) ∧
    (∀ j, j ≠ s.active.getD idx 0 →
        (s.remove_rule idx).1.getRule j = s.getRule j) := by
  obtain ⟨hN, hB, hS, hP, hA⟩ := h
  have hiA : s.active.getD idx 0 ∈ s.active := by
    rw [List.getD_eq_getElem?_getD, List.getElem?_eq_getElem hidx]
    exact List.getElem_mem _
  have hbi : s.active.getD idx 0 < s.arena.length :=
    hB _ (List.mem_append.mpr (Or.inl (List.mem_append.mpr (Or.inl hiA))))
  have hgr : ∀ j, j ≠ s.active.getD idx 0 →
      (s.setRule (s.active.getD idx 0)
        (s.getRule (s.active.getD idx 0)).deactivate).getRule j = s.getRule j :=
    fun j hj => getRule_set_ne s _ j _ hj
  have hgi : (s.setRule (s.active.getD idx 0)
      (s.getRule (s.active.getD idx 0)).deactivate).getRule (s.active.getD idx 0)
      = (s.getRule (s.active.getD idx 0)).deactivate := getRule_set_self s _ _ hbi
  have hsides : ∀ j,
      ((s.setRule (s.active.getD idx 0)
        (s.getRule (s.active.getD idx 0)).deactivate).getRule j).lhs
          = (s.getRule j).lhs ∧
      ((s.setRule (s.active.getD idx 0)
        (s.getRule (s.active.getD idx 0)).deactivate).getRule j).rhs
          = (s.getRule j).rhs := by
    intro j
    by_cases hj : j = s.active.getD idx 0
    · subst hj
      rw [hgi, deactivate_lhs, deactivate_rhs]
      exact ⟨rfl, rfl⟩
    · rw [hgr j hj]
      exact ⟨rfl, rfl⟩
  have hnotP : s.active.getD idx 0 ∉
      s.setRules.eraseP (fun j => lookupEquiv
        ((s.setRule (s.active.getD idx 0)
          (s.getRule (s.active.getD idx 0)).deactivate).getRule j).lhs
        ((s.setRule (s.active.getD idx 0)
          (s.getRule (s.active.getD idx 0)).deactivate).getRule
            (s.active.getD idx 0)).lhs) := by
    by_cases hin : s.active.getD idx 0 ∈ s.setRules
    · refine not_mem_eraseP_only ?_ (pairwise_equiv_nodup hP) ?_
      · rw [(hsides _).1]
        exact lookupEquiv_refl _
      · intro a ha hpa
        rw [(hsides a).1, (hsides _).1] at hpa
        exact pairwise_equiv_only hP hin a ha hpa
    · intro hmem
      exact hin ((List.eraseP_sublist _).subset hmem)
  have hmemP : ∀ k ∈ s.setRules.eraseP (fun j => lookupEquiv
      ((s.setRule (s.active.getD idx 0)
        (s.getRule (s.active.getD idx 0)).deactivate).getRule j).lhs
      ((s.setRule (s.active.getD idx 0)
        (s.getRule (s.active.getD idx 0)).deactivate).getRule
          (s.active.getD idx 0)).lhs), k ∈ s.setRules :=
    fun k hk => (List.eraseP_sublist _).subset hk
  refine ⟨⟨?_, ?_, ?_, ?_, ?_⟩, rfl, rfl, rfl, ?_, ?_, ?_, hbi, ?_, ?_⟩
  · show (s.active.eraseIdx idx ++ s.stack ++ s.inactive).Nodup
    exact (((s.active.eraseIdx_sublist idx).append
      (List.Sublist.refl s.stack)).append (List.Sublist.refl s.inactive)).nodup hN
  · show ∀ j ∈ s.active.eraseIdx idx ++ s.stack ++ s.inactive,
      j < (s.setRule (s.active.getD idx 0)
        (s.getRule (s.active.getD idx 0)).deactivate).arena.length
    simp only [KB.setRule, List.length_set]
    intro j hj
    simp only [List.mem_append] at hj
    rcases hj with (hj | hj) | hj
    · exact hB j (List.mem_append.mpr (Or.inl (List.mem_append.mpr
        (Or.inl ((s.active.eraseIdx_sublist idx).subset hj)))))
    · exact hB j (List.mem_append.mpr (Or.inl (List.mem_append.mpr (Or.inr hj))))
    · exact hB j (List.mem_append.mpr (Or.inr hj))
  · show ∀ k ∈ s.setRules.eraseP (fun j => lookupEquiv
        ((s.setRule (s.active.getD idx 0)
          (s.getRule (s.active.getD idx 0)).deactivate).getRule j).lhs
        ((s.setRule (s.active.getD idx 0)
          (s.getRule (s.active.getD idx 0)).deactivate).getRule
            (s.active.getD idx 0)).lhs), k ∈ s.active.eraseIdx idx
    intro k hk
    have hk2 := hmemP k hk
    have hkne : k ≠ s.active.getD idx 0 := by
      intro he
      exact hnotP (he ▸ hk)
    exact mem_eraseIdx_of_ne _ idx k (hS _ hk2) hkne
  · show List.Pairwise (fun a b => lookupEquiv
        ((s.setRule (s.active.getD idx 0)
          (s.getRule (s.active.getD idx 0)).deactivate).getRule a).lhs
        ((s.setRule (s.active.getD idx 0)
          (s.getRule (s.active.getD idx 0)).deactivate).getRule b).lhs = false)
      (s.setRules.eraseP (fun j => lookupEquiv
        ((s.setRule (s.active.getD idx 0)
          (s.getRule (s.active.getD idx 0)).deactivate).getRule j).lhs
        ((s.setRule (s.active.getD idx 0)
          (s.getRule (s.active.getD idx 0)).deactivate).getRule
            (s.active.getD idx 0)).lhs))
    refine (hP.sublist (List.eraseP_sublist _)).imp_of_mem ?_
    intro a b hma hmb hr
    rw [(hsides a).1, (hsides b).1]
    exact hr
  · show ∀ a ∈ s.active.eraseIdx idx, oriented
      (s.setRule (s.active.getD idx 0)
        (s.getRule (s.active.getD idx 0)).deactivate) a
    intro a ha
    have haA : a ∈ s.active := (s.active.eraseIdx_sublist idx).subset ha
    have hane : a ≠ s.active.getD idx 0 := by
      intro he
      exact (getD_not_mem_eraseIdx s.active idx (nodup3 hN).1 hidx) (he ▸ ha)
    unfold oriented
    rw [hgr a hane]
    exact hA a haA
  · show (s.setRule (s.active.getD idx 0)
        (s.getRule (s.active.getD idx 0)).deactivate).arena.length
      = s.arena.length
    simp [KB.setRule]
  · show s.active.getD idx 0 ∉ s.active.eraseIdx idx
    exact getD_not_mem_eraseIdx s.active idx (nodup3 hN).1 hidx
  · show s.active.getD idx 0 ∉ s.setRules.eraseP (fun j => lookupEquiv
        ((s.setRule (s.active.getD idx 0)
          (s.getRule (s.active.getD idx 0)).deactivate).getRule j).lhs
        ((s.setRule (s.active.getD idx 0)
          (s.getRule (s.active.getD idx 0)).deactivate).getRule
            (s.active.getD idx 0)).lhs)
    exact hnotP
  · intro j
    exact hsides j
  · intro j hj
    exact hgr j hj

theorem rwKeys_oriented {s : KB} (h : inv1 s) :
    ∀ r ∈ s.rwKeys, shortlex_compare r.rhs r.lhs = true := by
  intro r hr
  obtain ⟨hN, hB, hS, hP, hA⟩ := h
  unfold KB.rwKeys at hr
  obtain ⟨j, hj, rfl⟩ := List.mem_map.mp hr
  exact hA j (hS j hj)

theorem internal_rewrite_le {s : KB} (h : inv1 s) (u : Word) :
    slexLe (s.internal_rewrite u) u := by
  unfold KB.internal_rewrite
  exact internalRewriteFull_le_of_oriented (rwKeys_oriented h)

theorem inv1_rhsRewrite {s : KB} (h : inv1 s) {i : Nat} (hiA : i ∈ s.active) :
    inv1 (s.setRule i ⟨(s.getRule i).lhs,
      s.internal_rewrite (s.getRule i).rhs, (s.getRule i).id⟩) := by
  have hb : i < s.arena.length :=
    h.2.1 _ (List.mem_append.mpr (Or.inl (List.mem_append.mpr (Or.inl hiA))))
  obtain ⟨hN, hB, hS, hP, hA⟩ := h
  have hgr : ∀ j, j ≠ i → (s.setRule i ⟨(s.getRule i).lhs,
      s.internal_rewrite (s.getRule i).rhs, (s.getRule i).id⟩).getRule j
      = s.getRule j := fun j hj => getRule_set_ne s i j _ hj
  have hgi : (s.setRule i ⟨(s.getRule i).lhs,
      s.internal_rewrite (s.getRule i).rhs, (s.getRule i).id⟩).getRule i
      = ⟨(s.getRule i).lhs, s.internal_rewrite (s.getRule i).rhs,
         (s.getRule i).id⟩ := getRule_set_self s i _ hb
  have hlhs : ∀ j, ((s.setRule i ⟨(s.getRule i).lhs,
      s.internal_rewrite (s.getRule i).rhs, (s.getRule i).id⟩).getRule j).lhs
      = (s.getRule j).lhs := by
    intro j
    by_cases hj : j = i
    · subst hj; rw [hgi]
    · rw [hgr j hj]
  refine ⟨hN, ?_, hS, ?_, ?_⟩
  · intro j hj
    simp only [KB.setRule, List.length_set]
    exact hB j hj
  · refine hP.imp_of_mem ?_
    intro a b hma hmb hr
    rw [hlhs a, hlhs b]
    exact hr
  · intro a ha
    unfold oriented
    by_cases hj : a = i
    · subst hj
      rw [hgi]
      exact slexLe_lt
        (internal_rewrite_le ⟨hN, hB, hS, hP, hA⟩ (s.getRule a).rhs)
        (hA a ha)
    · rw [hgr a hj]
      exact hA a ha

theorem getD_mem_of_lt {l : List Nat} {idx : Nat} (h : idx < l.length) :
    l.getD idx 0 ∈ l := by
  rw [List.getD_eq_getElem?_getD, List.getElem?_eq_getElem h]
  exact List.getElem_mem _

theorem nodup_insert_stack {a b c : List Nat} {i : Nat} (h : (a ++ b ++ c).Nodup)
    (hia : i ∉ a) (hib : i ∉ b) (hic : i ∉ c) : (a ++ (i :: b) ++ c).Nodup := by
  have he : a ++ (i :: b) ++ c = a ++ i :: (b ++ c) := by simp
  rw [he, List.nodup_middle, List.nodup_cons]
  constructor
  · simp only [List.mem_append]
    rintro (hx | hx | hx)
    · exact hia hx
    · exact hib hx
    · exact hic hx
  · simpa [List.append_assoc] using h

theorem inv1_push_slot {s : KB} (h : inv1 s) {i : Nat} (hb : i < s.arena.length)
    (hia : i ∉ s.active) (his : i ∉ s.stack) (hii : i ∉ s.inactive) :
    inv1 ({ s with stack := i :: s.stack } : KB) := by
  obtain ⟨hN, hB, hS, hP, hA⟩ := h
  refine ⟨nodup_insert_stack hN hia his hii, ?_, hS, hP, hA⟩
  intro j hj
  simp only [List.mem_append, List.mem_cons] at hj
  rcases hj with (hj | rfl | hj) | hj
  · exact hB j (List.mem_append.mpr (Or.inl (List.mem_append.mpr (Or.inl hj))))
  · exact hb
  · exact hB j (List.mem_append.mpr (Or.inl (List.mem_append.mpr (Or.inr hj))))
  · exact hB j (List.mem_append.mpr (Or.inr hj))

theorem inv1_removalLoop : ∀ (fuel : Nat) (s : KB) (lh : Word) (idx : Nat),
    inv1 s →
    inv1 (removalLoop fuel s lh idx) ∧
    (removalLoop fuel s lh idx).inactive = s.inactive ∧
    (removalLoop fuel s lh idx).arena.length = s.arena.length ∧
    (∀ j, j ∉ s.active → j ∉ s.stack → j ∉ s.inactive →
      ((removalLoop fuel s lh idx).getRule j = s.getRule j ∧
       j ∉ (removalLoop fuel s lh idx).active ∧
       j ∉ (removalLoop fuel s lh idx).stack)) := by
  intro fuel
  induction fuel with
  | zero =>
    intro s lh idx h
    exact ⟨h, rfl, rfl, fun j hja hjs _ => ⟨rfl, hja, hjs⟩⟩
  | succ f ih =>
    intro s lh idx h
    simp only [removalLoop]
    split
    · next hlt =>
      split
      · next hsub =>
        obtain ⟨h1, hac, hst, hin, hlen, hnia, hnis, hbi, hsid, hfull⟩ :=
          inv1_remove_rule h hlt
        have hiA : s.active.getD idx 0 ∈ s.active := getD_mem_of_lt hlt
        have hidis := (nodup3 h.1).2.2.2.1 _ hiA
        have hb2 : s.active.getD idx 0 < (s.remove_rule idx).1.arena.length := by
          rw [hlen]; exact hbi
        have hnis2 : s.active.getD idx 0 ∉ (s.remove_rule idx).1.stack := by
          rw [hst]; exact hidis.1
        have hnii2 : s.active.getD idx 0 ∉ (s.remove_rule idx).1.inactive := by
          rw [hin]; exact hidis.2
        have ht : inv1 ({ (s.remove_rule idx).1 with
            stack := s.active.getD idx 0 :: (s.remove_rule idx).1.stack } : KB) :=
          inv1_push_slot h1 hb2 hnia hnis2 hnii2
        obtain ⟨hr1, hr2, hr3, hr4⟩ := ih ({ (s.remove_rule idx).1 with
            stack := s.active.getD idx 0 :: (s.remove_rule idx).1.stack } : KB)
          lh idx ht
        refine ⟨hr1, ?_, ?_, ?_⟩
        · rw [hr2]
          exact hin
        · rw [hr3]
          exact hlen
        · intro j hja hjs hji
          have hjne : j ≠ s.active.getD idx 0 := fun he => hja (he ▸ hiA)
          have hj1 : j ∉ ({ (s.remove_rule idx).1 with
              stack := s.active.getD idx 0 :: (s.remove_rule idx).1.stack } : KB).active := by
            show j ∉ (s.remove_rule idx).1.active
            rw [hac]
            exact fun hx => hja ((s.active.eraseIdx_sublist idx).subset hx)
          have hj2 : j ∉ ({ (s.remove_rule idx).1 with
              stack := s.active.getD idx 0 :: (s.remove_rule idx).1.stack } : KB).stack := by
            show j ∉ s.active.getD idx 0 :: (s.remove_rule idx).1.stack
            rw [hst, List.mem_cons]
            rintro (he | hx)
            · exact hjne he
            · exact hjs hx
          have hj3 : j ∉ ({ (s.remove_rule idx).1 with
              stack := s.active.getD idx 0 :: (s.remove_rule idx).1.stack } : KB).inactive := by
            show j ∉ (s.remove_rule idx).1.inactive
            rw [hin]
            exact hji
          obtain ⟨hg, hna2, hns2⟩ := hr4 j hj1 hj2 hj3
          refine ⟨?_, hna2, hns2⟩
          rw [hg]
          show (s.remove_rule idx).1.getRule j = s.getRule j
          exact hfull j hjne
      · next hnsub =>
        split
        · next hsubr =>
          have hiA : s.active.getD idx 0 ∈ s.active := getD_mem_of_lt hlt
          have h1 := inv1_rhsRewrite h hiA
          obtain ⟨hr1, hr2, hr3, hr4⟩ := ih _ lh (idx + 1) h1
          refine ⟨hr1, hr2, ?_, ?_⟩
          · rw [hr3]
            simp [KB.setRule]
          · intro j hja hjs hji
            have hjne : j ≠ s.active.getD idx 0 := fun he => hja (he ▸ hiA)
            obtain ⟨hg, hna2, hns2⟩ := hr4 j hja hjs hji
            refine ⟨?_, hna2, hns2⟩
            rw [hg]
            exact getRule_set_ne s _ j _ hjne
        · exact ih s lh (idx + 1) h
    · next =>
      exact ⟨h, rfl, rfl, fun j hja hjs _ => ⟨rfl, hja, hjs⟩⟩

theorem inv1_stack_tail {s : KB} (h : inv1 s) {i : Nat} {rest : List Nat}
    (hst : s.stack = i :: rest) :
    inv1 ({ s with stack := rest } : KB) ∧ i < s.arena.length ∧
    i ∉ s.active ∧ i ∉ rest ∧ i ∉ s.inactive := by
  obtain ⟨hN, hB, hS, hP, hA⟩ := h
  have hiS : i ∈ s.stack := by rw [hst]; exact List.mem_cons_self _ _
  rw [hst] at hN
  have hsub : List.Sublist (s.active ++ rest ++ s.inactive)
      (s.active ++ (i :: rest) ++ s.inactive) :=
    ((List.Sublist.refl _).append (List.sublist_cons_self _ _)).append
      (List.Sublist.refl _)
  obtain ⟨hnA, hnB, hnC, hd1, hd2⟩ := nodup3 hN
  refine ⟨⟨hsub.nodup hN, ?_, hS, hP, hA⟩, ?_, ?_, ?_, ?_⟩
  · intro j hj
    refine hB j ?_
    rw [hst]
    exact hsub.subset hj
  · exact hB i (List.mem_append.mpr (Or.inl (List.mem_append.mpr (Or.inr hiS))))
  · exact fun hx => (hd1 i hx).1 (List.mem_cons_self _ _)
  · exact (List.nodup_cons.mp hnB).1
  · exact fun hx => hd2 i (List.mem_cons_self _ _) hx

theorem inv1_snoc_inactive {s : KB} (h : inv1 s) {i : Nat}
    (hb : i < s.arena.length) (hia : i ∉ s.active) (his : i ∉ s.stack)
    (hii : i ∉ s.inactive) :
    inv1 ({ s with inactive := s.inactive ++ [i] } : KB) := by
  obtain ⟨hN, hB, hS, hP, hA⟩ := h
  refine ⟨?_, ?_, hS, hP, hA⟩
  · have he : s.active ++ s.stack ++ (s.inactive ++ [i])
        = (s.active ++ s.stack ++ s.inactive) ++ [i] := by simp
    rw [he]
    rw [List.nodup_append]
    refine ⟨hN, List.nodup_singleton _, ?_⟩
    intro x hx
    simp only [List.mem_singleton]
    intro he2
    subst he2
    simp only [List.mem_append] at hx
    rcases hx with (hx | hx) | hx
    · exact hia hx
    · exact his hx
    · exact hii hx
  · intro j hj
    simp only [List.mem_append, List.mem_singleton] at hj
    rcases hj with (hj | hj) | hj | rfl
    · exact hB j (List.mem_append.mpr (Or.inl (List.mem_append.mpr (Or.inl hj))))
    · exact hB j (List.mem_append.mpr (Or.inl (List.mem_append.mpr (Or.inr hj))))
    · exact hB j (List.mem_append.mpr (Or.inr hj))
    · exact hb

theorem inv1_clearStack : ∀ (fuel : Nat) (s : KB), inv1 s →
    inv1 (clearStack fuel s) := by
  intro fuel
  induction fuel with
  | zero => intro s h; exact h
  | succ f ih =>
    intro s h
    simp only [clearStack]
    split
    · exact h
    · next i rest hstack =>
      split
      · exact h
      · obtain ⟨h1c, hbi, hina, hirest, hiin⟩ := inv1_stack_tail h hstack
        have h1 : inv1 ({ s.tick with stack := rest } : KB) := h1c
        have hf1 : freshSlot ({ s.tick with stack := rest } : KB) i := by
          refine ⟨?_, hina, hirest, hiin⟩
          show i < s.arena.length
          exact hbi
        obtain ⟨h2, hf2, hac2, hst2, hsr2, hg2⟩ := inv1_setRule_fresh h1 hf1
          (({ s.tick with stack := rest } : KB).ruleRewrite
            (({ s.tick with stack := rest } : KB).getRule i))
        split
        · next hne =>
          obtain ⟨h3, hin3, hlen3, hunt⟩ := inv1_removalLoop
            ((({ s.tick with stack := rest } : KB).setRule i
              (({ s.tick with stack := rest } : KB).ruleRewrite
                (({ s.tick with stack := rest } : KB).getRule i))).active.length)
            (({ s.tick with stack := rest } : KB).setRule i
              (({ s.tick with stack := rest } : KB).ruleRewrite
                (({ s.tick with stack := rest } : KB).getRule i)))
            ((({ s.tick with stack := rest } : KB).ruleRewrite
              (({ s.tick with stack := rest } : KB).getRule i)).lhs) 0 h2
          have hi2a : i ∉ (({ s.tick with stack := rest } : KB).setRule i
              (({ s.tick with stack := rest } : KB).ruleRewrite
                (({ s.tick with stack := rest } : KB).getRule i))).active := by
            rw [hac2]
            exact hina
          have hi2s : i ∉ (({ s.tick with stack := rest } : KB).setRule i
              (({ s.tick with stack := rest } : KB).ruleRewrite
                (({ s.tick with stack := rest } : KB).getRule i))).stack := by
            rw [hst2]
            exact hirest
          have hi2i : i ∉ (({ s.tick with stack := rest } : KB).setRule i
              (({ s.tick with stack := rest } : KB).ruleRewrite
                (({ s.tick with stack := rest } : KB).getRule i))).inactive := hiin
          obtain ⟨hgu, hna3, hns3⟩ := hunt i hi2a hi2s hi2i
          refine ih _ (inv1_add_rule h3 ?_ hna3 hns3 ?_ ?_)
          · rw [hlen3]
            show i < (s.arena.set i _).length
            simp only [List.length_set]
            exact hbi
          · rw [hin3]
            exact hi2i
          · unfold oriented
            rw [hgu]
            rw [getRule_set_self ({ s.tick with stack := rest } : KB) i _ hbi]
            exact shortlex_of_ne_of_nlt hne (ruleRewrite_nlt _ _)
        · next heq =>
          refine ih _ ?_
          refine inv1_snoc_inactive h2 ?_ ?_ ?_ hiin
          · show i < (s.arena.set i _).length
            simp only [List.length_set]
            exact hbi
          · rw [hac2]
            exact hina
          · rw [hst2]
            exact hirest

theorem inv1_push_stack {s : KB} (h : inv1 s) {i : Nat} (hf : freshSlot s i)
    (fuel : Nat) : inv1 (s.push_stack fuel i) := by
  obtain ⟨hb, hia, his, hii⟩ := hf
  simp only [KB.push_stack]
  split
  · refine inv1_clearStack fuel _ ?_
    exact inv1_push_slot h hb hia his hii
  · exact inv1_snoc_inactive h hb hia his hii

theorem inv1_overlapGo (uI vI : Nat) (uId vId : Int) (limit fuel : Nat) :
    ∀ (cnt : Nat) (s : KB), inv1 s →
    inv1 (overlapGo uI vI uId vId limit fuel cnt s) := by
  intro cnt
  induction cnt with
  | zero => intro s h; exact h
  | succ c ih =>
    intro s h
    simp only [overlapGo]
    split
    · split
      · refine ih _ ?_
        have ht : inv1 s.tick := h
        obtain ⟨hq1, hqf, _, _, _⟩ := inv1_newRuleRaw ht
          ((s.getRule uI).lhs.take (limit + c + 1) ++ (s.getRule vI).rhs)
          ((s.getRule uI).rhs ++
            (s.getRule vI).lhs.drop ((s.getRule uI).lhs.length - (limit + c + 1)))
        exact inv1_push_stack hq1 hqf fuel
      · refine ih _ ?_
        show inv1 s.tick
        exact h
    · exact h

theorem inv1_overlap {s : KB} (h : inv1 s) (fuel uI vI : Nat) :
    inv1 (s.overlap fuel uI vI) := by
  simp only [KB.overlap]
  exact inv1_overlapGo _ _ _ _ _ _ _ _ h

theorem inv1_confluent {s : KB} (h : inv1 s) : inv1 s.confluent.2 := by
  obtain ⟨b1, b2, t, hsh⟩ := confluent_shape s
  rw [hsh]
  exact h

theorem inv1_runCopyLoop (fuel : Nat) : ∀ (f : Nat) (s : KB), inv1 s →
    inv1 (runCopyLoop fuel f s) := by
  intro f
  induction f with
  | zero => intro s h; exact h
  | succ f2 ih =>
    intro s h
    simp only [runCopyLoop]
    split
    · exact h
    · next idx heq =>
      split
      · exact h
      · refine ih _ ?_
        have ht : inv1 s.tick := h
        obtain ⟨hq1, hqf, _, _, _⟩ := inv1_newRuleRaw ht
          ((s.tick.getRule (s.tick.active.getD idx 0)).lhs)
          ((s.tick.getRule (s.tick.active.getD idx 0)).rhs)
        exact inv1_push_stack hq1 hqf fuel

theorem inv1_runInnerLoop (fuel rule1Slot : Nat) : ∀ (f nr : Nat) (s : KB),
    inv1 s → inv1 (runInnerLoop fuel rule1Slot f nr s).1 := by
  intro f
  induction f with
  | zero => intro nr s h; exact h
  | succ f2 ih =>
    intro nr s h
    simp only [runInnerLoop]
    split
    · exact h
    · have h0 : inv1 ({ s with nextRule2 := some (match s.nextRule2 with | some k => k - 1 | none => s.active.length - 1) } : KB) := h
      split
      · exact ih _ _ (inv1_overlap (inv1_overlap h0 _ _ _) _ _ _)
      · exact ih _ _ (inv1_overlap h0 _ _ _)

set_option maxHeartbeats 16000000 in
theorem inv1_runMainLoop (fuel : Nat) : ∀ (f nr : Nat) (s : KB), inv1 s →
    inv1 (runMainLoop fuel f nr s) := by
  intro f
  induction f with
  | zero => intro nr s h; exact h
  | succ f2 ih =>
    intro nr s h
    simp only [runMainLoop]
    split
    · exact h
    · split
      · exact h
      · repeat' split
        all_goals
          repeat
            first
              | refine ih _ _ ?_
              | refine inv1_clearStack _ _ ?_
              | refine inv1_confluent ?_
              | refine inv1_runInnerLoop _ _ _ _ _ ?_
              | refine inv1_overlap ?_ _ _ _
              | exact h

theorem deleteSlots_length (l : List Nat) : ∀ (ar : List (Option Rule)),
    (deleteSlots ar l).length = ar.length := by
  induction l with
  | nil => intro ar; rfl
  | cons x xs ih =>
    intro ar
    show (deleteSlots (ar.set x none) xs).length = ar.length
    rw [ih (ar.set x none), List.length_set]

theorem getD_deleteSlots_notMem (l : List Nat) : ∀ (ar : List (Option Rule))
    (i : Nat), i ∉ l → (deleteSlots ar l).getD i none = ar.getD i none := by
  induction l with
  | nil => intro ar i _; rfl
  | cons x xs ih =>
    intro ar i hi
    have hix : i ≠ x := fun he => hi (he ▸ List.mem_cons_self _ _)
    have hxs : i ∉ xs := fun hm => hi (List.mem_cons_of_mem _ hm)
    show (deleteSlots (ar.set x none) xs).getD i none = ar.getD i none
    rw [ih (ar.set x none) i hxs]
    simp only [List.getD_eq_getElem?_getD]
    rw [List.getElem?_set]
    have : ¬ x = i := fun he => hix he.symm
    simp [this]

theorem inv1_deleteInactive {t : KB} (h : inv1 t) :
    inv1 ({ t with
            conflKnown := true
            confl := true
            arena := deleteSlots t.arena t.inactive
            inactive := [] } : KB) := by
  obtain ⟨hN, hB, hS, hP, hA⟩ := h
  obtain ⟨hnA, hnB, hnC, hd1, hd2⟩ := nodup3 hN
  have hgr : ∀ j, j ∉ t.inactive →
      (({ t with
            conflKnown := true
            confl := true
            arena := deleteSlots t.arena t.inactive
            inactive := [] } : KB)).getRule j
        = t.getRule j := by
    intro j hj
    unfold KB.getRule
    show ((deleteSlots t.arena t.inactive).getD j none).getD _ =
      (t.arena.getD j none).getD _
    rw [getD_deleteSlots_notMem t.inactive t.arena j hj]
  refine ⟨?_, ?_, hS, ?_, ?_⟩
  · show (t.active ++ t.stack ++ ([] : List Nat)).Nodup
    have hsub : List.Sublist (t.active ++ t.stack ++ ([] : List Nat))
        (t.active ++ t.stack ++ t.inactive) :=
      ((List.Sublist.refl _).append (List.Sublist.refl _)).append
        (List.nil_sublist _)
    exact hsub.nodup hN
  · show ∀ j ∈ t.active ++ t.stack ++ ([] : List Nat),
      j < (deleteSlots t.arena t.inactive).length
    rw [deleteSlots_length]
    intro j hj
    simp only [List.append_nil] at hj
    simp only [List.mem_append] at hj
    rcases hj with hj | hj
    · exact hB j (List.mem_append.mpr (Or.inl (List.mem_append.mpr (Or.inl hj))))
    · exact hB j (List.mem_append.mpr (Or.inl (List.mem_append.mpr (Or.inr hj))))
  · refine hP.imp_of_mem ?_
    intro a b hma hmb hr
    rw [hgr a (hd1 a (hS _ hma)).2, hgr b (hd1 b (hS _ hmb)).2]
    exact hr
  · intro a ha
    unfold oriented
    rw [hgr a (hd1 a ha).2]
    exact hA a ha

theorem inv1_iters {s : KB} (h : inv1 s) (a b : Option Nat) :
    inv1 ({ s with nextRule1 := a, nextRule2 := b } : KB) := h

theorem inv1_runningOff {s : KB} (h : inv1 s) :
    inv1 ({ s with running := false } : KB) := h

theorem inv1_runTail_fin {t : KB} (h : inv1 t) :
    inv1 ({ (if t.maxOverlap = none && t.maxRules = none && !t.stopped then
        ({ t with
            conflKnown := true
            confl := true
            arena := deleteSlots t.arena t.inactive
            inactive := [] } : KB)
      else t) with running := false } : KB) := by
  split
  · exact inv1_runningOff (inv1_deleteInactive h)
  · exact inv1_runningOff h

theorem inv1_runTail {s : KB} (h : inv1 s) (fuel : Nat) :
    inv1 (runTail fuel s) := by
  simp only [runTail]
  split
  · exact h
  · refine inv1_runTail_fin ?_
    refine inv1_runMainLoop _ _ _ _ ?_
    refine inv1_iters ?_ _ _
    refine inv1_runCopyLoop _ _ _ ?_
    exact inv1_iters h _ _

theorem inv1_run_impl {s : KB} (h : inv1 s) (fuel : Nat) :
    inv1 (s.run_impl fuel) := by
  simp only [KB.run_impl]
  have h1 : inv1 ({ s with running := true } : KB) := h
  split
  · split
    · exact inv1_runningOff (inv1_confluent h1)
    · exact inv1_runTail (inv1_confluent h1) fuel
  · exact inv1_runTail h1 fuel

theorem inv1_run {s : KB} (h : inv1 s) (fuel : Nat) : inv1 (s.run fuel) := by
  unfold KB.run
  exact inv1_run_impl h fuel

theorem inv1_add_rule_impl {s : KB} (h : inv1 s) (fuel : Nat) (p q : Word) :
    inv1 (s.add_rule_impl fuel p q) := by
  simp only [KB.add_rule_impl]
  split
  · exact h
  · obtain ⟨h1, hf1, _, _, _⟩ :=
      inv1_newRuleOriented h (p.map (· + 1)) (q.map (· + 1))
    exact inv1_push_stack h1 hf1 fuel

theorem inv1_finishedImpl {s : KB} (h : inv1 s) : inv1 s.finishedImpl.2 := by
  simp only [KB.finishedImpl]
  split
  · exact inv1_confluent h
  · exact h

theorem inv1_equal_to {s : KB} (h : inv1 s) (fuel : Nat) (u v : Word) (b : Bool)
    (s1 : KB) (he : s.equal_to fuel u v = .ok (b, s1)) : inv1 s1 := by
  simp only [KB.equal_to] at he
  split at he
  · exact absurd he (by simp)
  · split at he
    · exact absurd he (by simp)
    · split at he
      · simp only [Except.ok.injEq, Prod.mk.injEq] at he
        rw [← he.2]
        exact h
      · split at he
        · simp only [Except.ok.injEq, Prod.mk.injEq] at he
          rw [← he.2]
          exact h
        · simp only [Except.ok.injEq, Prod.mk.injEq] at he
          rw [← he.2]
          exact inv1_run h fuel

theorem inv1_mk0 (k : Nat) : inv1 (KB.mk0 k) := by
  refine ⟨?_, ?_, ?_, ?_, ?_⟩ <;> simp [KB.mk0]

theorem inv1_reachable {s : KB} (h : Reachable s) : inv1 s := by
  induction h with
  | mk0 k => exact inv1_mk0 k
  | addRule fuel p q hr hp hq ih => exact inv1_add_rule_impl ih fuel p q
  | run fuel hr ih => exact inv1_run_impl ih fuel
  | conflQ hr ih => exact inv1_confluent ih
  | finishedQ hr ih => exact inv1_finishedImpl ih
  | equalToQ fuel u v b s1 hr he ih => exact inv1_equal_to ih fuel u v b s1 he
  | stop t hr ih => exact ih
  | setMaxRules m hr ih => exact ih
  | setMaxOverlap m hr ih => exact ih
  | setInterval m hr ih => exact ih
  | setPolicy p hr ih => exact ih

/-- C1: in every reachable engine state, every rule of the active
collection has its replacement side strictly below its reducible side in
shortlex order; the invariant is established at activation and preserved
by staging relations, running completion (bounded or interrupted),
confluence and equality queries, stops and setting changes. -/
theorem C1_active_rules_oriented (s : KB) (h : Reachable s) :
    ∀ r ∈ activeRules s, shortlex_compare r.rhs r.lhs = true := by
  intro r hr
  unfold activeRules at hr
  obtain ⟨i, hi, rfl⟩ := List.mem_map.mp hr
  exact (inv1_reachable h).2.2.2.2 i hi

/-- Witness for C1: the first active rule of the completed two-letter
engine is strictly oriented. -/
theorem C1_witness : shortlex_compare (kbTwo.getRule 0).rhs
    (kbTwo.getRule 0).lhs = true :=
  C1_active_rules_oriented kbTwo
    (Reachable.addRule 30 [1, 0] [0]
      (Reachable.addRule 30 [0, 1] [1] (Reachable.mk0 2) (by decide) (by decide))
      (by decide) (by decide))
    (kbTwo.getRule 0) (by decide)

theorem newRule_fields (s : KB) :
    (s.newRule).1.stopAt = s.stopAt ∧ (s.newRule).1.policy = s.policy ∧
    (s.newRule).1.maxOverlap = s.maxOverlap ∧ (s.newRule).1.log = s.log ∧
    (s.newRule).1.clock = s.clock := by
  simp only [KB.newRule]
  split <;> exact ⟨rfl, rfl, rfl, rfl, rfl⟩

theorem newRuleRaw_fields (s : KB) (l r : Word) :
    (s.newRuleRaw l r).1.stopAt = s.stopAt ∧
    (s.newRuleRaw l r).1.policy = s.policy ∧
    (s.newRuleRaw l r).1.maxOverlap = s.maxOverlap ∧
    (s.newRuleRaw l r).1.log = s.log ∧
    (s.newRuleRaw l r).1.clock = s.clock := by
  simp only [KB.newRuleRaw, KB.newRule]
  split <;> exact ⟨rfl, rfl, rfl, rfl, rfl⟩

theorem newRuleRaw_getRule_mem {s : KB} (h : inv1 s) (l r : Word) {j : Nat}
    (hj : j ∈ s.active) : (s.newRuleRaw l r).1.getRule j = s.getRule j := by
  obtain ⟨h1, hf1, hg1, hac, hst, hsr⟩ := inv1_newRule h
  have hjne : j ≠ (s.newRule).2 := by
    intro he
    refine hf1.2.1 ?_
    rw [hac]
    exact he ▸ hj
  show ((s.newRule).1.setRule (s.newRule).2 _).getRule j = s.getRule j
  rw [getRule_set_ne _ _ _ _ hjne]
  exact hg1 j hjne

theorem add_rule_log (s : KB) (i : Nat) : (s.add_rule i).log = s.log := by
  simp only [KB.add_rule]
  split <;> rfl

theorem removalLoop_log : ∀ (fuel : Nat) (s : KB) (lh : Word) (idx : Nat),
    (removalLoop fuel s lh idx).log = s.log := by
  intro fuel
  induction fuel with
  | zero => intro s lh idx; rfl
  | succ f ih =>
    intro s lh idx
    simp only [removalLoop]
    split
    · split
      · rw [ih]
        rfl
      · split
        · rw [ih]
          rfl
        · rw [ih]
    · rfl

theorem clearStack_log_mono : ∀ (fuel : Nat) (s : KB),
    ∃ t, (clearStack fuel s).log = s.log ++ t := by
  intro fuel
  induction fuel with
  | zero => intro s; exact ⟨[], by simp [clearStack]⟩
  | succ f ih =>
    intro s
    simp only [clearStack]
    split
    · exact ⟨[], by simp⟩
    · split
      · exact ⟨[], by simp⟩
      · split
        · obtain ⟨t, ht⟩ := ih _
          refine ⟨t, ?_⟩
          rw [ht, add_rule_log, removalLoop_log]
          rfl
        · obtain ⟨t, ht⟩ := ih _
          refine ⟨t, ?_⟩
          rw [ht]
          rfl

theorem push_stack_log_mono (fuel : Nat) (s : KB) (i : Nat) :
    ∃ t, (s.push_stack fuel i).log = s.log ++ t := by
  simp only [KB.push_stack]
  split
  · obtain ⟨t, ht⟩ := clearStack_log_mono fuel _
    refine ⟨[((s.getRule i).lhs, (s.getRule i).rhs)] ++ t, ?_⟩
    rw [ht]
    simp
  · exact ⟨[], by simp⟩

theorem overlapGo_log_mono (uI vI : Nat) (uId vId : Int) (limit fuel : Nat) :
    ∀ (cnt : Nat) (s : KB),
    ∃ t, (overlapGo uI vI uId vId limit fuel cnt s).log = s.log ++ t := by
  intro cnt
  induction cnt with
  | zero => intro s; exact ⟨[], by simp [overlapGo]⟩
  | succ c ih =>
    intro s
    simp only [overlapGo]
    split
    · split
      · obtain ⟨t1, ht1⟩ := push_stack_log_mono fuel
          ((s.tick.newRuleRaw
            ((s.getRule uI).lhs.take (limit + c + 1) ++ (s.getRule vI).rhs)
            ((s.getRule uI).rhs ++
              (s.getRule vI).lhs.drop
                ((s.getRule uI).lhs.length - (limit + c + 1)))).1)
          ((s.tick.newRuleRaw
            ((s.getRule uI).lhs.take (limit + c + 1) ++ (s.getRule vI).rhs)
            ((s.getRule uI).rhs ++
              (s.getRule vI).lhs.drop
                ((s.getRule uI).lhs.length - (limit + c + 1)))).2)
        obtain ⟨t2, ht2⟩ := ih _
        refine ⟨t1 ++ t2, ?_⟩
        rw [ht2, ht1, (newRuleRaw_fields s.tick _ _).2.2.2.1]
        show s.log ++ t1 ++ t2 = s.log ++ (t1 ++ t2)
        simp
      · obtain ⟨t, ht⟩ := ih _
        exact ⟨t, ht⟩
    · exact ⟨[], by simp⟩

set_option maxHeartbeats 4000000 in
theorem overlapGo_spec (u v : Rule) (uI vI : Nat) (limit fuel : Nat)
    (pol : OverlapPolicy) (mo : Option Nat) :
    ∀ (cnt : Nat) (s : KB), inv1 s → uI ∈ s.active → vI ∈ s.active →
    s.getRule uI = u → s.getRule vI = v → s.stopAt = none →
    s.policy = pol → s.maxOverlap = mo →
    ((specCandGo pol mo u v limit cnt = [] →
        (overlapGo uI vI u.id v.id limit fuel cnt s).log = s.log ∧
        (overlapGo uI vI u.id v.id limit fuel cnt s).active = s.active) ∧
     (∀ c2 rest, specCandGo pol mo u v limit cnt = c2 :: rest →
        ∃ t, (overlapGo uI vI u.id v.id limit fuel cnt s).log
          = s.log ++ c2 :: t)) := by
  intro cnt
  induction cnt with
  | zero =>
    intro s h hu hv hgu hgv hstop hpol hmo
    exact ⟨fun _ => ⟨rfl, rfl⟩, fun c2 rest hc => by simp [specCandGo] at hc⟩
  | succ c ih =>
    intro s h hu hv hgu hgv hstop hpol hmo
    have hstopped : s.stopped = false := by
      unfold KB.stopped
      rw [hstop]
    rcases mo with _ | b
    · simp only [overlapGo, specCandGo]
      rw [hgu, hgv, hstopped, hmo]
      simp only [beq_self_eq_true, Bool.not_false, Bool.true_and, Bool.and_true,
        eq_self_iff_true, if_true]
      split
      · next hpref =>
        by_cases hw : u.lhs.take (limit + c + 1) ++ v.rhs =
            u.rhs ++ v.lhs.drop (u.lhs.length - (limit + c + 1))
        · -- trivial candidate: allocated rule goes to the inactive pool
          rw [if_neg (not_not_intro hw)]
          simp only [List.nil_append]
          have htick : inv1 s.tick := h
          obtain ⟨hq1, hqf, hqac, hqst, hqsr⟩ := inv1_newRuleRaw htick
            (u.lhs.take (limit + c + 1) ++ v.rhs)
            (u.rhs ++ v.lhs.drop (u.lhs.length - (limit + c + 1)))
          have hr : (s.tick.newRuleRaw
              (u.lhs.take (limit + c + 1) ++ v.rhs)
              (u.rhs ++ v.lhs.drop (u.lhs.length - (limit + c + 1)))).1.getRule
              (s.tick.newRuleRaw
                (u.lhs.take (limit + c + 1) ++ v.rhs)
                (u.rhs ++ v.lhs.drop (u.lhs.length - (limit + c + 1)))).2
              = ⟨u.lhs.take (limit + c + 1) ++ v.rhs,
                 u.rhs ++ v.lhs.drop (u.lhs.length - (limit + c + 1)),
                 ((s.tick.newRule).1.getRule (s.tick.newRule).2).id⟩ := by
            show ((s.tick.newRule).1.setRule (s.tick.newRule).2 _).getRule
              (s.tick.newRule).2 = _
            exact getRule_set_self _ _ _ (inv1_newRule htick).2.1.1
          simp only [KB.push_stack]
          rw [hr]
          rw [if_neg (not_not_intro hw)]
          -- recurse on the inactive-snoc state
          have hmemA : uI ∈ (s.tick.newRuleRaw
              (u.lhs.take (limit + c + 1) ++ v.rhs)
              (u.rhs ++ v.lhs.drop (u.lhs.length - (limit + c + 1)))).1.active := by
            rw [hqac]
            exact hu
          have hmemB : vI ∈ (s.tick.newRuleRaw
              (u.lhs.take (limit + c + 1) ++ v.rhs)
              (u.rhs ++ v.lhs.drop (u.lhs.length - (limit + c + 1)))).1.active := by
            rw [hqac]
            exact hv
          have hgu2 : (s.tick.newRuleRaw
              (u.lhs.take (limit + c + 1) ++ v.rhs)
              (u.rhs ++ v.lhs.drop (u.lhs.length - (limit + c + 1)))).1.getRule uI
              = u := by
            rw [newRuleRaw_getRule_mem htick _ _ hu]
            exact hgu
          have hgv2 : (s.tick.newRuleRaw
              (u.lhs.take (limit + c + 1) ++ v.rhs)
              (u.rhs ++ v.lhs.drop (u.lhs.length - (limit + c + 1)))).1.getRule vI
              = v := by
            rw [newRuleRaw_getRule_mem htick _ _ hv]
            exact hgv
          obtain ⟨hfl1, hfl2, hfl3, hfl4, hfl5⟩ := newRuleRaw_fields s.tick
            (u.lhs.take (limit + c + 1) ++ v.rhs)
            (u.rhs ++ v.lhs.drop (u.lhs.length - (limit + c + 1)))
          have h2 := ih _ (inv1_snoc_inactive hq1 hqf.1 hqf.2.1 hqf.2.2.1 hqf.2.2.2)
            hmemA hmemB hgu2 hgv2 (by rw [hfl1]; exact hstop)
            (by rw [hfl2]; exact hpol) (by rw [hfl3]; exact hmo)
          refine ⟨?_, ?_⟩
          · intro hsp
            refine ⟨((h2.1 hsp).1).trans ?_, ((h2.1 hsp).2).trans ?_⟩
            · show (s.tick.newRuleRaw (u.lhs.take (limit + c + 1) ++ v.rhs)
                (u.rhs ++ v.lhs.drop (u.lhs.length - (limit + c + 1)))).1.log = s.log
              rw [hfl4]
              rfl
            · show (s.tick.newRuleRaw (u.lhs.take (limit + c + 1) ++ v.rhs)
                (u.rhs ++ v.lhs.drop (u.lhs.length - (limit + c + 1)))).1.active = s.active
              rw [hqac]
              rfl
          · intro c2 rest hc
            obtain ⟨t, ht⟩ := h2.2 c2 rest hc
            refine ⟨t, ht.trans ?_⟩
            show (s.tick.newRuleRaw (u.lhs.take (limit + c + 1) ++ v.rhs)
                (u.rhs ++ v.lhs.drop (u.lhs.length - (limit + c + 1)))).1.log ++ c2 :: t = s.log ++ c2 :: t
            rw [hfl4]
            rfl
        · -- genuine candidate: it is pushed and logged
          rw [if_pos hw]
          have htick : inv1 s.tick := h
          have hr : (s.tick.newRuleRaw
              (u.lhs.take (limit + c + 1) ++ v.rhs)
              (u.rhs ++ v.lhs.drop (u.lhs.length - (limit + c + 1)))).1.getRule
              (s.tick.newRuleRaw
                (u.lhs.take (limit + c + 1) ++ v.rhs)
                (u.rhs ++ v.lhs.drop (u.lhs.length - (limit + c + 1)))).2
              = ⟨u.lhs.take (limit + c + 1) ++ v.rhs,
                 u.rhs ++ v.lhs.drop (u.lhs.length - (limit + c + 1)),
                 ((s.tick.newRule).1.getRule (s.tick.newRule).2).id⟩ := by
            show ((s.tick.newRule).1.setRule (s.tick.newRule).2 _).getRule
              (s.tick.newRule).2 = _
            exact getRule_set_self _ _ _ (inv1_newRule htick).2.1.1
          simp only [KB.push_stack]
          rw [hr]
          rw [if_pos hw]
          refine ⟨?_, ?_⟩
          · intro hsp
            simp at hsp
          · intro c2 rest hc
            rw [List.singleton_append, List.cons.injEq] at hc
            obtain ⟨t2, ht2⟩ := overlapGo_log_mono uI vI u.id v.id limit fuel c _
            obtain ⟨t1, ht1⟩ := clearStack_log_mono fuel _
            refine ⟨t1 ++ t2, ?_⟩
            rw [ht2, ht1]
            obtain ⟨hfl1, hfl2, hfl3, hfl4, hfl5⟩ := newRuleRaw_fields s.tick
              (u.lhs.take (limit + c + 1) ++ v.rhs)
              (u.rhs ++ v.lhs.drop (u.lhs.length - (limit + c + 1)))
            show (s.tick.newRuleRaw _ _).1.log ++
              [(u.lhs.take (limit + c + 1) ++ v.rhs,
                u.rhs ++ v.lhs.drop (u.lhs.length - (limit + c + 1)))] ++ t1 ++ t2
              = s.log ++ c2 :: (t1 ++ t2)
            rw [hfl4]
            show s.log ++ [(u.lhs.take (limit + c + 1) ++ v.rhs,
                u.rhs ++ v.lhs.drop (u.lhs.length - (limit + c + 1)))] ++ t1 ++ t2
              = s.log ++ c2 :: (t1 ++ t2)
            rw [← hc.1]
            simp
      · next hpref =>
        simp only [List.nil_append]
        exact ih s.tick h hu hv hgu hgv hstop hpol hmo
    · simp only [overlapGo, specCandGo]
      rw [hgu, hgv, hstopped, hpol, hmo]
      simp only [beq_self_eq_true, Bool.not_false, Bool.true_and, Bool.and_true]
      split
      · split
        · next hpref =>
          by_cases hw : u.lhs.take (limit + c + 1) ++ v.rhs =
              u.rhs ++ v.lhs.drop (u.lhs.length - (limit + c + 1))
          · -- trivial candidate: allocated rule goes to the inactive pool
            rw [if_neg (not_not_intro hw)]
            simp only [List.nil_append]
            have htick : inv1 s.tick := h
            obtain ⟨hq1, hqf, hqac, hqst, hqsr⟩ := inv1_newRuleRaw htick
              (u.lhs.take (limit + c + 1) ++ v.rhs)
              (u.rhs ++ v.lhs.drop (u.lhs.length - (limit + c + 1)))
            have hr : (s.tick.newRuleRaw
                (u.lhs.take (limit + c + 1) ++ v.rhs)
                (u.rhs ++ v.lhs.drop (u.lhs.length - (limit + c + 1)))).1.getRule
                (s.tick.newRuleRaw
                  (u.lhs.take (limit + c + 1) ++ v.rhs)
                  (u.rhs ++ v.lhs.drop (u.lhs.length - (limit + c + 1)))).2
                = ⟨u.lhs.take (limit + c + 1) ++ v.rhs,
                   u.rhs ++ v.lhs.drop (u.lhs.length - (limit + c + 1)),
                   ((s.tick.newRule).1.getRule (s.tick.newRule).2).id⟩ := by
              show ((s.tick.newRule).1.setRule (s.tick.newRule).2 _).getRule
                (s.tick.newRule).2 = _
              exact getRule_set_self _ _ _ (inv1_newRule htick).2.1.1
            simp only [KB.push_stack]
            rw [hr]
            rw [if_neg (not_not_intro hw)]
            -- recurse on the inactive-snoc state
            have hmemA : uI ∈ (s.tick.newRuleRaw
                (u.lhs.take (limit + c + 1) ++ v.rhs)
                (u.rhs ++ v.lhs.drop (u.lhs.length - (limit + c + 1)))).1.active := by
              rw [hqac]
              exact hu
            have hmemB : vI ∈ (s.tick.newRuleRaw
                (u.lhs.take (limit + c + 1) ++ v.rhs)
                (u.rhs ++ v.lhs.drop (u.lhs.length - (limit + c + 1)))).1.active := by
              rw [hqac]
              exact hv
            have hgu2 : (s.tick.newRuleRaw
                (u.lhs.take (limit + c + 1) ++ v.rhs)
                (u.rhs ++ v.lhs.drop (u.lhs.length - (limit + c + 1)))).1.getRule uI
                = u := by
              rw [newRuleRaw_getRule_mem htick _ _ hu]
              exact hgu
            have hgv2 : (s.tick.newRuleRaw
                (u.lhs.take (limit + c + 1) ++ v.rhs)
                (u.rhs ++ v.lhs.drop (u.lhs.length - (limit + c + 1)))).1.getRule vI
                = v := by
              rw [newRuleRaw_getRule_mem htick _ _ hv]
              exact hgv
            obtain ⟨hfl1, hfl2, hfl3, hfl4, hfl5⟩ := newRuleRaw_fields s.tick
              (u.lhs.take (limit + c + 1) ++ v.rhs)
              (u.rhs ++ v.lhs.drop (u.lhs.length - (limit + c + 1)))
            have h2 := ih _ (inv1_snoc_inactive hq1 hqf.1 hqf.2.1 hqf.2.2.1 hqf.2.2.2)
              hmemA hmemB hgu2 hgv2 (by rw [hfl1]; exact hstop)
              (by rw [hfl2]; exact hpol) (by rw [hfl3]; exact hmo)
            refine ⟨?_, ?_⟩
            · intro hsp
              refine ⟨((h2.1 hsp).1).trans ?_, ((h2.1 hsp).2).trans ?_⟩
              · show (s.tick.newRuleRaw (u.lhs.take (limit + c + 1) ++ v.rhs)
                (u.rhs ++ v.lhs.drop (u.lhs.length - (limit + c + 1)))).1.log = s.log
                rw [hfl4]
                rfl
              · show (s.tick.newRuleRaw (u.lhs.take (limit + c + 1) ++ v.rhs)
                (u.rhs ++ v.lhs.drop (u.lhs.length - (limit + c + 1)))).1.active = s.active
                rw [hqac]
                rfl
            · intro c2 rest hc
              obtain ⟨t, ht⟩ := h2.2 c2 rest hc
              refine ⟨t, ht.trans ?_⟩
              show (s.tick.newRuleRaw (u.lhs.take (limit + c + 1) ++ v.rhs)
                (u.rhs ++ v.lhs.drop (u.lhs.length - (limit + c + 1)))).1.log ++ c2 :: t = s.log ++ c2 :: t
              rw [hfl4]
              rfl
          · -- genuine candidate: it is pushed and logged
            rw [if_pos hw]
            have htick : inv1 s.tick := h
            have hr : (s.tick.newRuleRaw
                (u.lhs.take (limit + c + 1) ++ v.rhs)
                (u.rhs ++ v.lhs.drop (u.lhs.length - (limit + c + 1)))).1.getRule
                (s.tick.newRuleRaw
                  (u.lhs.take (limit + c + 1) ++ v.rhs)
                  (u.rhs ++ v.lhs.drop (u.lhs.length - (limit + c + 1)))).2
                = ⟨u.lhs.take (limit + c + 1) ++ v.rhs,
                   u.rhs ++ v.lhs.drop (u.lhs.length - (limit + c + 1)),
                   ((s.tick.newRule).1.getRule (s.tick.newRule).2).id⟩ := by
              show ((s.tick.newRule).1.setRule (s.tick.newRule).2 _).getRule
                (s.tick.newRule).2 = _
              exact getRule_set_self _ _ _ (inv1_newRule htick).2.1.1
            simp only [KB.push_stack]
            rw [hr]
            rw [if_pos hw]
            refine ⟨?_, ?_⟩
            · intro hsp
              simp at hsp
            · intro c2 rest hc
              rw [List.singleton_append, List.cons.injEq] at hc
              obtain ⟨t2, ht2⟩ := overlapGo_log_mono uI vI u.id v.id limit fuel c _
              obtain ⟨t1, ht1⟩ := clearStack_log_mono fuel _
              refine ⟨t1 ++ t2, ?_⟩
              rw [ht2, ht1]
              obtain ⟨hfl1, hfl2, hfl3, hfl4, hfl5⟩ := newRuleRaw_fields s.tick
                (u.lhs.take (limit + c + 1) ++ v.rhs)
                (u.rhs ++ v.lhs.drop (u.lhs.length - (limit + c + 1)))
              show (s.tick.newRuleRaw _ _).1.log ++
                [(u.lhs.take (limit + c + 1) ++ v.rhs,
                  u.rhs ++ v.lhs.drop (u.lhs.length - (limit + c + 1)))] ++ t1 ++ t2
                = s.log ++ c2 :: (t1 ++ t2)
              rw [hfl4]
              show s.log ++ [(u.lhs.take (limit + c + 1) ++ v.rhs,
                  u.rhs ++ v.lhs.drop (u.lhs.length - (limit + c + 1)))] ++ t1 ++ t2
                = s.log ++ c2 :: (t1 ++ t2)
              rw [← hc.1]
              simp
        · next hpref =>
          simp only [List.nil_append]
          exact ih s.tick h hu hv hgu hgv hstop hpol hmo
      · exact ⟨fun _ => ⟨rfl, rfl⟩, fun c2 rest hc => by simp at hc⟩

/-- C6 (corrected): an `overlap(u, v)` scan on an engine whose pools
satisfy the structural invariant, with no stop pending, ranges over the
proper overlap positions (the nonempty suffixes of `u.lhs` that are
strictly shorter than both reducible sides — not every nonempty suffix as
claimed), in decreasing-length-of-`A` order and subject to the sequential
overlap-measure bound; when no predicted candidate pair differs, nothing
is pushed and the active collection is untouched, and when the first
predicted candidate differs it is pushed with exactly the predicted pair
of words. -/
theorem C6_overlap_candidates {s : KB} (h : inv1 s) {uI vI : Nat}
    (hu : uI ∈ s.active) (hv : vI ∈ s.active) (hstop : s.stopAt = none)
    (fuel : Nat) :
    (specCandidates s.policy s.maxOverlap (s.getRule uI) (s.getRule vI) = [] →
        (s.overlap fuel uI vI).log = s.log ∧
        (s.overlap fuel uI vI).active = s.active) ∧
    (∀ c rest,
        specCandidates s.policy s.maxOverlap (s.getRule uI) (s.getRule vI)
          = c :: rest →
        ∃ t, (s.overlap fuel uI vI).log = s.log ++ c :: t) := by
  have hsp := overlapGo_spec (s.getRule uI) (s.getRule vI) uI vI
    ((s.getRule uI).lhs.length -
      min (s.getRule uI).lhs.length (s.getRule vI).lhs.length)
    fuel s.policy s.maxOverlap
    ((s.getRule uI).lhs.length - 1 -
      ((s.getRule uI).lhs.length -
        min (s.getRule uI).lhs.length (s.getRule vI).lhs.length))
    s h hu hv rfl rfl hstop rfl rfl
  simp only [KB.overlap]
  exact hsp

/-- Witness for C6: on the engine with rules `ab -> b` and `ba -> a`,
the scan over the pair pushes exactly the predicted critical pair
`(aa, ba)`. -/
theorem C6_witness :
    (inv1 kbRw ∧ (0 : Nat) ∈ kbRw.active ∧ (1 : Nat) ∈ kbRw.active ∧
      kbRw.stopAt = none ∧
      specCandidates kbRw.policy kbRw.maxOverlap (kbRw.getRule 0)
        (kbRw.getRule 1) = [([1, 1], [2, 1])]) ∧
    ∃ t, (kbRw.overlap 30 0 1).log = kbRw.log ++ ([1, 1], [2, 1]) :: t :=
  ⟨⟨by decide, by decide, by decide, by decide, by decide⟩,
   (C6_overlap_candidates (by decide) (by decide) (by decide) (by decide) 30).2
     ([1, 1], [2, 1]) [] (by decide)⟩

/-- Counterexample to C6 as stated: `ab` is a nonempty suffix of itself
and a prefix of `abc`, and the two derived words differ, so the claim
predicts a pushed pair for `overlap(ab -> b, abc -> c)`; but the code
only scans proper overlap positions and pushes nothing. -/
theorem C6_counterexample :
    (kbOverCex.getRule 0).lhs = [1, 2] ∧
    (kbOverCex.getRule 1).lhs = [1, 2, 3] ∧
    isSuff (kbOverCex.getRule 0).lhs (kbOverCex.getRule 0).lhs = true ∧
    isPref (kbOverCex.getRule 0).lhs (kbOverCex.getRule 1).lhs = true ∧
    ¬ ([] : Word) ++ (kbOverCex.getRule 1).rhs
        = (kbOverCex.getRule 0).rhs ++ [3] ∧
    kbOverCex.maxOverlap = none ∧ kbOverCex.stopAt = none ∧
    (kbOverCex.overlap 30 0 1).log = [] ∧ kbOverCex.log = [] := by
  decide
